import Mathlib

/-!
# CoordinateParser (include/coordinateparser.hpp)

A shallow embedding of the header-only coordinate parser and the properties
of its validation / decoding pipeline.

Modelling conventions.

* `std::string` is a `List Char`.  The program reads its input byte by byte
  and only ever tests a byte against ASCII letters, ASCII digits, `-` and `.`;
  every classification below is by code point, and a code point above 127
  behaves like any byte of a multi-byte sequence (it is no letter, no digit).
* `double` is a rational number: a finite double is the rational it denotes,
  +∞ and -∞ are `2 ^ 1024` and `-2 ^ 1024`, and the two zeros are one number
  (they compare equal; only the sign bit of a zero result tells them apart).
  Every arithmetic operation rounds its exact result to the nearest double,
  ties to even (`roundDouble`), as IEEE 754 binary64 arithmetic evaluated in
  double precision does; a result that reaches `2 ^ 1024` after rounding is
  an infinity.  Infinities arise only in the sum of `toDecimal`, where a
  number is only added to non-negative numbers and multiplied by `1` or `-1`,
  and there `roundDouble` computes what IEEE arithmetic does; no NaN arises.
  `std::abs` and `std::floor` are exact.
* The `float` parameter of `normalizedSignOf` receives its `double` argument
  rounded to binary32 (`roundFloat`), an infinity beyond the range of `float`.
* `std::stod` is `strtod` with the error handling of libstdc++: it returns
  the double nearest to the literal, and `none` stands for its two
  exceptions, `std::invalid_argument` when no number starts the string and
  `std::out_of_range` when `strtod` reports `ERANGE` (as glibc does on
  overflow, and on a non-zero result below the least normal double that is
  not exact).
* A C++ exception is an `Except.error`.
* `std::regex` is a small backtracking matcher that returns, in the
  priority order of an ECMAScript engine, every way a pattern can match at
  the front of a string.
-/

namespace CoordinateParser

/-! ## Regular expressions -/

/-- The fragment of ECMAScript patterns used by the program: a character
class, concatenation, the greedy quantifiers `?` and `*`, and the negative
lookahead `(?!…)`. -/
inductive Regex where
  | cls (p : Char → Bool)
  | seq (a b : Regex)
  | opt (a : Regex)
  | star (a : Regex)
  | notAhead (a : Regex)

/-- Greedy iteration of a matcher `f`: the longest chain of iterations comes
first, an iteration that consumes nothing is not taken, and `n` bounds the
number of iterations (the length of the string always suffices). -/
def starLoop (f : List Char → List (List Char)) : Nat → List Char → List (List Char)
  | 0, s => [s]
  | n + 1, s => ((f s).filter (fun t => decide (t.length < s.length))).flatMap (starLoop f n) ++ [s]

namespace Regex

/-- The pattern `a+`. -/
def plus (a : Regex) : Regex := seq a (star a)

/-- All the ways `r` matches at the front of `s`, each given by the rest of
`s` after the match, in backtracking priority order. -/
def run : Regex → List Char → List (List Char)
  | cls _, [] => []
  | cls p, c :: t => if p c then [t] else []
  | seq a b, s => (run a s).flatMap (run b)
  | opt a, s => run a s ++ [s]
  | star a, s => starLoop (run a) s.length s
  | notAhead a, s => if (run a s).isEmpty then [s] else []

end Regex

/-- The function `std::regex_match`: the pattern matches the whole string. -/
def regexMatch (r : Regex) (s : List Char) : Bool := (r.run s).contains []

/-- The function `std::regex_search` with a match result: the leftmost
position where the pattern matches, and there the first match in priority
order; returns the matched text `sm[0]` and the text after it
(`sm[0].second`). -/
def regexSearch (r : Regex) : List Char → Option (List Char × List Char)
  | [] => match r.run [] with
    | t :: _ => some ([], t)
    | [] => none
  | c :: s => match r.run (c :: s) with
    | t :: _ => some ((c :: s).take ((c :: s).length - t.length), t)
    | [] => regexSearch r s

/-- The function `std::regex_search` without a match result. -/
def regexFound (r : Regex) (s : List Char) : Bool := (regexSearch r s).isSome

/-! ## Character classes -/

/-- The case folding of `std::regex_constants::icase` (`tolower`), on code points. -/
def foldCase (c : Char) : Nat :=
  if 65 ≤ c.toNat ∧ c.toNat ≤ 90 then c.toNat + 32 else c.toNat

/-- The class `[a-z]` under `icase`. -/
def isAZ (c : Char) : Bool := decide (97 ≤ foldCase c ∧ foldCase c ≤ 122)

/-- The class `[neswd]` under `icase`. -/
def isNESWD (c : Char) : Bool :=
  foldCase c == 110 || foldCase c == 101 || foldCase c == 115 || foldCase c == 119
    || foldCase c == 100

/-- The class `[ns]` under `icase`. -/
def isNS (c : Char) : Bool := foldCase c == 110 || foldCase c == 115

/-- The class `[ew]` under `icase`. -/
def isEW (c : Char) : Bool := foldCase c == 101 || foldCase c == 119

/-- The class `[^nsew]` under `icase`. -/
def notNSEW (c : Char) : Bool := !(isNS c || isEW c)

/-- The class `\d`. -/
def isDigit (c : Char) : Bool := decide (48 ≤ c.toNat ∧ c.toNat ≤ 57)

/-- The literal `-`. -/
def isMinus (c : Char) : Bool := c.toNat == 45

/-- The literal `\.`. -/
def isDot (c : Char) : Bool := c.toNat == 46

/-- The pattern `(?![neswd])[a-z]` of `checkContainsNoLetters`. -/
def invalidLetterRegex : Regex :=
  .seq (.notAhead (.cls isNESWD)) (.cls isAZ)

/-- The pattern `^[^nsew]*[ns]?[^nsew]*[ew]?[^nsew]*$` of `checkValidOrientation`
(the anchors are implied by `regexMatch`). -/
def orientationRegex : Regex :=
  .seq (.star (.cls notNSEW)) (.seq (.opt (.cls isNS)) (.seq (.star (.cls notNSEW))
    (.seq (.opt (.cls isEW)) (.star (.cls notNSEW)))))

/-- The pattern `-?\d+(\.\d+)?` of `extractCoordinateNumbers`. -/
def numberRegex : Regex :=
  .seq (.opt (.cls isMinus)) (.seq (Regex.plus (.cls isDigit))
    (.opt (.seq (.cls isDot) (Regex.plus (.cls isDigit)))))

/-! ## Floating-point numbers -/

/-- The loop that computes `⌊log₂ n⌋` by halving, bounded by `fuel` iterations. -/
def log2Fuel : Nat → Nat → Nat
  | 0, _ => 0
  | fuel + 1, n => if 2 ≤ n then log2Fuel fuel (n / 2) + 1 else 0

/-- The number `⌊log₂ n⌋` for `n ≠ 0`. -/
def natLog2 (n : Nat) : Nat := log2Fuel n n

/-- The binary exponent `⌊log₂ |x|⌋` of a rational `x ≠ 0`. -/
def ilog2 (x : ℚ) : ℤ :=
  let e : ℤ := (natLog2 x.num.natAbs : ℤ) - (natLog2 x.den : ℤ)
  if (2 : ℚ) ^ e ≤ |x| then e else e - 1

/-- The integer nearest to `y`, the even one of the two when `y` lies half-way. -/
def roundHalfEven (y : ℚ) : ℤ :=
  let f := ⌊y⌋
  if y - f < 1 / 2 then f
  else if 1 / 2 < y - f then f + 1
  else if f % 2 = 0 then f else f + 1

/-- The multiple of `2 ^ e` nearest to `a`, ties to the even multiple. -/
def roundAt (e : ℤ) (a : ℚ) : ℚ := (roundHalfEven (a / (2 : ℚ) ^ e) : ℚ) * (2 : ℚ) ^ e

/-- The exponent of the unit in the last place of the magnitude `a` in a binary format
with `p` significant bits whose least positive number is `2 ^ emin`. -/
def ulpExponent (p : ℕ) (emin : ℤ) (a : ℚ) : ℤ := max (ilog2 a - ((p : ℤ) - 1)) emin

/-- Round-to-nearest, ties to even, of a magnitude `a ≥ 0` in the binary format with
`p` significant bits, least positive number `2 ^ emin` and greatest exponent `emax`;
the infinity of the format is `2 ^ (emax + 1)`. -/
def roundMagnitude (p : ℕ) (emin emax : ℤ) (a : ℚ) : ℚ :=
  let r := roundAt (ulpExponent p emin a) a
  if (2 : ℚ) ^ (emax + 1) ≤ r then (2 : ℚ) ^ (emax + 1) else r

/-- Round-to-nearest, ties to even, in a binary format: the magnitude is rounded and
the sign is kept. -/
def roundBinary (p : ℕ) (emin emax : ℤ) (x : ℚ) : ℚ :=
  if x < 0 then -roundMagnitude p emin emax (-x) else roundMagnitude p emin emax x

/-- Rounding to `double` (IEEE 754 binary64). -/
def roundDouble (x : ℚ) : ℚ := roundBinary 53 (-1074) 1023 x

/-- Rounding to `float` (IEEE 754 binary32), the conversion of a `double` to `float`. -/
def roundFloat (x : ℚ) : ℚ := roundBinary 24 (-149) 127 x

/-- The operator `+` on `double`. -/
def doubleAdd (a b : ℚ) : ℚ := roundDouble (a + b)

/-- The operator `-` on `double`. -/
def doubleSub (a b : ℚ) : ℚ := roundDouble (a - b)

/-- The operator `*` on `double`. -/
def doubleMul (a b : ℚ) : ℚ := roundDouble (a * b)

/-- The operator `/` on `double`. -/
def doubleDiv (a b : ℚ) : ℚ := roundDouble (a / b)

/-! ## CoordinateNumber -/

/-- The loop of `extractCoordinateNumbers`, bounded by `fuel` iterations. -/
def extractLoop : Nat → List Char → List (List Char)
  | 0, _ => []
  | fuel + 1, s => match regexSearch numberRegex s with
    | none => []
    | some (m, rest) => m :: extractLoop fuel rest

/-- The function `CoordinateNumber::extractCoordinateNumbers`.  Every match
is non-empty, so the loop runs at most `s.length + 1` times. -/
def extractCoordinateNumbers (s : List Char) : List (List Char) :=
  extractLoop (s.length + 1) s

/-- The value of a string of decimal digits. -/
def digitsToNat (ds : List Char) : Nat :=
  ds.foldl (fun a c => 10 * a + (c.toNat - 48)) 0

/-- White space in the sense of `isspace`, which `std::stod` skips first. -/
def isSpace (c : Char) : Bool := c.toNat == 32 || decide (9 ≤ c.toNat ∧ c.toNat ≤ 13)

/-- The literal `+`. -/
def isPlus (c : Char) : Bool := c.toNat == 43

/-- The unsigned part of a decimal literal: digits with an optional fraction, at
least one digit in all; its exact value, `none` when no number starts the string. -/
def stodUnsigned (s : List Char) : Option ℚ :=
  let ip := s.takeWhile isDigit
  let fp := match s.dropWhile isDigit with
    | c :: t => if isDot c then t.takeWhile isDigit else []
    | [] => []
  if ip.isEmpty && fp.isEmpty then none
  else some ((digitsToNat ip : ℚ) + (digitsToNat fp : ℚ) / (10 : ℚ) ^ fp.length)

/-- The number written by the decimal literal that `strtod` finds at the front of a
string: optional white space, an optional sign, digits with an optional fraction;
`none` when no number starts the string.  (Exponents, hexadecimal literals, `inf` and
`nan` need a letter and never occur in a token.) -/
def decimalValue (s : List Char) : Option ℚ :=
  match s.dropWhile isSpace with
  | [] => none
  | c :: t =>
    if isMinus c then (stodUnsigned t).map (fun v => -v)
    else if isPlus c then stodUnsigned t
    else stodUnsigned (c :: t)

/-- The condition under which `strtod` sets `ERANGE` for a literal of value `v`: the
value rounds to an infinity, or it is not zero, rounds (with 53 bits and an unbounded
exponent) to less than the least normal double `2 ^ (-1022)` and is not a double
itself. -/
def strtodRangeError (v : ℚ) : Bool :=
  decide ((2 : ℚ) ^ (1024 : ℤ) ≤ |roundDouble v|) ||
    (decide (roundAt (ilog2 v - 52) |v| < (2 : ℚ) ^ (-1022 : ℤ)) && decide (roundDouble v ≠ v))

/-- The function `std::stod` on decimal literals: the double nearest to the literal;
`none` is an exception, `std::invalid_argument` when no number starts the string and
`std::out_of_range` when `strtod` reports a range error. -/
def stod (s : List Char) : Option ℚ :=
  match decimalValue s with
  | none => none
  | some v => if strtodRangeError v then none else some (roundDouble v)

/-- The fields of `class CoordinateNumber`. -/
structure CoordinateNumber where
  sign : Int
  degrees : ℚ
  minutes : ℚ
  seconds : ℚ
  milliseconds : ℚ
  degreescanbespecial : Bool
deriving DecidableEq

/-- The method `normalizedSignOf`; its parameter is a `float`. -/
def normalizedSignOf (number : ℚ) : Int := if number ≥ 0 then 1 else -1

/-- The call `std::stod(coordinateNumbers[i])`, an exception when it fails. -/
def stodAt (coordinateNumbers : List (List Char)) (i : Nat) : Except String ℚ :=
  match stod (coordinateNumbers.getD i []) with
  | some v => .ok v
  | none =>
    .error (if (decimalValue (coordinateNumbers.getD i [])).isNone then "std::invalid_argument"
      else "std::out_of_range")

/-- The expression `coordinateNumbers.size() > i ? std::abs(std::stod(coordinateNumbers[i])) : 0`. -/
def absAt (coordinateNumbers : List (List Char)) (i : Nat) : Except String ℚ :=
  if coordinateNumbers.length > i then (stodAt coordinateNumbers i).map abs else .ok 0

/-- The constructor `CoordinateNumber(coordinateNumbers)`; the double that `std::stod`
returns for the first token is converted to the `float` parameter of
`normalizedSignOf`. -/
def CoordinateNumber.new (coordinateNumbers : List (List Char)) :
    Except String CoordinateNumber :=
  if coordinateNumbers.length < 1 then .error "coordinate number is too small"
  else do
    let d ← stodAt coordinateNumbers 0
    let m ← absAt coordinateNumbers 1
    let s ← absAt coordinateNumbers 2
    let ms ← absAt coordinateNumbers 3
    pure
      { sign := normalizedSignOf (roundFloat d)
        degrees := |d|
        minutes := m
        seconds := s
        milliseconds := ms
        degreescanbespecial := decide (coordinateNumbers.length < 2) }

namespace CoordinateNumber

/-- The method `degreesCanBeMilliseconds`. -/
def degreesCanBeMilliseconds (c : CoordinateNumber) : Bool := decide (c.degrees > 909090)

/-- The method `degreesCanBeDegreesMinutesAndSeconds`. -/
def degreesCanBeDegreesMinutesAndSeconds (c : CoordinateNumber) : Bool :=
  decide (c.degrees > 9090)

/-- The method `degreesCanBeDegreesAndMinutes`. -/
def degreesCanBeDegreesAndMinutes (c : CoordinateNumber) : Bool := decide (c.degrees > 360)

/-- The method `degreesAsMilliseconds`. -/
def degreesAsMilliseconds (c : CoordinateNumber) : CoordinateNumber :=
  { c with milliseconds := c.degrees, degrees := 0 }

/-- The method `degreesAsDegreesMinutesAndSeconds`. -/
def degreesAsDegreesMinutesAndSeconds (c : CoordinateNumber) : CoordinateNumber :=
  let newDegrees : ℚ := ⌊doubleDiv c.degrees 10000⌋
  let minutes : ℚ := ⌊doubleDiv (doubleSub c.degrees (doubleMul newDegrees 10000)) 100⌋
  let seconds : ℚ :=
    ⌊doubleSub (doubleSub c.degrees (doubleMul newDegrees 10000)) (doubleMul minutes 100)⌋
  { c with minutes := minutes, seconds := seconds, degrees := newDegrees }

/-- The method `degreesAsDegreesAndMinutes`. -/
def degreesAsDegreesAndMinutes (c : CoordinateNumber) : CoordinateNumber :=
  let newDegrees : ℚ := ⌊doubleDiv c.degrees 100⌋
  { c with minutes := doubleSub c.degrees (doubleMul newDegrees 100), degrees := newDegrees }

/-- The method `detectSpecialFormats`. -/
def detectSpecialFormats (c : CoordinateNumber) : CoordinateNumber :=
  if c.degreescanbespecial then
    if c.degreesCanBeMilliseconds then c.degreesAsMilliseconds
    else if c.degreesCanBeDegreesMinutesAndSeconds then c.degreesAsDegreesMinutesAndSeconds
    else if c.degreesCanBeDegreesAndMinutes then c.degreesAsDegreesAndMinutes
    else c
  else c

/-- The method `toDecimal`. -/
def toDecimal (c : CoordinateNumber) : ℚ :=
  doubleMul (c.sign : ℚ)
    (doubleAdd (doubleAdd (doubleAdd c.degrees (doubleDiv c.minutes 60))
      (doubleDiv c.seconds 3600)) (doubleDiv c.milliseconds 3600000))

end CoordinateNumber

/-! ## CoordinateValidator -/

/-- The outcome of a validation: the returned flag and the `message` out-parameter. -/
structure Validation where
  ok : Bool
  message : String
deriving DecidableEq

namespace CoordinateValidator

/-- The function `checkContainsNoLetters`: `none` when the check passes, else the message. -/
def checkContainsNoLetters (coordinates : List Char) : Option String :=
  if regexFound invalidLetterRegex coordinates then
    some "Coordinate contains invalid alphanumeric characters."
  else none

/-- The function `checkValidOrientation`. -/
def checkValidOrientation (coordinates : List Char) : Option String :=
  if !regexMatch orientationRegex coordinates then some "Invalid cardinal direction."
  else none

/-- The function `checkAnyCoordinateNumbers`. -/
def checkAnyCoordinateNumbers (coordinateNumbers : List (List Char)) : Option String :=
  if coordinateNumbers.length = 0 then some "Could not find any coordinate number" else none

/-- The function `checkEvenCoordinateNumbers`. -/
def checkEvenCoordinateNumbers (coordinateNumbers : List (List Char)) : Option String :=
  if coordinateNumbers.length % 2 ≠ 0 then some "Uneven count of latitude/longitude numbers"
  else none

/-- The function `checkMaximumCoordinateNumbers`. -/
def checkMaximumCoordinateNumbers (coordinateNumbers : List (List Char)) : Option String :=
  if coordinateNumbers.length > 6 then some "Too many coordinate numbers" else none

/-- The function `checkNumbers`. -/
def checkNumbers (coordinates : List Char) : Option String :=
  let coordinateNumbers := extractCoordinateNumbers coordinates
  match checkAnyCoordinateNumbers coordinateNumbers with
  | some m => some m
  | none =>
    match checkEvenCoordinateNumbers coordinateNumbers with
    | some m => some m
    | none => checkMaximumCoordinateNumbers coordinateNumbers

/-- The function `CoordinateValidator::isValid`: the message starts empty and
the first failing check sets it. -/
def isValid (coordinates : List Char) : Validation :=
  match checkContainsNoLetters coordinates with
  | some m => ⟨false, m⟩
  | none =>
    match checkValidOrientation coordinates with
    | some m => ⟨false, m⟩
    | none =>
      match checkNumbers coordinates with
      | some m => ⟨false, m⟩
      | none => ⟨true, ""⟩

end CoordinateValidator

/-! ## CoordinateParser -/

/-- The function `coordinateNumbersToDecimal`. -/
def coordinateNumbersToDecimal (coordinateNumbers : List (List Char)) : Except String ℚ :=
  (CoordinateNumber.new coordinateNumbers).map
    (fun c => c.detectSpecialFormats.toDecimal)

/-- The function `latitudeIsNegative`. -/
def latitudeIsNegative (coordinateString : List Char) : Bool :=
  coordinateString.contains 's' || coordinateString.contains 'S'

/-- The function `longitudeIsNegative`. -/
def longitudeIsNegative (coordinateString : List Char) : Bool :=
  coordinateString.contains 'w' || coordinateString.contains 'W'

/-- The function `CoordinateParser::isValid`. -/
def isValid (coordinateString : List Char) : Validation :=
  CoordinateValidator.isValid coordinateString

/-- The values `parse` leaves behind: the returned flag and the three out-parameters. -/
structure ParseResult where
  success : Bool
  latitude : ℚ
  longitude : ℚ
  message : String
deriving DecidableEq

/-- The function `CoordinateParser::parse`. -/
def parse (coordinateString : List Char) : Except String ParseResult :=
  let v := CoordinateValidator.isValid coordinateString
  if !v.ok then .ok ⟨false, 0, 0, v.message⟩
  else do
    let coordinateNumbers := extractCoordinateNumbers coordinateString
    let numberCountEachCoordinate := coordinateNumbers.length / 2
    let latitudeNumbers := coordinateNumbers.take numberCountEachCoordinate
    let longitudeNumbers := coordinateNumbers.drop numberCountEachCoordinate
    let latitude ← coordinateNumbersToDecimal latitudeNumbers
    let latitude := if latitudeIsNegative coordinateString then doubleMul latitude (-1) else latitude
    let longitude ← coordinateNumbersToDecimal longitudeNumbers
    let longitude := if longitudeIsNegative coordinateString then doubleMul longitude (-1) else longitude
    pure ⟨true, latitude, longitude, v.message⟩

/-! ## Notions used in the statements -/

/-- The cardinal letters (`n`, `s`, `e`, `w` in either case) of a string, in order. -/
def cardinalLetters (s : List Char) : List Char := s.filter (fun c => isNS c || isEW c)

/-- A sequence of cardinal letters made of at most one `n`/`s` followed by at
most one `e`/`w`. -/
def OrientationOK (l : List Char) : Prop :=
  ∃ a b, l = a ++ b ∧ a.length ≤ 1 ∧ (∀ c ∈ a, isNS c = true) ∧
    b.length ≤ 1 ∧ (∀ c ∈ b, isEW c = true)

/-- The shape every extracted token has: an optional `-`, then a digit. -/
def TokenHead (m : List Char) : Prop :=
  ∃ sg d u, m = sg ++ d :: u ∧ (sg = [] ∨ ∃ c, sg = [c] ∧ isMinus c = true) ∧ isDigit d = true

/-- The reference definition of the decoding of a single token that is read as the
double `v`, in the words of the specification: the thresholds 909090, 9090 and 360 are
tried in this order with strict comparisons on `d = |v|`; the integer parts are those of
the exact quotients and differences, and the `/`, `+` and `*` of the formulas are the
operations on `double`. -/
def decodeSingleReference (v : ℚ) : ℚ :=
  let d : ℚ := |v|
  let s : ℚ := if v ≥ 0 then 1 else -1
  if d > 909090 then doubleMul s (doubleDiv d 3600000)
  else if d > 9090 then
    let D : ℚ := ⌊d / 10000⌋
    let M : ℚ := ⌊(d - 10000 * D) / 100⌋
    let S : ℚ := ⌊d - 10000 * D - 100 * M⌋
    doubleMul s (doubleAdd (doubleAdd D (doubleDiv M 60)) (doubleDiv S 3600))
  else if d > 360 then
    doubleMul s (doubleAdd (⌊d / 100⌋ : ℚ) (doubleDiv (d - 100 * (⌊d / 100⌋ : ℚ)) 60))
  else doubleMul s d

/-- The loop of `extractCoordinateNumbers` with an explicit outcome for the fuel
running out: `none` when `fuel` iterations were not enough to reach the end of the
loop. -/
def extractRun : Nat → List Char → Option (List (List Char))
  | 0, _ => none
  | fuel + 1, s => match regexSearch numberRegex s with
    | none => some []
    | some (m, rest) => (extractRun fuel rest).map (fun toks => m :: toks)

/-- The greedy match of "one or more digits, optional `.` followed by one or more
digits" at the front of a string, in the words of the specification: the matched text
and the rest, `none` when no digit stands at the front. -/
def greedyUnsignedAt (s : List Char) : Option (List Char × List Char) :=
  if (s.takeWhile isDigit).isEmpty then none
  else
    match s.dropWhile isDigit with
    | c :: t =>
      if isDot c && !(t.takeWhile isDigit).isEmpty then
        some (s.takeWhile isDigit ++ c :: t.takeWhile isDigit, t.dropWhile isDigit)
      else some (s.takeWhile isDigit, c :: t)
    | [] => some (s.takeWhile isDigit, [])

/-- The greedy match of "optional `-`, one or more digits, optional `.` followed by
one or more digits" at the front of a string, in the words of the specification. -/
def greedyNumberAt : List Char → Option (List Char × List Char)
  | [] => none
  | c :: t =>
    if isMinus c then (greedyUnsignedAt t).map (fun x => (c :: x.1, x.2))
    else greedyUnsignedAt (c :: t)

/-- The leftmost greedy match in a string, in the words of the specification: the
text skipped before the match, the matched text and the rest. -/
def leftmostGreedy : List Char → Option (List Char × List Char × List Char)
  | [] => none
  | c :: t =>
    match greedyNumberAt (c :: t) with
    | some (m, rest) => some ([], m, rest)
    | none => (leftmostGreedy t).map (fun x => (c :: x.1, x.2.1, x.2.2))

/-- The tokens obtained by repeatedly taking the leftmost greedy match from the end of
the previous match, until there is no further match. -/
def TokenisedBy : List Char → List (List Char) → Prop
  | s, [] => leftmostGreedy s = none
  | s, t :: ts => ∃ gap rest, leftmostGreedy s = some (gap, t, rest) ∧ TokenisedBy rest ts

/-- A string that matches "optional `-`, one or more digits, optional `.` followed by
one or more digits" in full. -/
def IsNumeral (m : List Char) : Prop :=
  ∃ sg ip fp, m = sg ++ (ip ++ fp) ∧ (sg = [] ∨ ∃ c, sg = [c] ∧ isMinus c = true) ∧
    ip ≠ [] ∧ (∀ c ∈ ip, isDigit c = true) ∧
    (fp = [] ∨ ∃ c fd, fp = c :: fd ∧ isDot c = true ∧ fd ≠ [] ∧ ∀ x ∈ fd, isDigit x = true)

/-- The tokens lie in the string from left to right without overlap, and no digit is
left between them. -/
def CoveredBy : List Char → List (List Char) → Prop
  | s, [] => ∀ c ∈ s, isDigit c = false
  | s, t :: ts => ∃ gap rest, s = gap ++ (t ++ rest) ∧ (∀ c ∈ gap, isDigit c = false) ∧
      CoveredBy rest ts

/-- The input "2", 308 zeros, ", 1": the latitude 2e308 written out in digits, and the
longitude 1. -/
def outOfRangeInput : List Char := '2' :: (List.replicate 308 '0' ++ ", 1".toList)

/-- The input "40.1 W " followed by "2" and 308 zeros: the longitude 2e308 written out
in digits. -/
def outOfRangeLongitudeInput : List Char := "40.1 W ".toList ++ '2' :: List.replicate 308 '0'

/-- The token -1e-46 written out: "-0.", 45 zeros, "1". -/
def tinyNegativeToken : List Char := "-0.0000000000000000000000000000000000000000000001".toList

deriving instance DecidableEq for Except

/-! ## Characters -/

theorem char_eq_iff_toNat (c d : Char) : c = d ↔ c.toNat = d.toNat := by
  constructor
  · rintro rfl; rfl
  · intro h
    rw [← Char.ofNat_toNat c, ← Char.ofNat_toNat d, h]

theorem isAZ_iff_isAlpha (c : Char) : isAZ c = true ↔ c.isAlpha = true := by
  have h1 : (c.val ≥ 65) ↔ 65 ≤ c.toNat := Iff.rfl
  have h2 : (c.val ≤ 90) ↔ c.toNat ≤ 90 := Iff.rfl
  have h3 : (c.val ≥ 97) ↔ 97 ≤ c.toNat := Iff.rfl
  have h4 : (c.val ≤ 122) ↔ c.toNat ≤ 122 := Iff.rfl
  simp only [isAZ, foldCase, Char.isAlpha, Char.isUpper, Char.isLower, Bool.or_eq_true,
    Bool.and_eq_true, decide_eq_true_eq, h1, h2, h3, h4]
  split <;> omega

theorem isNS_iff (c : Char) : isNS c = true ↔ c = 'n' ∨ c = 'N' ∨ c = 's' ∨ c = 'S' := by
  simp only [isNS, foldCase, char_eq_iff_toNat, Bool.or_eq_true, beq_iff_eq]
  have : ('n').toNat = 110 ∧ ('N').toNat = 78 ∧ ('s').toNat = 115 ∧ ('S').toNat = 83 := by decide
  split <;> omega

theorem isEW_iff (c : Char) : isEW c = true ↔ c = 'e' ∨ c = 'E' ∨ c = 'w' ∨ c = 'W' := by
  simp only [isEW, foldCase, char_eq_iff_toNat, Bool.or_eq_true, beq_iff_eq]
  have : ('e').toNat = 101 ∧ ('E').toNat = 69 ∧ ('w').toNat = 119 ∧ ('W').toNat = 87 := by decide
  split <;> omega

theorem isNESWD_iff (c : Char) :
    isNESWD c = true ↔ c ∈ ['n', 's', 'e', 'w', 'd', 'N', 'S', 'E', 'W', 'D'] := by
  rw [show (c ∈ ['n', 's', 'e', 'w', 'd', 'N', 'S', 'E', 'W', 'D']) ↔
    (c = 'n' ∨ c = 's' ∨ c = 'e' ∨ c = 'w' ∨ c = 'd' ∨ c = 'N' ∨ c = 'S' ∨ c = 'E' ∨ c = 'W'
      ∨ c = 'D') from by
    simp only [List.mem_cons, List.not_mem_nil, or_false]]
  simp only [isNESWD, foldCase, char_eq_iff_toNat, Bool.or_eq_true, beq_iff_eq]
  have : ('n').toNat = 110 ∧ ('N').toNat = 78 ∧ ('s').toNat = 115 ∧ ('S').toNat = 83 := by decide
  have : ('e').toNat = 101 ∧ ('E').toNat = 69 ∧ ('w').toNat = 119 ∧ ('W').toNat = 87 := by decide
  have : ('d').toNat = 100 ∧ ('D').toNat = 68 := by decide
  split <;> omega

theorem isNS_isAZ {c : Char} (h : isNS c = true) : isAZ c = true := by
  simp only [isNS, isAZ, Bool.or_eq_true, beq_iff_eq, decide_eq_true_eq] at *
  omega

theorem isEW_isAZ {c : Char} (h : isEW c = true) : isAZ c = true := by
  simp only [isEW, isAZ, Bool.or_eq_true, beq_iff_eq, decide_eq_true_eq] at *
  omega

theorem isNS_not_isEW {c : Char} (h : isNS c = true) : isEW c = false := by
  simp only [isNS, isEW, Bool.or_eq_true, beq_iff_eq, Bool.or_eq_false_iff, beq_eq_false_iff_ne] at *
  omega

/-! ## The matcher -/

theorem mem_run_cls {p : Char → Bool} {s t : List Char} :
    t ∈ (Regex.cls p).run s ↔ ∃ c, s = c :: t ∧ p c = true := by
  cases s with
  | nil => simp [Regex.run]
  | cons c u =>
    by_cases h : p c = true
    · simp only [Regex.run, h, if_true, List.mem_singleton]
      constructor
      · rintro rfl; exact ⟨c, rfl, h⟩
      · rintro ⟨d, hd, _⟩
        exact ((List.cons.inj hd).2).symm
    · simp only [Regex.run, h, if_false, List.not_mem_nil, false_iff, Bool.false_eq_true]
      rintro ⟨d, hd, hp⟩
      rw [← (List.cons.inj hd).1] at hp
      exact h hp

theorem mem_run_seq {a b : Regex} {s t : List Char} :
    t ∈ (Regex.seq a b).run s ↔ ∃ u ∈ a.run s, t ∈ b.run u := by
  simp [Regex.run, List.mem_flatMap]

theorem mem_run_opt {a : Regex} {s t : List Char} :
    t ∈ (Regex.opt a).run s ↔ t ∈ a.run s ∨ t = s := by
  simp [Regex.run]

theorem mem_starLoop_cls {p : Char → Bool} (n : Nat) (s t : List Char) (hn : s.length ≤ n) :
    t ∈ starLoop (Regex.cls p).run n s ↔ ∃ pre, s = pre ++ t ∧ ∀ c ∈ pre, p c = true := by
  induction n generalizing s with
  | zero =>
    have hs : s = [] := List.length_eq_zero.mp (Nat.le_zero.mp hn)
    subst hs
    simp only [starLoop, List.mem_singleton]
    constructor
    · rintro rfl; exact ⟨[], rfl, by simp⟩
    · rintro ⟨pre, h, _⟩
      have := congrArg List.length h
      simp at this
      exact List.length_eq_zero.mp (by omega)
  | succ n ih =>
    cases s with
    | nil =>
      simp only [starLoop, Regex.run, List.filter_nil, List.flatMap_nil, List.nil_append,
        List.mem_singleton]
      constructor
      · rintro rfl; exact ⟨[], rfl, by simp⟩
      · rintro ⟨pre, h, _⟩
        have := congrArg List.length h
        simp at this
        exact List.length_eq_zero.mp (by omega)
    | cons c u =>
      have hu : u.length ≤ n := by simpa using hn
      by_cases hc : p c = true
      · simp only [starLoop, Regex.run, hc, if_true, List.filter_cons, List.length_cons,
          Nat.lt_succ_self, decide_True, List.filter_nil, List.flatMap_cons, List.flatMap_nil,
          List.append_nil, List.mem_append, List.mem_singleton, ih u hu]
        constructor
        · rintro (⟨pre, rfl, hp⟩ | rfl)
          · refine ⟨c :: pre, rfl, ?_⟩
            intro d hd
            rcases List.mem_cons.mp hd with rfl | hd
            · exact hc
            · exact hp d hd
          · exact ⟨[], rfl, by simp⟩
        · rintro ⟨pre, h, hp⟩
          cases pre with
          | nil => right; simpa using h.symm
          | cons d pre =>
            left
            simp only [List.cons_append, List.cons.injEq] at h
            exact ⟨pre, h.2, fun x hx => hp x (List.mem_cons_of_mem _ hx)⟩
      · simp only [starLoop, Regex.run, hc, List.filter_nil, List.flatMap_nil, List.nil_append,
          List.mem_singleton, if_false, Bool.false_eq_true]
        constructor
        · rintro rfl; exact ⟨[], rfl, by simp⟩
        · rintro ⟨pre, h, hp⟩
          cases pre with
          | nil => simpa using h.symm
          | cons d pre =>
            simp only [List.cons_append, List.cons.injEq] at h
            exact absurd (hp d (List.mem_cons_self _ _)) (by rw [← h.1]; exact hc)

theorem mem_run_star_cls {p : Char → Bool} {s t : List Char} :
    t ∈ (Regex.star (Regex.cls p)).run s ↔ ∃ pre, s = pre ++ t ∧ ∀ c ∈ pre, p c = true := by
  simp only [Regex.run]
  exact mem_starLoop_cls s.length s t (Nat.le_refl _)

/-! ## The letter check -/

theorem run_invalidLetterRegex_nil : invalidLetterRegex.run [] = [] := by
  simp [invalidLetterRegex, Regex.run]

theorem run_invalidLetterRegex_cons (c : Char) (t : List Char) :
    invalidLetterRegex.run (c :: t) = if isAZ c = true ∧ isNESWD c = false then [t] else [] := by
  cases h1 : isNESWD c <;> cases h2 : isAZ c <;>
    simp [invalidLetterRegex, Regex.run, h1, h2]

theorem regexFound_invalidLetterRegex (s : List Char) :
    regexFound invalidLetterRegex s = true ↔ ∃ c ∈ s, isAZ c = true ∧ isNESWD c = false := by
  induction s with
  | nil => simp [regexFound, regexSearch, run_invalidLetterRegex_nil]
  | cons c t ih =>
    by_cases h : isAZ c = true ∧ isNESWD c = false
    · have : regexFound invalidLetterRegex (c :: t) = true := by
        simp [regexFound, regexSearch, run_invalidLetterRegex_cons, h]
      simp only [this, true_iff]
      exact ⟨c, List.mem_cons_self _ _, h⟩
    · have : regexFound invalidLetterRegex (c :: t) = regexFound invalidLetterRegex t := by
        simp only [regexFound, regexSearch, run_invalidLetterRegex_cons, h, if_false]
      rw [this, ih]
      constructor
      · rintro ⟨d, hd, hp⟩; exact ⟨d, List.mem_cons_of_mem _ hd, hp⟩
      · rintro ⟨d, hd, hp⟩
        rcases List.mem_cons.mp hd with rfl | hd
        · exact absurd hp h
        · exact ⟨d, hd, hp⟩

/-- The letter check passes exactly when every ASCII letter of the input is one of
`n`, `s`, `e`, `w`, `d` in either case. -/
theorem checkContainsNoLetters_eq_none (s : List Char) :
    CoordinateValidator.checkContainsNoLetters s = none ↔
      ∀ c ∈ s, c.isAlpha = true → c ∈ ['n', 's', 'e', 'w', 'd', 'N', 'S', 'E', 'W', 'D'] := by
  have h := regexFound_invalidLetterRegex s
  unfold CoordinateValidator.checkContainsNoLetters
  by_cases hf : regexFound invalidLetterRegex s = true
  · simp only [hf, if_true, false_iff, reduceCtorEq]
    obtain ⟨c, hc, h1, h2⟩ := h.mp hf
    intro hall
    have := (isNESWD_iff c).mpr (hall c hc ((isAZ_iff_isAlpha c).mp h1))
    rw [h2] at this
    exact Bool.false_ne_true this
  · simp only [hf, if_false, true_iff, Bool.false_eq_true]
    intro c hc hal
    by_contra hn
    apply hf
    refine h.mpr ⟨c, hc, (isAZ_iff_isAlpha c).mpr hal, ?_⟩
    cases hx : isNESWD c
    · rfl
    · exact absurd ((isNESWD_iff c).mp hx) hn

theorem checkContainsNoLetters_eq_some (s : List Char) (m : String)
    (h : CoordinateValidator.checkContainsNoLetters s = some m) :
    m = "Coordinate contains invalid alphanumeric characters." := by
  unfold CoordinateValidator.checkContainsNoLetters at h
  split at h
  · exact (Option.some.inj h).symm
  · exact absurd h (by simp)

/-! ## The orientation check -/

theorem filter_cardinal_eq_nil {p : List Char} (h : ∀ c ∈ p, notNSEW c = true) :
    cardinalLetters p = [] := by
  unfold cardinalLetters
  rw [List.filter_eq_nil_iff]
  intro c hc
  have := h c hc
  simp only [notNSEW, Bool.not_eq_true'] at this
  simp [this]

theorem notNSEW_of_filter_eq_nil {p : List Char} (h : cardinalLetters p = []) :
    ∀ c ∈ p, notNSEW c = true := by
  unfold cardinalLetters at h
  rw [List.filter_eq_nil_iff] at h
  intro c hc
  have := h c hc
  simp only [notNSEW, Bool.not_eq_true']
  simpa using this

theorem cardinalLetters_append (a b : List Char) :
    cardinalLetters (a ++ b) = cardinalLetters a ++ cardinalLetters b := by
  simp [cardinalLetters]

theorem cardinalLetters_cons_of_pos {c : Char} (t : List Char) (h : (isNS c || isEW c) = true) :
    cardinalLetters (c :: t) = c :: cardinalLetters t := by
  simp [cardinalLetters, List.filter_cons, h]

theorem mem_run_orientationRegex (s : List Char) :
    [] ∈ orientationRegex.run s ↔
      ∃ p1 n p2 e p3, s = p1 ++ (n ++ (p2 ++ (e ++ p3))) ∧
        (∀ c ∈ p1, notNSEW c = true) ∧ (∀ c ∈ p2, notNSEW c = true) ∧
        (∀ c ∈ p3, notNSEW c = true) ∧
        (n = [] ∨ ∃ c, n = [c] ∧ isNS c = true) ∧ (e = [] ∨ ∃ d, e = [d] ∧ isEW d = true) := by
  simp only [orientationRegex, mem_run_seq, mem_run_star_cls, mem_run_opt, mem_run_cls]
  constructor
  · rintro ⟨u1, ⟨p1, rfl, h1⟩, u2, hn, u3, ⟨p2, rfl, h2⟩, u4, he, p3, rfl, h3⟩
    rcases hn with ⟨c, rfl, hc⟩ | rfl
    · rcases he with ⟨d, rfl, hd⟩ | rfl
      · exact ⟨p1, [c], p2, [d], p3, by simp, h1, h2, h3, Or.inr ⟨c, rfl, hc⟩,
          Or.inr ⟨d, rfl, hd⟩⟩
      · exact ⟨p1, [c], p2, [], p3, by simp, h1, h2, h3, Or.inr ⟨c, rfl, hc⟩, Or.inl rfl⟩
    · rcases he with ⟨d, rfl, hd⟩ | rfl
      · exact ⟨p1, [], p2, [d], p3, by simp, h1, h2, h3, Or.inl rfl, Or.inr ⟨d, rfl, hd⟩⟩
      · exact ⟨p1, [], p2, [], p3, by simp, h1, h2, h3, Or.inl rfl, Or.inl rfl⟩
  · rintro ⟨p1, n, p2, e, p3, rfl, h1, h2, h3, hn, he⟩
    refine ⟨n ++ (p2 ++ (e ++ p3)), ⟨p1, rfl, h1⟩, p2 ++ (e ++ p3), ?_, e ++ p3, ⟨p2, rfl, h2⟩,
      p3, ?_, p3, by simp, h3⟩
    · rcases hn with rfl | ⟨c, rfl, hc⟩
      · right; rfl
      · left; exact ⟨c, rfl, hc⟩
    · rcases he with rfl | ⟨d, rfl, hd⟩
      · right; rfl
      · left; exact ⟨d, rfl, hd⟩

theorem regexMatch_orientationRegex (s : List Char) :
    regexMatch orientationRegex s = true ↔ OrientationOK (cardinalLetters s) := by
  have hmem : regexMatch orientationRegex s = true ↔ [] ∈ orientationRegex.run s := by
    simp [regexMatch]
  rw [hmem, mem_run_orientationRegex]
  constructor
  · rintro ⟨p1, n, p2, e, p3, rfl, h1, h2, h3, hn, he⟩
    refine ⟨n, e, ?_, ?_, ?_, ?_, ?_⟩
    · simp only [cardinalLetters_append, filter_cardinal_eq_nil h1, filter_cardinal_eq_nil h2,
        filter_cardinal_eq_nil h3, List.nil_append, List.append_nil]
      rcases hn with rfl | ⟨c, rfl, hc⟩ <;> rcases he with rfl | ⟨d, rfl, hd⟩ <;>
        simp [cardinalLetters, *]
    · rcases hn with rfl | ⟨c, rfl, hc⟩ <;> simp
    · rcases hn with rfl | ⟨c, rfl, hc⟩ <;> simp [*]
    · rcases he with rfl | ⟨d, rfl, hd⟩ <;> simp
    · rcases he with rfl | ⟨d, rfl, hd⟩ <;> simp [*]
  · rintro ⟨a, b, hab, ha, hna, hb, hnb⟩
    -- split off the part of `s` up to an optional `n`/`s` letter
    have key : ∀ (t : List Char) (x : List Char) (rest : List Char),
        cardinalLetters t = x ++ rest → x.length ≤ 1 →
        ∃ p t', t = p ++ (x ++ t') ∧ (∀ c ∈ p, notNSEW c = true) ∧ cardinalLetters t' = rest := by
      intro t x rest hx hlen
      match x, hlen with
      | [], _ => exact ⟨[], t, by simp, by simp, by simpa using hx⟩
      | [c], _ =>
        simp only [List.singleton_append] at hx
        unfold cardinalLetters at hx
        obtain ⟨l1, l2, rfl, hl1, _, hl2⟩ := List.filter_eq_cons_iff.mp hx
        refine ⟨l1, l2, by simp, ?_, hl2⟩
        intro d hd
        have := hl1 d hd
        simp only [notNSEW, Bool.not_eq_true']
        simpa using this
    obtain ⟨p1, t1, rfl, h1, ht1⟩ := key s a b hab ha
    obtain ⟨p2, t2, rfl, h2, ht2⟩ := key t1 b [] (by simpa using ht1) hb
    refine ⟨p1, a, p2, b, t2, rfl, h1, h2, notNSEW_of_filter_eq_nil ht2, ?_, ?_⟩
    · match a, ha, hna with
      | [], _, _ => exact Or.inl rfl
      | [c], _, h => exact Or.inr ⟨c, rfl, h c (List.mem_singleton_self c)⟩
    · match b, hb, hnb with
      | [], _, _ => exact Or.inl rfl
      | [c], _, h => exact Or.inr ⟨c, rfl, h c (List.mem_singleton_self c)⟩

/-! ## Matches are prefixes -/

theorem starLoop_isSuffix {f : List Char → List (List Char)}
    (hf : ∀ s t, t ∈ f s → t <:+ s) (n : Nat) (s t : List Char)
    (h : t ∈ starLoop f n s) : t <:+ s := by
  induction n generalizing s with
  | zero =>
    simp only [starLoop, List.mem_singleton] at h
    subst h; exact List.suffix_refl _
  | succ n ih =>
    simp only [starLoop, List.mem_append, List.mem_flatMap, List.mem_filter,
      List.mem_singleton] at h
    rcases h with ⟨u, ⟨hu, _⟩, ht⟩ | rfl
    · exact (ih u ht).trans (hf s u hu)
    · exact List.suffix_refl _

theorem run_isSuffix (r : Regex) : ∀ s t, t ∈ r.run s → t <:+ s := by
  induction r with
  | cls p =>
    intro s t h
    obtain ⟨c, rfl, _⟩ := mem_run_cls.mp h
    exact List.suffix_cons c t
  | seq a b iha ihb =>
    intro s t h
    obtain ⟨u, hu, ht⟩ := mem_run_seq.mp h
    exact (ihb u t ht).trans (iha s u hu)
  | opt a iha =>
    intro s t h
    rcases mem_run_opt.mp h with h | rfl
    · exact iha s t h
    · exact List.suffix_refl _
  | star a iha =>
    intro s t h
    exact starLoop_isSuffix iha s.length s t h
  | notAhead a _ =>
    intro s t h
    simp only [Regex.run] at h
    split at h
    · rw [List.mem_singleton] at h; subst h; exact List.suffix_refl _
    · exact absurd h (List.not_mem_nil _)

theorem take_of_isSuffix {s t : List Char} (h : t <:+ s) :
    s = s.take (s.length - t.length) ++ t := by
  obtain ⟨m, rfl⟩ := h
  simp

/-- What `regexSearch` returns: the matched text and the rest sit at the end of
the string, and the rest is the first way the pattern matches there. -/
theorem regexSearch_eq_some {r : Regex} {s m rest : List Char}
    (h : regexSearch r s = some (m, rest)) :
    ∃ pre, s = pre ++ (m ++ rest) ∧ (r.run (m ++ rest)).head? = some rest := by
  induction s with
  | nil =>
    simp only [regexSearch] at h
    split at h
    · rename_i t l ht
      simp only [Option.some.injEq, Prod.mk.injEq] at h
      obtain ⟨rfl, rfl⟩ := h
      have := run_isSuffix r [] t (by rw [ht]; exact List.mem_cons_self _ _)
      have ht0 : t = [] := List.suffix_nil.mp this
      subst ht0
      exact ⟨[], rfl, by simp [ht]⟩
    · exact absurd h (by simp)
  | cons c u ih =>
    simp only [regexSearch] at h
    split at h
    · rename_i t l ht
      simp only [Option.some.injEq, Prod.mk.injEq] at h
      obtain ⟨rfl, rfl⟩ := h
      have hs := run_isSuffix r (c :: u) t (by rw [ht]; exact List.mem_cons_self _ _)
      have heq := take_of_isSuffix hs
      refine ⟨[], by simpa using heq, ?_⟩
      rw [← heq, ht]; rfl
    · obtain ⟨pre, hp, hr⟩ := ih h
      exact ⟨c :: pre, by rw [hp]; rfl, hr⟩

theorem regexSearch_eq_none {r : Regex} {s : List Char} (h : regexSearch r s = none) :
    ∀ pre t, s = pre ++ t → r.run t = [] := by
  induction s with
  | nil =>
    intro pre t hs
    have : t = [] := by
      have := congrArg List.length hs
      simp at this
      exact List.length_eq_zero.mp (by omega)
    subst this
    simp only [regexSearch] at h
    split at h
    · exact absurd h (by simp)
    · assumption
  | cons c u ih =>
    intro pre t hs
    simp only [regexSearch] at h
    split at h
    · exact absurd h (by simp)
    · rename_i hrun
      cases pre with
      | nil => simp only [List.nil_append] at hs; rw [← hs]; exact hrun
      | cons d pre =>
        simp only [List.cons_append, List.cons.injEq] at hs
        exact ih h pre t hs.2

/-! ## Tokens -/

/-- A match of the number pattern starts with an optional `-` and a digit. -/
theorem mem_run_numberRegex {s t : List Char} (h : t ∈ numberRegex.run s) :
    ∃ sg d u, s = sg ++ d :: u ∧ (sg = [] ∨ ∃ c, sg = [c] ∧ isMinus c = true) ∧
      isDigit d = true ∧ t <:+ u := by
  simp only [numberRegex, Regex.plus] at h
  obtain ⟨u0, hu0, h⟩ := mem_run_seq.mp h
  obtain ⟨v, hv, ht⟩ := mem_run_seq.mp h
  obtain ⟨u1, hu1, hv1⟩ := mem_run_seq.mp hv
  obtain ⟨d, rfl, hd⟩ := mem_run_cls.mp hu1
  have hvs : v <:+ u1 := run_isSuffix _ _ _ hv1
  have hts : t <:+ v := run_isSuffix _ _ _ ht
  rcases mem_run_opt.mp hu0 with hm | rfl
  · obtain ⟨c, rfl, hc⟩ := mem_run_cls.mp hm
    exact ⟨[c], d, u1, rfl, Or.inr ⟨c, rfl, hc⟩, hd, hts.trans hvs⟩
  · exact ⟨[], d, u1, rfl, Or.inl rfl, hd, hts.trans hvs⟩

/-- The number pattern matches wherever a digit stands. -/
theorem run_numberRegex_digit {d : Char} (u : List Char) (hd : isDigit d = true) :
    numberRegex.run (d :: u) ≠ [] := by
  have : u ∈ numberRegex.run (d :: u) := by
    simp only [numberRegex, Regex.plus]
    refine mem_run_seq.mpr ⟨d :: u, mem_run_opt.mpr (Or.inr rfl), ?_⟩
    refine mem_run_seq.mpr ⟨u, ?_, mem_run_opt.mpr (Or.inr rfl)⟩
    refine mem_run_seq.mpr ⟨u, mem_run_cls.mpr ⟨d, rfl, hd⟩, ?_⟩
    exact mem_run_star_cls.mpr ⟨[], rfl, by simp⟩
  exact List.ne_nil_of_mem this

theorem regexSearch_numberRegex {s m rest : List Char}
    (h : regexSearch numberRegex s = some (m, rest)) :
    TokenHead m ∧ rest.length < s.length := by
  obtain ⟨pre, hs, hr⟩ := regexSearch_eq_some h
  have hmem : rest ∈ numberRegex.run (m ++ rest) := List.mem_of_mem_head? hr
  obtain ⟨sg, d, u, heq, hsg, hd, ⟨w, hw⟩⟩ := mem_run_numberRegex hmem
  subst hw
  have hm : m = sg ++ d :: w := by
    have : m ++ rest = (sg ++ d :: w) ++ rest := by simpa using heq
    exact List.append_cancel_right this
  refine ⟨⟨sg, d, w, hm, hsg, hd⟩, ?_⟩
  rw [hs, hm]
  simp
  omega

/-! ## The extraction loop -/

theorem extractLoop_tokenHead (n : Nat) : ∀ s tok, tok ∈ extractLoop n s → TokenHead tok := by
  induction n with
  | zero => intro s tok h; simp [extractLoop] at h
  | succ n ih =>
    intro s tok h
    simp only [extractLoop] at h
    split at h
    · exact absurd h (List.not_mem_nil _)
    · rename_i m rest hsearch
      rcases List.mem_cons.mp h with rfl | h
      · exact (regexSearch_numberRegex hsearch).1
      · exact ih rest tok h

/-- Every extracted token starts with an optional `-` and a digit. -/
theorem extractCoordinateNumbers_tokenHead (s tok : List Char)
    (h : tok ∈ extractCoordinateNumbers s) : TokenHead tok :=
  extractLoop_tokenHead _ s tok h

/-- The loop of `extractCoordinateNumbers` has stopped by itself within
`s.length + 1` iterations: more fuel changes nothing. -/
theorem extractLoop_fuel (n : Nat) : ∀ (m : Nat) (s : List Char), s.length < n → s.length < m →
    extractLoop n s = extractLoop m s := by
  induction n with
  | zero => intro m s h; omega
  | succ n ih =>
    intro m s hn hm
    cases m with
    | zero => omega
    | succ m =>
      simp only [extractLoop]
      split
      · rfl
      · rename_i tok rest hsearch
        have hlt := (regexSearch_numberRegex hsearch).2
        rw [ih m rest (by omega) (by omega)]

theorem tokenHead_digit_mem {m : List Char} (h : TokenHead m) : ∃ d ∈ m, isDigit d = true := by
  obtain ⟨sg, d, u, rfl, _, hd⟩ := h
  exact ⟨d, by simp, hd⟩

/-- No token is extracted exactly from the strings without a digit. -/
theorem extractCoordinateNumbers_eq_nil (s : List Char) :
    extractCoordinateNumbers s = [] ↔ ∀ c ∈ s, isDigit c = false := by
  unfold extractCoordinateNumbers
  simp only [extractLoop]
  constructor
  · intro h c hc
    split at h
    · rename_i hnone
      obtain ⟨pre, post, rfl⟩ := List.append_of_mem hc
      have := regexSearch_eq_none hnone pre (c :: post) rfl
      cases hd : isDigit c
      · rfl
      · exact absurd this (run_numberRegex_digit post hd)
    · exact absurd h (List.cons_ne_nil _ _)
  · intro h
    split
    · rfl
    · rename_i m rest hsearch
      obtain ⟨d, hdm, hd⟩ := tokenHead_digit_mem (regexSearch_numberRegex hsearch).1
      obtain ⟨pre, hs, _⟩ := regexSearch_eq_some hsearch
      have : d ∈ s := by rw [hs]; simp [hdm]
      rw [h d this] at hd
      exact absurd hd (by simp)

/-! ## Rounding -/

theorem log2Fuel_spec : ∀ (fuel n : Nat), n ≤ fuel → n ≠ 0 →
    2 ^ log2Fuel fuel n ≤ n ∧ n < 2 ^ (log2Fuel fuel n + 1)
  | 0, n, h, h0 => absurd (Nat.le_zero.mp h) h0
  | fuel + 1, n, h, h0 => by
    unfold log2Fuel
    by_cases h2 : 2 ≤ n
    · rw [if_pos h2]
      have hd : n / 2 ≤ fuel := by omega
      have hd0 : n / 2 ≠ 0 := by omega
      obtain ⟨ih1, ih2⟩ := log2Fuel_spec fuel (n / 2) hd hd0
      constructor
      · rw [pow_succ]
        omega
      · rw [pow_succ]
        omega
    · rw [if_neg h2]
      have : n = 1 := by omega
      subst this
      simp

theorem natLog2_spec {n : Nat} (h0 : n ≠ 0) :
    2 ^ natLog2 n ≤ n ∧ n < 2 ^ (natLog2 n + 1) :=
  log2Fuel_spec n n le_rfl h0

theorem two_zpow_pos (e : ℤ) : (0 : ℚ) < (2 : ℚ) ^ e := zpow_pos (by norm_num) e

/-- The exponent `ilog2 x` brackets `|x|` between two powers of 2. -/
theorem ilog2_spec {x : ℚ} (hx : x ≠ 0) :
    (2 : ℚ) ^ ilog2 x ≤ |x| ∧ |x| < (2 : ℚ) ^ (ilog2 x + 1) := by
  have hn : x.num.natAbs ≠ 0 := by
    simpa using hx
  have hd : x.den ≠ 0 := x.den_nz
  obtain ⟨n1, n2⟩ := natLog2_spec hn
  obtain ⟨d1, d2⟩ := natLog2_spec hd
  have habs : |x| = (x.num.natAbs : ℚ) / (x.den : ℚ) := by
    rw [Rat.abs_def, Rat.divInt_eq_div]
    simp [Nat.cast_natAbs]
  have hdpos : (0 : ℚ) < x.den := by exact_mod_cast Nat.pos_of_ne_zero hd
  have n1q : (2 : ℚ) ^ (natLog2 x.num.natAbs) ≤ (x.num.natAbs : ℚ) := by exact_mod_cast n1
  have n2q : (x.num.natAbs : ℚ) < (2 : ℚ) ^ (natLog2 x.num.natAbs + 1) := by exact_mod_cast n2
  have d1q : (2 : ℚ) ^ (natLog2 x.den) ≤ (x.den : ℚ) := by exact_mod_cast d1
  have d2q : (x.den : ℚ) < (2 : ℚ) ^ (natLog2 x.den + 1) := by exact_mod_cast d2
  have e1 : (2 : ℚ) ^ ((natLog2 x.num.natAbs : ℤ) - (natLog2 x.den : ℤ) + 1) =
      (2 : ℚ) ^ (natLog2 x.num.natAbs + 1) / (2 : ℚ) ^ (natLog2 x.den) := by
    rw [show ((natLog2 x.num.natAbs : ℤ) - (natLog2 x.den : ℤ) + 1) =
      ((natLog2 x.num.natAbs + 1 : ℕ) : ℤ) - ((natLog2 x.den : ℕ) : ℤ) by push_cast; ring]
    rw [zpow_sub₀ (by norm_num), zpow_natCast, zpow_natCast]
  have e2 : (2 : ℚ) ^ ((natLog2 x.num.natAbs : ℤ) - (natLog2 x.den : ℤ) - 1) =
      (2 : ℚ) ^ (natLog2 x.num.natAbs) / (2 : ℚ) ^ (natLog2 x.den + 1) := by
    rw [show ((natLog2 x.num.natAbs : ℤ) - (natLog2 x.den : ℤ) - 1) =
      ((natLog2 x.num.natAbs : ℕ) : ℤ) - ((natLog2 x.den + 1 : ℕ) : ℤ) by push_cast; ring]
    rw [zpow_sub₀ (by norm_num), zpow_natCast, zpow_natCast]
  have hup : |x| < (2 : ℚ) ^ ((natLog2 x.num.natAbs : ℤ) - (natLog2 x.den : ℤ) + 1) := by
    rw [e1, habs, div_lt_div_iff₀ hdpos (by positivity)]
    calc (x.num.natAbs : ℚ) * 2 ^ natLog2 x.den
        < 2 ^ (natLog2 x.num.natAbs + 1) * 2 ^ natLog2 x.den := by
          apply mul_lt_mul_of_pos_right n2q (by positivity)
      _ ≤ 2 ^ (natLog2 x.num.natAbs + 1) * x.den := by
          apply mul_le_mul_of_nonneg_left d1q (by positivity)
  have hlo : (2 : ℚ) ^ ((natLog2 x.num.natAbs : ℤ) - (natLog2 x.den : ℤ) - 1) ≤ |x| := by
    rw [e2, habs, div_le_div_iff₀ (by positivity) hdpos]
    calc (2 : ℚ) ^ natLog2 x.num.natAbs * x.den
        ≤ x.num.natAbs * x.den := by
          apply mul_le_mul_of_nonneg_right n1q (le_of_lt hdpos)
      _ ≤ x.num.natAbs * 2 ^ (natLog2 x.den + 1) := by
          apply mul_le_mul_of_nonneg_left (le_of_lt d2q) (by positivity)
  unfold ilog2
  simp only
  split_ifs with h
  · exact ⟨h, hup⟩
  · refine ⟨hlo, ?_⟩
    rw [sub_add_cancel]
    exact lt_of_not_le h

/-- The exponent is determined by the bracket. -/
theorem ilog2_unique {x : ℚ} {k : ℤ} (h1 : (2 : ℚ) ^ k ≤ |x|) (h2 : |x| < (2 : ℚ) ^ (k + 1)) :
    ilog2 x = k := by
  have hx : x ≠ 0 := by
    intro h
    rw [h, abs_zero] at h1
    exact absurd h1 (not_le.mpr (two_zpow_pos k))
  obtain ⟨s1, s2⟩ := ilog2_spec hx
  have a1 : (2 : ℚ) ^ k < (2 : ℚ) ^ (ilog2 x + 1) := lt_of_le_of_lt h1 s2
  have a2 : (2 : ℚ) ^ ilog2 x < (2 : ℚ) ^ (k + 1) := lt_of_le_of_lt s1 h2
  rw [zpow_lt_zpow_iff_right₀ (by norm_num)] at a1 a2
  omega


theorem roundHalfEven_bounds (y : ℚ) :
    ((roundHalfEven y : ℤ) : ℚ) - 1 / 2 ≤ y ∧ y ≤ (roundHalfEven y : ℚ) + 1 / 2 := by
  have h1 := Int.floor_le y
  have h2 := Int.lt_floor_add_one y
  unfold roundHalfEven
  simp only
  split_ifs with a b c
  · constructor <;> linarith
  · push_cast
    constructor <;> linarith
  · constructor <;> linarith
  · push_cast
    constructor <;> linarith

theorem roundHalfEven_intCast (n : ℤ) : roundHalfEven (n : ℚ) = n := by
  unfold roundHalfEven
  simp

theorem le_roundHalfEven {y : ℚ} {k : ℤ} (h : (k : ℚ) ≤ y) : k ≤ roundHalfEven y := by
  have hf : k ≤ ⌊y⌋ := Int.le_floor.mpr h
  unfold roundHalfEven
  simp only
  split_ifs <;> omega

theorem roundHalfEven_le {y : ℚ} {k : ℤ} (h : y ≤ (k : ℚ)) : roundHalfEven y ≤ k := by
  rcases eq_or_lt_of_le h with h | h
  · rw [h, roundHalfEven_intCast]
  · have hf : ⌊y⌋ < k := Int.floor_lt.mpr h
    unfold roundHalfEven
    simp only
    split_ifs <;> omega

theorem roundHalfEven_nonneg {y : ℚ} (h : 0 ≤ y) : 0 ≤ roundHalfEven y :=
  le_roundHalfEven (by simpa using h)

theorem roundHalfEven_pos {y : ℚ} (h : 1 / 2 < y) : 1 ≤ roundHalfEven y := by
  have := (roundHalfEven_bounds y).2
  have h0 : (0 : ℚ) < (roundHalfEven y : ℚ) := by linarith
  have : (0 : ℤ) < roundHalfEven y := by exact_mod_cast h0
  omega

theorem roundHalfEven_lt {y : ℚ} {k : ℤ} (h : y < (k : ℚ) - 1 / 2) : roundHalfEven y < k := by
  have := (roundHalfEven_bounds y).1
  have h0 : (roundHalfEven y : ℚ) < (k : ℚ) := by linarith
  exact_mod_cast h0


theorem roundAt_zero (e : ℤ) : roundAt e 0 = 0 := by
  unfold roundAt
  rw [zero_div, show ((0 : ℚ)) = ((0 : ℤ) : ℚ) by simp, roundHalfEven_intCast]
  simp

theorem roundAt_nonneg (e : ℤ) {a : ℚ} (h : 0 ≤ a) : 0 ≤ roundAt e a := by
  unfold roundAt
  have : 0 ≤ roundHalfEven (a / (2 : ℚ) ^ e) :=
    roundHalfEven_nonneg (div_nonneg h (le_of_lt (two_zpow_pos e)))
  have h2 : (0 : ℚ) ≤ (roundHalfEven (a / (2 : ℚ) ^ e) : ℚ) := by exact_mod_cast this
  exact mul_nonneg h2 (le_of_lt (two_zpow_pos e))

/-- A multiple of `2 ^ k` is a multiple of `2 ^ e` for `e ≤ k`, and rounding to a
multiple of `2 ^ e` leaves it as it is. -/
theorem roundAt_of_multiple {e k : ℤ} (z : ℤ) (h : e ≤ k) :
    roundAt e ((z : ℚ) * (2 : ℚ) ^ k) = (z : ℚ) * (2 : ℚ) ^ k := by
  obtain ⟨n, hn⟩ := Int.eq_ofNat_of_zero_le (show 0 ≤ k - e by omega)
  have hk : (2 : ℚ) ^ k = (2 : ℚ) ^ n * (2 : ℚ) ^ e := by
    rw [show k = (n : ℤ) + e by omega, zpow_add₀ (by norm_num), zpow_natCast]
  have hq : (z : ℚ) * (2 : ℚ) ^ k / (2 : ℚ) ^ e = ((z * 2 ^ n : ℤ) : ℚ) := by
    rw [hk, ← mul_assoc, mul_div_assoc, div_self (ne_of_gt (two_zpow_pos e)), mul_one]
    push_cast
    ring
  unfold roundAt
  rw [hq, roundHalfEven_intCast, hk]
  push_cast
  ring

theorem roundMagnitude_zero (p : ℕ) (emin emax : ℤ) : roundMagnitude p emin emax 0 = 0 := by
  unfold roundMagnitude
  simp only [roundAt_zero]
  rw [if_neg (not_le.mpr (two_zpow_pos _))]

theorem roundMagnitude_nonneg (p : ℕ) (emin emax : ℤ) {a : ℚ} (h : 0 ≤ a) :
    0 ≤ roundMagnitude p emin emax a := by
  unfold roundMagnitude
  simp only
  split_ifs
  · exact le_of_lt (two_zpow_pos _)
  · exact roundAt_nonneg _ h

theorem roundBinary_zero (p : ℕ) (emin emax : ℤ) : roundBinary p emin emax 0 = 0 := by
  unfold roundBinary
  rw [if_neg (lt_irrefl 0), roundMagnitude_zero]

/-- Rounding is symmetric: the sign is kept, the magnitude is rounded. -/
theorem roundBinary_neg (p : ℕ) (emin emax : ℤ) (x : ℚ) :
    roundBinary p emin emax (-x) = -roundBinary p emin emax x := by
  rcases lt_trichotomy x 0 with h | h | h
  · unfold roundBinary
    rw [if_neg (by linarith), if_pos h, neg_neg]
  · rw [h, neg_zero, roundBinary_zero, neg_zero]
  · unfold roundBinary
    rw [if_pos (by linarith), if_neg (by linarith), neg_neg]

theorem roundBinary_nonneg (p : ℕ) (emin emax : ℤ) {x : ℚ} (h : 0 ≤ x) :
    0 ≤ roundBinary p emin emax x := by
  unfold roundBinary
  rw [if_neg (not_lt.mpr h)]
  exact roundMagnitude_nonneg p emin emax h

theorem roundBinary_abs (p : ℕ) (emin emax : ℤ) (x : ℚ) :
    roundBinary p emin emax |x| = |roundBinary p emin emax x| := by
  rcases le_or_lt 0 x with h | h
  · rw [abs_of_nonneg h, abs_of_nonneg (roundBinary_nonneg p emin emax h)]
  · have h2 : 0 ≤ roundBinary p emin emax (-x) := roundBinary_nonneg p emin emax (by linarith)
    rw [abs_of_neg h]
    rw [roundBinary_neg] at h2 ⊢
    rw [abs_of_nonpos (by linarith)]

/-- A magnitude above half the least positive number of the format does not round
to zero. -/
theorem roundMagnitude_pos {p : ℕ} (hp : 1 ≤ p) (emin emax : ℤ) {a : ℚ}
    (h : (2 : ℚ) ^ (emin - 1) < a) : 0 < roundMagnitude p emin emax a := by
  have ha : 0 < a := lt_trans (two_zpow_pos _) h
  unfold roundMagnitude
  simp only
  split_ifs
  · exact two_zpow_pos _
  · unfold roundAt
    apply mul_pos _ (two_zpow_pos _)
    have : 1 ≤ roundHalfEven (a / (2 : ℚ) ^ ulpExponent p emin a) := by
      apply roundHalfEven_pos
      rw [lt_div_iff₀ (two_zpow_pos _)]
      unfold ulpExponent
      rcases le_total (ilog2 a - ((p : ℤ) - 1)) emin with hm | hm
      · rw [max_eq_right hm]
        have : (2 : ℚ) ^ (emin - 1) = 1 / 2 * (2 : ℚ) ^ emin := by
          rw [zpow_sub₀ (by norm_num), zpow_one]
          ring
        linarith
      · rw [max_eq_left hm]
        have hs := (ilog2_spec (ne_of_gt ha)).1
        rw [abs_of_pos ha] at hs
        have hle : (2 : ℚ) ^ (ilog2 a - ((p : ℤ) - 1)) ≤ (2 : ℚ) ^ ilog2 a :=
          zpow_le_zpow_right₀ (by norm_num) (by omega)
        have hp := two_zpow_pos (ilog2 a - ((p : ℤ) - 1))
        linarith
    exact_mod_cast (by omega : 0 < roundHalfEven (a / (2 : ℚ) ^ ulpExponent p emin a))

theorem roundBinary_neg_of_lt {p : ℕ} (hp : 1 ≤ p) (emin emax : ℤ) {x : ℚ}
    (h : x < -(2 : ℚ) ^ (emin - 1)) : roundBinary p emin emax x < 0 := by
  have hx : x < 0 := lt_trans h (neg_neg_of_pos (two_zpow_pos _))
  unfold roundBinary
  rw [if_pos hx]
  have := roundMagnitude_pos hp emin emax (a := -x) (by linarith)
  linarith


theorem ulpExponent_ge (p : ℕ) (emin : ℤ) (a : ℚ) : emin ≤ ulpExponent p emin a :=
  le_max_right _ _

theorem ilog2_lt_of_lt {a : ℚ} {k : ℤ} (ha : 0 < a) (h : a < (2 : ℚ) ^ k) : ilog2 a < k := by
  have hs := (ilog2_spec (ne_of_gt ha)).1
  rw [abs_of_pos ha] at hs
  have := lt_of_le_of_lt hs h
  rwa [zpow_lt_zpow_iff_right₀ (by norm_num)] at this

theorem le_ilog2_of_le {a : ℚ} {k : ℤ} (h : (2 : ℚ) ^ k ≤ a) : k ≤ ilog2 a := by
  have ha : 0 < a := lt_of_lt_of_le (two_zpow_pos k) h
  have hs := (ilog2_spec (ne_of_gt ha)).2
  rw [abs_of_pos ha] at hs
  have := lt_of_le_of_lt h hs
  rw [zpow_lt_zpow_iff_right₀ (by norm_num)] at this
  omega

/-- The exponent of the last place of `z * 2 ^ k` is at most `k` when `z` has at most
`p` bits. -/
theorem ulpExponent_le_of_multiple {p : ℕ} {emin k : ℤ} {z : ℤ} (hz0 : 0 < z)
    (hz : z < 2 ^ p) (hk : emin ≤ k) :
    ulpExponent p emin ((z : ℚ) * (2 : ℚ) ^ k) ≤ k := by
  have hzq : (0 : ℚ) < (z : ℚ) := by exact_mod_cast hz0
  have hpos : (0 : ℚ) < (z : ℚ) * (2 : ℚ) ^ k := mul_pos hzq (two_zpow_pos k)
  have hlt : (z : ℚ) * (2 : ℚ) ^ k < (2 : ℚ) ^ ((p : ℤ) + k) := by
    rw [zpow_add₀ (by norm_num), zpow_natCast]
    apply mul_lt_mul_of_pos_right _ (two_zpow_pos k)
    exact_mod_cast hz
  have := ilog2_lt_of_lt hpos hlt
  unfold ulpExponent
  apply max_le _ hk
  omega

/-- A non-negative multiple of `2 ^ k` with at most `p` bits, below the overflow
threshold, is a number of the format: rounding leaves it as it is. -/
theorem roundMagnitude_of_multiple {p : ℕ} {emin emax k : ℤ} {z : ℤ} (hz0 : 0 ≤ z)
    (hz : z < 2 ^ p) (hk : emin ≤ k)
    (hlt : (z : ℚ) * (2 : ℚ) ^ k < (2 : ℚ) ^ (emax + 1)) :
    roundMagnitude p emin emax ((z : ℚ) * (2 : ℚ) ^ k) = (z : ℚ) * (2 : ℚ) ^ k := by
  rcases eq_or_lt_of_le hz0 with h0 | h0
  · rw [← h0]
    simp [roundMagnitude_zero]
  · unfold roundMagnitude
    simp only
    rw [roundAt_of_multiple z (ulpExponent_le_of_multiple h0 hz hk), if_neg (not_le.mpr hlt)]

/-- The result of rounding a magnitude has at most `p` bits, or is the next power
of 2. -/
theorem roundHalfEven_ulp_le {p : ℕ} (emin : ℤ) {a : ℚ} (ha : 0 < a) :
    roundHalfEven (a / (2 : ℚ) ^ ulpExponent p emin a) ≤ 2 ^ p := by
  have hs := (ilog2_spec (ne_of_gt ha)).2
  rw [abs_of_pos ha] at hs
  have he : ilog2 a - ((p : ℤ) - 1) ≤ ulpExponent p emin a := le_max_left _ _
  have h1 : a / (2 : ℚ) ^ ulpExponent p emin a ≤ (((2 : ℤ) ^ p : ℤ) : ℚ) := by
    rw [div_le_iff₀ (two_zpow_pos _)]
    push_cast
    rw [← zpow_natCast, ← zpow_add₀ (by norm_num)]
    apply le_trans (le_of_lt hs)
    apply zpow_le_zpow_right₀ (by norm_num)
    omega
  exact roundHalfEven_le h1

/-- Rounding is idempotent: a rounded magnitude is a number of the format. -/
theorem roundMagnitude_idem {p : ℕ} (hp : 1 ≤ p) {emin emax : ℤ} (he : emin ≤ emax + 1)
    {a : ℚ} (ha : 0 ≤ a) :
    roundMagnitude p emin emax (roundMagnitude p emin emax a) = roundMagnitude p emin emax a := by
  have hone : (1 : ℤ) < 2 ^ p := by
    have : (2 : ℤ) ^ 1 ≤ 2 ^ p := pow_le_pow_right₀ (by norm_num) hp
    omega
  have hS : roundMagnitude p emin emax ((2 : ℚ) ^ (emax + 1)) = (2 : ℚ) ^ (emax + 1) := by
    have h1 : roundAt (ulpExponent p emin ((2 : ℚ) ^ (emax + 1))) ((2 : ℚ) ^ (emax + 1)) =
        (2 : ℚ) ^ (emax + 1) := by
      have := roundAt_of_multiple (e := ulpExponent p emin (((1 : ℤ) : ℚ) * (2 : ℚ) ^ (emax + 1)))
        (k := emax + 1) 1 (ulpExponent_le_of_multiple (by norm_num) hone he)
      simpa using this
    unfold roundMagnitude
    simp only
    rw [h1, if_pos le_rfl]
  rcases eq_or_lt_of_le ha with h0 | h0
  · rw [← h0, roundMagnitude_zero, roundMagnitude_zero]
  · by_cases hov : (2 : ℚ) ^ (emax + 1) ≤ roundAt (ulpExponent p emin a) a
    · have : roundMagnitude p emin emax a = (2 : ℚ) ^ (emax + 1) := by
        unfold roundMagnitude
        simp only
        rw [if_pos hov]
      rw [this, hS]
    · have hr : roundMagnitude p emin emax a = roundAt (ulpExponent p emin a) a := by
        unfold roundMagnitude
        simp only
        rw [if_neg hov]
      rw [hr]
      have hn0 : 0 ≤ roundHalfEven (a / (2 : ℚ) ^ ulpExponent p emin a) :=
        roundHalfEven_nonneg (div_nonneg ha (le_of_lt (two_zpow_pos _)))
      have hn1 := roundHalfEven_ulp_le (p := p) emin h0
      have hlt := not_le.mp hov
      rcases eq_or_lt_of_le hn1 with hn | hn
      · have hform : roundAt (ulpExponent p emin a) a =
            ((1 : ℤ) : ℚ) * (2 : ℚ) ^ ((p : ℤ) + ulpExponent p emin a) := by
          unfold roundAt
          rw [hn, zpow_add₀ (by norm_num), zpow_natCast]
          push_cast
          ring
        rw [hform] at hlt ⊢
        exact roundMagnitude_of_multiple (by norm_num) hone
          (by have := ulpExponent_ge p emin a; omega) hlt
      · have hform : roundAt (ulpExponent p emin a) a =
            ((roundHalfEven (a / (2 : ℚ) ^ ulpExponent p emin a) : ℤ) : ℚ) *
              (2 : ℚ) ^ (ulpExponent p emin a) := rfl
        rw [hform] at hlt ⊢
        exact roundMagnitude_of_multiple hn0 hn (ulpExponent_ge p emin a) hlt

theorem roundBinary_idem {p : ℕ} (hp : 1 ≤ p) {emin emax : ℤ} (he : emin ≤ emax + 1)
    (x : ℚ) :
    roundBinary p emin emax (roundBinary p emin emax x) = roundBinary p emin emax x := by
  rcases le_or_lt 0 x with h | h
  · have : roundBinary p emin emax x = roundMagnitude p emin emax x := by
      unfold roundBinary
      rw [if_neg (not_lt.mpr h)]
    rw [this]
    have hn := roundMagnitude_nonneg p emin emax h
    unfold roundBinary
    rw [if_neg (not_lt.mpr hn)]
    exact roundMagnitude_idem hp he h
  · have h2 := roundBinary_neg p emin emax x
    have h3 : roundBinary p emin emax (-x) = roundMagnitude p emin emax (-x) := by
      unfold roundBinary
      rw [if_neg (by linarith)]
    have h4 : roundBinary p emin emax x = -roundMagnitude p emin emax (-x) := by
      unfold roundBinary
      rw [if_pos h]
    rw [h4, roundBinary_neg]
    have hn := roundMagnitude_nonneg p emin emax (a := -x) (by linarith)
    have : roundBinary p emin emax (roundMagnitude p emin emax (-x)) =
        roundMagnitude p emin emax (roundMagnitude p emin emax (-x)) := by
      unfold roundBinary
      rw [if_neg (not_lt.mpr hn)]
    rw [this, roundMagnitude_idem hp he (by linarith)]

theorem roundDouble_idem (x : ℚ) : roundDouble (roundDouble x) = roundDouble x :=
  roundBinary_idem (by norm_num) (by norm_num) x

theorem roundDouble_neg (x : ℚ) : roundDouble (-x) = -roundDouble x := roundBinary_neg _ _ _ x

theorem roundDouble_abs (x : ℚ) : roundDouble |x| = |roundDouble x| := roundBinary_abs _ _ _ x

theorem roundDouble_zero : roundDouble 0 = 0 := roundBinary_zero _ _ _


theorem roundBinary_of_nonneg (p : ℕ) (emin emax : ℤ) {x : ℚ} (h : 0 ≤ x) :
    roundBinary p emin emax x = roundMagnitude p emin emax x := by
  unfold roundBinary
  rw [if_neg (not_lt.mpr h)]

/-- A non-negative multiple of `2 ^ k`, `k ≥ -1074`, with at most 53 bits and below
`2 ^ 1024` is a double. -/
theorem roundDouble_of_multiple {z k : ℤ} (hz0 : 0 ≤ z) (hz : z < 2 ^ 53) (hk : -1074 ≤ k)
    (hlt : (z : ℚ) * (2 : ℚ) ^ k < (2 : ℚ) ^ (1024 : ℤ)) :
    roundDouble ((z : ℚ) * (2 : ℚ) ^ k) = (z : ℚ) * (2 : ℚ) ^ k := by
  have h0 : (0 : ℚ) ≤ (z : ℚ) * (2 : ℚ) ^ k :=
    mul_nonneg (by exact_mod_cast hz0) (le_of_lt (two_zpow_pos k))
  unfold roundDouble
  rw [roundBinary_of_nonneg _ _ _ h0]
  exact roundMagnitude_of_multiple hz0 hz hk hlt

theorem roundDouble_natCast {n : ℕ} (h : n < 2 ^ 53) : roundDouble (n : ℚ) = (n : ℚ) := by
  have := roundDouble_of_multiple (z := (n : ℤ)) (k := 0) (by positivity) (by exact_mod_cast h)
    (by norm_num) (by
      rw [zpow_zero, mul_one]
      have h1 : ((n : ℤ) : ℚ) < (2 : ℚ) ^ (53 : ℕ) := by exact_mod_cast h
      have h2 : (2 : ℚ) ^ (53 : ℕ) < (2 : ℚ) ^ (1024 : ℤ) := by
        rw [← zpow_natCast]
        exact zpow_lt_zpow_right₀ (by norm_num) (by norm_num)
      linarith)
  simpa using this

theorem ulpExponent_le_of_lt {a : ℚ} (ha : 0 < a) {m : ℤ} (hm : a < (2 : ℚ) ^ m)
    (hm1 : -1021 ≤ m) : ulpExponent 53 (-1074) a ≤ m - 53 := by
  have := ilog2_lt_of_lt ha hm
  unfold ulpExponent
  apply max_le
  · push_cast
    omega
  · omega

/-- A finite non-negative double is a multiple of the unit in its last place, with at
most 53 bits. -/
theorem double_form {d : ℚ} (hd : roundDouble d = d) (h0 : 0 < d)
    (hfin : d < (2 : ℚ) ^ (1024 : ℤ)) :
    ∃ z : ℤ, 0 < z ∧ z < 2 ^ 53 ∧ d = (z : ℚ) * (2 : ℚ) ^ ulpExponent 53 (-1074) d := by
  have hrm : roundMagnitude 53 (-1074) 1023 d = d := by
    rw [← roundBinary_of_nonneg _ _ _ (le_of_lt h0)]
    exact hd
  have hra : roundAt (ulpExponent 53 (-1074) d) d = d := by
    unfold roundMagnitude at hrm
    simp only at hrm
    split_ifs at hrm with hov
    · rw [← hrm] at hfin
      norm_num at hfin
    · exact hrm
  have hz : d = (roundHalfEven (d / (2 : ℚ) ^ ulpExponent 53 (-1074) d) : ℚ) *
      (2 : ℚ) ^ ulpExponent 53 (-1074) d := hra.symm
  refine ⟨roundHalfEven (d / (2 : ℚ) ^ ulpExponent 53 (-1074) d), ?_, ?_, hz⟩
  · have : (0 : ℚ) < (roundHalfEven (d / (2 : ℚ) ^ ulpExponent 53 (-1074) d) : ℚ) := by
      by_contra hneg
      have h1 : (roundHalfEven (d / (2 : ℚ) ^ ulpExponent 53 (-1074) d) : ℚ) *
          (2 : ℚ) ^ ulpExponent 53 (-1074) d ≤ 0 :=
        mul_nonpos_of_nonpos_of_nonneg (not_lt.mp hneg) (le_of_lt (two_zpow_pos _))
      linarith
    exact_mod_cast this
  · have hs := (ilog2_spec (ne_of_gt h0)).2
    rw [abs_of_pos h0] at hs
    have he : ilog2 d - ((53 : ℕ) - 1 : ℤ) ≤ ulpExponent 53 (-1074) d := le_max_left _ _
    have h2 : (2 : ℚ) ^ (ilog2 d + 1) ≤ (2 : ℚ) ^ ((53 : ℤ) + ulpExponent 53 (-1074) d) :=
      zpow_le_zpow_right₀ (by norm_num) (by push_cast at he; omega)
    have h3 : (roundHalfEven (d / (2 : ℚ) ^ ulpExponent 53 (-1074) d) : ℚ) *
        (2 : ℚ) ^ ulpExponent 53 (-1074) d < (2 : ℚ) ^ (53 : ℤ) *
          (2 : ℚ) ^ ulpExponent 53 (-1074) d := by
      rw [← zpow_add₀ (by norm_num), ← hz]
      linarith
    have h4 := lt_of_mul_lt_mul_right h3 (le_of_lt (two_zpow_pos _))
    have h5 : (roundHalfEven (d / (2 : ℚ) ^ ulpExponent 53 (-1074) d) : ℚ) <
        (((2 : ℤ) ^ 53 : ℤ) : ℚ) := by
      have : (2 : ℚ) ^ (53 : ℤ) = (((2 : ℤ) ^ 53 : ℤ) : ℚ) := by norm_num
      rw [← this]
      exact h4
    exact_mod_cast h5

/-- Subtracting a non-negative integer from a double below `2 ^ 53` is exact. -/
theorem roundDouble_sub_int {d : ℚ} (hd : roundDouble d = d) {N : ℤ} (hN0 : 0 ≤ N)
    (hNd : (N : ℚ) ≤ d) (hd53 : d < (2 : ℚ) ^ (53 : ℤ)) :
    roundDouble (d - N) = d - N := by
  have hd0 : 0 ≤ d := le_trans (by exact_mod_cast hN0) hNd
  rcases eq_or_lt_of_le hd0 with h0 | h0
  · have : (N : ℚ) = 0 := by
      have h1 : (0 : ℚ) ≤ (N : ℚ) := by exact_mod_cast hN0
      linarith
    rw [this, sub_zero]
    exact hd
  · have hfin : d < (2 : ℚ) ^ (1024 : ℤ) :=
      lt_trans hd53 (zpow_lt_zpow_right₀ (by norm_num) (by norm_num))
    obtain ⟨z, hz0, hz, hform⟩ := double_form hd h0 hfin
    have he : ulpExponent 53 (-1074) d ≤ 0 := by
      have := ulpExponent_le_of_lt h0 hd53 (by norm_num)
      omega
    obtain ⟨n, hn⟩ := Int.eq_ofNat_of_zero_le (show 0 ≤ -ulpExponent 53 (-1074) d by omega)
    have hpow : (2 : ℚ) ^ (n : ℕ) * (2 : ℚ) ^ ulpExponent 53 (-1074) d = 1 := by
      rw [← zpow_natCast, ← zpow_add₀ (by norm_num), ← hn]
      simp
    have hsub : d - N = ((z - N * 2 ^ n : ℤ) : ℚ) * (2 : ℚ) ^ ulpExponent 53 (-1074) d := by
      push_cast
      rw [sub_mul, ← hform, mul_assoc, hpow, mul_one]
    have hz' : 0 ≤ z - N * 2 ^ n := by
      have h1 : (0 : ℚ) ≤ ((z - N * 2 ^ n : ℤ) : ℚ) * (2 : ℚ) ^ ulpExponent 53 (-1074) d := by
        rw [← hsub]
        linarith
      have h2 := nonneg_of_mul_nonneg_left h1 (two_zpow_pos _)
      exact_mod_cast h2
    have hz'' : z - N * 2 ^ n < 2 ^ 53 := by
      have : 0 ≤ N * 2 ^ n := mul_nonneg hN0 (by positivity)
      omega
    rw [hsub]
    apply roundDouble_of_multiple hz' hz'' (ulpExponent_ge _ _ _)
    rw [← hsub]
    have : (0 : ℚ) ≤ (N : ℚ) := by exact_mod_cast hN0
    linarith


theorem two_zpow_neg_mul (e : ℤ) : (2 : ℚ) ^ (-e) * (2 : ℚ) ^ e = 1 := by
  rw [← zpow_add₀ (by norm_num)]
  simp

/-- For an exponent `e ≤ 0` an integer is a multiple of `2 ^ e`. -/
theorem int_div_two_zpow {e : ℤ} (he : e ≤ 0) (N : ℤ) :
    ∃ K : ℤ, (N : ℚ) / (2 : ℚ) ^ e = (K : ℚ) := by
  obtain ⟨n, hn⟩ := Int.eq_ofNat_of_zero_le (show 0 ≤ -e by omega)
  refine ⟨N * 2 ^ n, ?_⟩
  rw [div_eq_iff (ne_of_gt (two_zpow_pos e))]
  push_cast
  rw [mul_assoc, ← zpow_natCast, ← hn, two_zpow_neg_mul, mul_one]

/-- The quotient of a double `d`, `1 ≤ d < 2 ^ 53`, by a natural number `c` below
`2 ^ 21`, rounded to double, has the integer part of the exact quotient: the division
never rounds up to the next integer. -/
theorem floor_roundDouble_div {d : ℚ} (hd : roundDouble d = d) (h1 : 1 ≤ d)
    (h53 : d < (2 : ℚ) ^ (53 : ℤ)) {c L : ℕ} (hL1 : 2 ^ L ≤ c) (hL2 : c < 2 ^ (L + 1))
    (hL : L ≤ 20) :
    ⌊roundDouble (d / c)⌋ = ⌊d / (c : ℚ)⌋ := by
  have hd0 : 0 < d := lt_of_lt_of_le one_pos h1
  have hcpos : (0 : ℚ) < (c : ℚ) := by
    have : 0 < c := lt_of_lt_of_le (by positivity) hL1
    exact_mod_cast this
  have hc1 : (1 : ℚ) ≤ (c : ℚ) := by
    have : 1 ≤ c := le_trans (Nat.one_le_two_pow) hL1
    exact_mod_cast this
  have hcL1 : (2 : ℚ) ^ (L : ℤ) ≤ (c : ℚ) := by
    rw [zpow_natCast]
    exact_mod_cast hL1
  have hcL2 : (c : ℚ) < (2 : ℚ) ^ ((L : ℤ) + 1) := by
    have : (c : ℚ) < (2 : ℚ) ^ (L + 1) := by exact_mod_cast hL2
    rw [show ((L : ℤ) + 1) = ((L + 1 : ℕ) : ℤ) by push_cast; rfl, zpow_natCast]
    exact this
  have hx0 : 0 < d / (c : ℚ) := div_pos hd0 hcpos
  have hxle : d / (c : ℚ) ≤ d := div_le_self (le_of_lt hd0) hc1
  have hx53 : d / (c : ℚ) < (2 : ℚ) ^ (53 : ℤ) := lt_of_le_of_lt hxle h53
  -- the exponents
  have hfin : d < (2 : ℚ) ^ (1024 : ℤ) :=
    lt_trans h53 (zpow_lt_zpow_right₀ (by norm_num) (by norm_num))
  obtain ⟨z, hz0, hz, hform⟩ := double_form hd hd0 hfin
  have hilog_d0 : 0 ≤ ilog2 d := le_ilog2_of_le (by simpa using h1)
  have hilog_d : ilog2 d < 53 := ilog2_lt_of_lt hd0 h53
  have hed : ulpExponent 53 (-1074) d = ilog2 d - 52 := by
    unfold ulpExponent
    rw [max_eq_left (by push_cast; omega)]
    push_cast
    ring
  have hxlow : (2 : ℚ) ^ (-(L : ℤ) - 1) ≤ d / (c : ℚ) := by
    rw [le_div_iff₀ hcpos]
    have h2 : (2 : ℚ) ^ (-(L : ℤ) - 1) * (2 : ℚ) ^ ((L : ℤ) + 1) = 1 := by
      rw [← zpow_add₀ (by norm_num)]
      simp
    calc (2 : ℚ) ^ (-(L : ℤ) - 1) * (c : ℚ)
        ≤ (2 : ℚ) ^ (-(L : ℤ) - 1) * (2 : ℚ) ^ ((L : ℤ) + 1) :=
          mul_le_mul_of_nonneg_left (le_of_lt hcL2) (le_of_lt (two_zpow_pos _))
      _ = 1 := h2
      _ ≤ d := h1
  have hilog_x0 : -(L : ℤ) - 1 ≤ ilog2 (d / (c : ℚ)) := le_ilog2_of_le hxlow
  have hilog_x : ilog2 (d / (c : ℚ)) < ilog2 d + 1 - L := by
    apply ilog2_lt_of_lt hx0
    have hs := (ilog2_spec (ne_of_gt hd0)).2
    rw [abs_of_pos hd0] at hs
    rw [div_lt_iff₀ hcpos]
    calc d < (2 : ℚ) ^ (ilog2 d + 1) := hs
      _ = (2 : ℚ) ^ (ilog2 d + 1 - L) * (2 : ℚ) ^ (L : ℤ) := by
          rw [← zpow_add₀ (by norm_num)]
          congr 1
          ring
      _ ≤ (2 : ℚ) ^ (ilog2 d + 1 - L) * (c : ℚ) :=
          mul_le_mul_of_nonneg_left hcL1 (le_of_lt (two_zpow_pos _))
  have hex : ulpExponent 53 (-1074) (d / (c : ℚ)) = ilog2 (d / (c : ℚ)) - 52 := by
    unfold ulpExponent
    rw [max_eq_left (by push_cast; omega)]
    push_cast
    ring
  set e := ulpExponent 53 (-1074) (d / (c : ℚ)) with he_def
  have he0 : e ≤ 0 := by omega
  have hee : e ≤ ulpExponent 53 (-1074) d - L := by omega
  have hupos := two_zpow_pos e
  -- the integer part
  have hF0 : (0 : ℤ) ≤ ⌊d / (c : ℚ)⌋ := Int.floor_nonneg.mpr (le_of_lt hx0)
  have hFle := Int.floor_le (d / (c : ℚ))
  have hFlt := Int.lt_floor_add_one (d / (c : ℚ))
  -- lower bound
  obtain ⟨K0, hK0⟩ := int_div_two_zpow he0 ⌊d / (c : ℚ)⌋
  have hlow : ((⌊d / (c : ℚ)⌋ : ℤ) : ℚ) ≤ roundAt e (d / (c : ℚ)) := by
    have h2 : (K0 : ℚ) ≤ d / (c : ℚ) / (2 : ℚ) ^ e := by
      rw [← hK0]
      exact div_le_div_of_nonneg_right hFle (le_of_lt hupos)
    have h3 := le_roundHalfEven h2
    have h4 : (K0 : ℚ) ≤ (roundHalfEven (d / (c : ℚ) / (2 : ℚ) ^ e) : ℚ) := by exact_mod_cast h3
    have h5 : ((⌊d / (c : ℚ)⌋ : ℤ) : ℚ) = (K0 : ℚ) * (2 : ℚ) ^ e := by
      rw [← hK0, div_mul_cancel₀ _ (ne_of_gt hupos)]
    rw [h5]
    unfold roundAt
    exact mul_le_mul_of_nonneg_right h4 (le_of_lt hupos)
  -- upper bound
  have hgap : (2 : ℚ) ^ ulpExponent 53 (-1074) d ≤
      ((⌊d / (c : ℚ)⌋ + 1 : ℤ) : ℚ) * (c : ℚ) - d := by
    have hedle : ulpExponent 53 (-1074) d ≤ 0 := by omega
    obtain ⟨n, hn⟩ := Int.eq_ofNat_of_zero_le (show 0 ≤ -ulpExponent 53 (-1074) d by omega)
    have hpow : (2 : ℚ) ^ (n : ℕ) * (2 : ℚ) ^ ulpExponent 53 (-1074) d = 1 := by
      rw [← zpow_natCast, ← hn, two_zpow_neg_mul]
    have hrepr : ((⌊d / (c : ℚ)⌋ + 1 : ℤ) : ℚ) * (c : ℚ) - d =
        (((⌊d / (c : ℚ)⌋ + 1) * c * 2 ^ n - z : ℤ) : ℚ) *
          (2 : ℚ) ^ ulpExponent 53 (-1074) d := by
      push_cast
      rw [sub_mul, ← hform, mul_assoc, mul_assoc, hpow, mul_one]
    have hpos : 0 < ((⌊d / (c : ℚ)⌋ + 1 : ℤ) : ℚ) * (c : ℚ) - d := by
      have : d < ((⌊d / (c : ℚ)⌋ + 1 : ℤ) : ℚ) * (c : ℚ) := by
        rw [← div_lt_iff₀ hcpos]
        push_cast
        exact hFlt
      linarith
    rw [hrepr] at hpos ⊢
    have hW : 0 < ((⌊d / (c : ℚ)⌋ + 1) * c * 2 ^ n - z : ℤ) := by
      have := pos_of_mul_pos_left hpos (le_of_lt (two_zpow_pos _))
      exact_mod_cast this
    have hW1 : (1 : ℚ) ≤ (((⌊d / (c : ℚ)⌋ + 1) * c * 2 ^ n - z : ℤ) : ℚ) := by
      exact_mod_cast hW
    calc (2 : ℚ) ^ ulpExponent 53 (-1074) d = 1 * (2 : ℚ) ^ ulpExponent 53 (-1074) d := by ring
      _ ≤ _ := mul_le_mul_of_nonneg_right hW1 (le_of_lt (two_zpow_pos _))
  obtain ⟨K1, hK1⟩ := int_div_two_zpow he0 (⌊d / (c : ℚ)⌋ + 1)
  have hhalf : d / (c : ℚ) / (2 : ℚ) ^ e < (K1 : ℚ) - 1 / 2 := by
    rw [← hK1, div_lt_iff₀ hupos, sub_mul, div_mul_cancel₀ _ (ne_of_gt hupos)]
    -- (F + 1) - x ≥ 2^e_d / c > 2^e / 2
    have h2 : (2 : ℚ) ^ e * (2 : ℚ) ^ (L : ℤ) ≤ (2 : ℚ) ^ ulpExponent 53 (-1074) d := by
      rw [← zpow_add₀ (by norm_num)]
      exact zpow_le_zpow_right₀ (by norm_num) (by omega)
    have h3 : (2 : ℚ) ^ ((L : ℤ) + 1) = 2 * (2 : ℚ) ^ (L : ℤ) := by
      rw [zpow_add₀ (by norm_num), zpow_one]
      ring
    have h4 : d / (c : ℚ) * (c : ℚ) = d := div_mul_cancel₀ _ (ne_of_gt hcpos)
    have h5 : (2 : ℚ) ^ e * (c : ℚ) < 2 * ((2 : ℚ) ^ e * (2 : ℚ) ^ (L : ℤ)) := by
      have := mul_lt_mul_of_pos_left hcL2 hupos
      rw [h3] at this
      linarith
    have h6 : (1 / 2 * (2 : ℚ) ^ e) * (c : ℚ) <
        (((⌊d / (c : ℚ)⌋ + 1 : ℤ) : ℚ) - d / (c : ℚ)) * (c : ℚ) := by
      rw [sub_mul, h4]
      linarith
    have h7 := lt_of_mul_lt_mul_right h6 (le_of_lt hcpos)
    linarith
  have hup : roundAt e (d / (c : ℚ)) < ((⌊d / (c : ℚ)⌋ + 1 : ℤ) : ℚ) := by
    have h2 := roundHalfEven_lt hhalf
    have h3 : (roundHalfEven (d / (c : ℚ) / (2 : ℚ) ^ e) : ℚ) < (K1 : ℚ) := by
      exact_mod_cast h2
    have h5 : ((⌊d / (c : ℚ)⌋ + 1 : ℤ) : ℚ) = (K1 : ℚ) * (2 : ℚ) ^ e := by
      rw [← hK1, div_mul_cancel₀ _ (ne_of_gt hupos)]
    rw [h5]
    unfold roundAt
    exact mul_lt_mul_of_pos_right h3 hupos
  -- no overflow
  have hval : roundDouble (d / (c : ℚ)) = roundAt e (d / (c : ℚ)) := by
    unfold roundDouble
    rw [roundBinary_of_nonneg _ _ _ (le_of_lt hx0)]
    unfold roundMagnitude
    simp only
    rw [if_neg]
    rw [not_le]
    have h2 : ((⌊d / (c : ℚ)⌋ + 1 : ℤ) : ℚ) ≤ d / (c : ℚ) + 1 := by
      push_cast
      linarith
    have h3 : (2 : ℚ) ^ (53 : ℤ) + 1 < (2 : ℚ) ^ ((1023 : ℤ) + 1) := by norm_num
    linarith
  rw [hval, Int.floor_eq_iff]
  exact ⟨hlow, by push_cast at hup ⊢; exact hup⟩


theorem roundHalfEven_floor_le (y : ℚ) : ⌊y⌋ ≤ roundHalfEven y ∧ roundHalfEven y ≤ ⌊y⌋ + 1 := by
  unfold roundHalfEven
  simp only
  split_ifs <;> omega

theorem roundHalfEven_mono {y y' : ℚ} (h : y ≤ y') : roundHalfEven y ≤ roundHalfEven y' := by
  have hf : ⌊y⌋ ≤ ⌊y'⌋ := Int.floor_mono h
  rcases eq_or_lt_of_le hf with heq | hlt
  · unfold roundHalfEven
    simp only
    rw [heq]
    split_ifs <;> first | omega | (exfalso; linarith)
  · have h1 := (roundHalfEven_floor_le y).2
    have h2 := (roundHalfEven_floor_le y').1
    omega

theorem roundAt_mono (e : ℤ) {a b : ℚ} (h : a ≤ b) : roundAt e a ≤ roundAt e b := by
  unfold roundAt
  have h1 : a / (2 : ℚ) ^ e ≤ b / (2 : ℚ) ^ e :=
    div_le_div_of_nonneg_right h (le_of_lt (two_zpow_pos e))
  have h2 := roundHalfEven_mono h1
  have h3 : (roundHalfEven (a / (2 : ℚ) ^ e) : ℚ) ≤ (roundHalfEven (b / (2 : ℚ) ^ e) : ℚ) := by
    exact_mod_cast h2
  exact mul_le_mul_of_nonneg_right h3 (le_of_lt (two_zpow_pos e))

theorem ilog2_mono {a b : ℚ} (ha : 0 < a) (h : a ≤ b) : ilog2 a ≤ ilog2 b := by
  have hs := (ilog2_spec (ne_of_gt ha)).1
  rw [abs_of_pos ha] at hs
  exact le_ilog2_of_le (le_trans hs h)

/-- Rounding a magnitude is monotone. -/
theorem roundMagnitude_mono {p : ℕ} (hp : 1 ≤ p) (emin emax : ℤ) {a b : ℚ} (ha : 0 ≤ a)
    (h : a ≤ b) : roundMagnitude p emin emax a ≤ roundMagnitude p emin emax b := by
  have hb : 0 ≤ b := le_trans ha h
  have hr : roundAt (ulpExponent p emin a) a ≤ roundAt (ulpExponent p emin b) b := by
    rcases eq_or_lt_of_le ha with h0 | h0
    · rw [← h0, roundAt_zero]
      exact roundAt_nonneg _ hb
    · have hb0 : 0 < b := lt_of_lt_of_le h0 h
      have hil := ilog2_mono h0 h
      have hee : ulpExponent p emin a ≤ ulpExponent p emin b := by
        unfold ulpExponent
        exact max_le_max (by omega) le_rfl
      rcases eq_or_lt_of_le hee with heq | hlt
      · rw [heq]
        exact roundAt_mono _ h
      · have hge := ulpExponent_ge p emin a
        have heb : ulpExponent p emin b = ilog2 b - ((p : ℤ) - 1) := by
          unfold ulpExponent at hlt hge ⊢
          rcases le_total (ilog2 b - ((p : ℤ) - 1)) emin with hm | hm
          · rw [max_eq_right hm] at hlt
            omega
          · exact max_eq_left hm
        have hea : ilog2 a - ((p : ℤ) - 1) ≤ ulpExponent p emin a := le_max_left _ _
        have hp' : (1 : ℤ) ≤ (p : ℤ) := by exact_mod_cast hp
        -- the power of two between a and b
        have hT1 : roundAt (ulpExponent p emin a) a ≤ (2 : ℚ) ^ ilog2 b := by
          obtain ⟨n, hn⟩ := Int.eq_ofNat_of_zero_le
            (show 0 ≤ ilog2 b - ulpExponent p emin a by omega)
          have hsa := (ilog2_spec (ne_of_gt h0)).2
          rw [abs_of_pos h0] at hsa
          have h1 : a ≤ (2 : ℚ) ^ ilog2 b := by
            apply le_trans (le_of_lt hsa)
            exact zpow_le_zpow_right₀ (by norm_num) (by omega)
          have hTe : (2 : ℚ) ^ ilog2 b = (((2 : ℤ) ^ n : ℤ) : ℚ) *
              (2 : ℚ) ^ ulpExponent p emin a := by
            push_cast
            rw [← zpow_natCast, ← hn, ← zpow_add₀ (by norm_num)]
            congr 1
            ring
          have h2 : a / (2 : ℚ) ^ ulpExponent p emin a ≤ (((2 : ℤ) ^ n : ℤ) : ℚ) := by
            rw [div_le_iff₀ (two_zpow_pos _), ← hTe]
            exact h1
          have h3 := roundHalfEven_le h2
          have h4 : (roundHalfEven (a / (2 : ℚ) ^ ulpExponent p emin a) : ℚ) ≤
              (((2 : ℤ) ^ n : ℤ) : ℚ) := by exact_mod_cast h3
          rw [hTe]
          unfold roundAt
          exact mul_le_mul_of_nonneg_right h4 (le_of_lt (two_zpow_pos _))
        have hT2 : (2 : ℚ) ^ ilog2 b ≤ roundAt (ulpExponent p emin b) b := by
          obtain ⟨n, hn⟩ := Int.eq_ofNat_of_zero_le (show 0 ≤ (p : ℤ) - 1 by omega)
          have hsb := (ilog2_spec (ne_of_gt hb0)).1
          rw [abs_of_pos hb0] at hsb
          have hTe : (2 : ℚ) ^ ilog2 b = (((2 : ℤ) ^ n : ℤ) : ℚ) *
              (2 : ℚ) ^ ulpExponent p emin b := by
            push_cast
            rw [← zpow_natCast, ← hn, ← zpow_add₀ (by norm_num), heb]
            congr 1
            ring
          have h2 : (((2 : ℤ) ^ n : ℤ) : ℚ) ≤ b / (2 : ℚ) ^ ulpExponent p emin b := by
            rw [le_div_iff₀ (two_zpow_pos _), ← hTe]
            exact hsb
          have h3 := le_roundHalfEven h2
          have h4 : (((2 : ℤ) ^ n : ℤ) : ℚ) ≤
              (roundHalfEven (b / (2 : ℚ) ^ ulpExponent p emin b) : ℚ) := by exact_mod_cast h3
          rw [hTe]
          unfold roundAt
          exact mul_le_mul_of_nonneg_right h4 (le_of_lt (two_zpow_pos _))
        exact le_trans hT1 hT2
  unfold roundMagnitude
  simp only
  split_ifs with h1 h2 h2
  · exact le_rfl
  · exact absurd (le_trans h1 hr) h2
  · exact le_of_lt (not_le.mp h1)
  · exact hr

/-- Rounding is monotone. -/
theorem roundBinary_mono {p : ℕ} (hp : 1 ≤ p) (emin emax : ℤ) {x y : ℚ} (h : x ≤ y) :
    roundBinary p emin emax x ≤ roundBinary p emin emax y := by
  rcases le_or_lt 0 x with hx | hx
  · rw [roundBinary_of_nonneg _ _ _ hx, roundBinary_of_nonneg _ _ _ (le_trans hx h)]
    exact roundMagnitude_mono hp emin emax hx h
  · rcases le_or_lt 0 y with hy | hy
    · have h1 := roundBinary_nonneg p emin emax hy
      have h2 := roundBinary_nonneg p emin emax (x := -x) (by linarith)
      rw [roundBinary_neg] at h2
      linarith
    · have h1 := roundMagnitude_mono hp emin emax (a := -y) (b := -x) (by linarith) (by linarith)
      unfold roundBinary
      rw [if_pos hx, if_pos hy]
      linarith

theorem roundDouble_mono {x y : ℚ} (h : x ≤ y) : roundDouble x ≤ roundDouble y :=
  roundBinary_mono (by norm_num) _ _ h

theorem roundDouble_nonneg {x : ℚ} (h : 0 ≤ x) : 0 ≤ roundDouble x :=
  roundBinary_nonneg _ _ _ h

/-- The rounding error of a non-negative number below `2 ^ m` in the normal range is
at most `2 ^ (m - 54)`, half a unit in the last place. -/
theorem abs_roundDouble_sub_le {x : ℚ} (h0 : 0 ≤ x) {m : ℤ} (hm : x < (2 : ℚ) ^ m)
    (hm1 : -1021 ≤ m) (hm2 : m ≤ 1023) : |roundDouble x - x| ≤ (2 : ℚ) ^ (m - 54) := by
  rcases eq_or_lt_of_le h0 with hx | hx
  · rw [← hx, roundDouble_zero, sub_zero, abs_zero]
    exact le_of_lt (two_zpow_pos _)
  · have he := ulpExponent_le_of_lt hx hm hm1
    have hb := roundHalfEven_bounds (x / (2 : ℚ) ^ ulpExponent 53 (-1074) x)
    have hu := two_zpow_pos (ulpExponent 53 (-1074) x)
    have hule : (2 : ℚ) ^ ulpExponent 53 (-1074) x ≤ (2 : ℚ) ^ (m - 53) :=
      zpow_le_zpow_right₀ (by norm_num) he
    have h54 : (2 : ℚ) ^ (m - 53) = 2 * (2 : ℚ) ^ (m - 54) := by
      rw [show m - 53 = (m - 54) + 1 by ring, zpow_add₀ (by norm_num), zpow_one]
      ring
    have hxe : x / (2 : ℚ) ^ ulpExponent 53 (-1074) x * (2 : ℚ) ^ ulpExponent 53 (-1074) x = x :=
      div_mul_cancel₀ _ (ne_of_gt hu)
    have hr1 : roundAt (ulpExponent 53 (-1074) x) x - x ≤
        1 / 2 * (2 : ℚ) ^ ulpExponent 53 (-1074) x := by
      unfold roundAt
      nlinarith [hb.1, hb.2]
    have hr2 : -(1 / 2 * (2 : ℚ) ^ ulpExponent 53 (-1074) x) ≤
        roundAt (ulpExponent 53 (-1074) x) x - x := by
      unfold roundAt
      nlinarith [hb.1, hb.2]
    have hmm : (2 : ℚ) ^ m + (2 : ℚ) ^ (m - 54) < (2 : ℚ) ^ ((1023 : ℤ) + 1) := by
      have h1 : (2 : ℚ) ^ m ≤ (2 : ℚ) ^ (1023 : ℤ) := zpow_le_zpow_right₀ (by norm_num) hm2
      have h2 : (2 : ℚ) ^ (m - 54) < (2 : ℚ) ^ (1023 : ℤ) :=
        zpow_lt_zpow_right₀ (by norm_num) (by omega)
      have h3 : (2 : ℚ) ^ ((1023 : ℤ) + 1) = 2 * (2 : ℚ) ^ (1023 : ℤ) := by
        rw [zpow_add₀ (by norm_num), zpow_one]
        ring
      linarith
    have hval : roundDouble x = roundAt (ulpExponent 53 (-1074) x) x := by
      unfold roundDouble
      rw [roundBinary_of_nonneg _ _ _ h0]
      unfold roundMagnitude
      simp only
      rw [if_neg]
      rw [not_le]
      linarith
    rw [hval, abs_le]
    constructor <;> linarith

/-! ## Converting a token -/

theorem isDigit_not_others {d : Char} (h : isDigit d = true) :
    isSpace d = false ∧ isMinus d = false ∧ isPlus d = false := by
  simp only [isDigit, isSpace, isMinus, isPlus, decide_eq_true_eq, Bool.or_eq_false_iff,
    beq_eq_false_iff_ne, decide_eq_false_iff_not] at *
  omega

theorem isMinus_not_space {c : Char} (h : isMinus c = true) : isSpace c = false := by
  simp only [isSpace, isMinus, beq_iff_eq, Bool.or_eq_false_iff,
    beq_eq_false_iff_ne, decide_eq_false_iff_not] at *
  omega

theorem isMinus_iff (c : Char) : isMinus c = true ↔ c = '-' := by
  simp only [isMinus, beq_iff_eq, char_eq_iff_toNat]
  have : ('-').toNat = 45 := by decide
  omega

theorem stodUnsigned_nonneg {s : List Char} {v : ℚ} (h : stodUnsigned s = some v) : 0 ≤ v := by
  unfold stodUnsigned at h
  simp only at h
  split at h
  · exact absurd h (by simp)
  · simp only [Option.some.injEq] at h
    rw [← h]
    positivity

theorem stodUnsigned_digit {d : Char} (u : List Char) (hd : isDigit d = true) :
    ∃ v, stodUnsigned (d :: u) = some v := by
  unfold stodUnsigned
  simp [List.takeWhile_cons, hd]

/-- Every token denotes a number; it is non-negative without a leading `-` and
non-positive with one. -/
theorem decimalValue_tokenHead {m : List Char} (h : TokenHead m) :
    ∃ v, decimalValue m = some v ∧ (m.head? ≠ some '-' → 0 ≤ v) ∧
      (m.head? = some '-' → v ≤ 0) := by
  obtain ⟨sg, d, u, rfl, hsg, hd⟩ := h
  obtain ⟨hd1, hd2, hd3⟩ := isDigit_not_others hd
  obtain ⟨v, hv⟩ := stodUnsigned_digit u hd
  have hv0 := stodUnsigned_nonneg hv
  rcases hsg with rfl | ⟨c, rfl, hc⟩
  · refine ⟨v, ?_, fun _ => hv0, ?_⟩
    · simp [decimalValue, List.dropWhile_cons, hd1, hd2, hd3, hv]
    · intro hh
      simp only [List.nil_append, List.head?_cons, Option.some.injEq] at hh
      rw [(isMinus_iff d).mpr hh] at hd2
      exact absurd hd2 (by simp)
  · refine ⟨-v, ?_, ?_, fun _ => by linarith⟩
    · simp [decimalValue, List.dropWhile_cons, isMinus_not_space hc, hc, hv]
    · intro hh
      exact absurd (by simp [(isMinus_iff c).mp hc]) hh

/-- The function `std::stod` returns the double nearest to the number a string
denotes, unless `strtod` reports a range error. -/
theorem stod_of_decimalValue {s : List Char} {v : ℚ} (h : decimalValue s = some v) :
    stod s = if strtodRangeError v then none else some (roundDouble v) := by
  simp only [stod, h]

/-- What `std::stod` returns is a double with the sign of the number the string
denotes. -/
theorem stod_eq_some {s : List Char} {d : ℚ} (h : stod s = some d) :
    ∃ v, decimalValue s = some v ∧ strtodRangeError v = false ∧ d = roundDouble v := by
  unfold stod at h
  cases hv : decimalValue s with
  | none => rw [hv] at h; exact absurd h (by simp)
  | some v =>
    rw [hv] at h
    simp only at h
    by_cases hr : strtodRangeError v = true
    · rw [if_pos hr] at h; exact absurd h (by simp)
    · rw [if_neg hr, Option.some.injEq] at h
      exact ⟨v, rfl, by simpa using hr, h.symm⟩

/-- A double that `std::stod` returns is left as it is by rounding to double. -/
theorem roundDouble_of_stod {s : List Char} {d : ℚ} (h : stod s = some d) :
    roundDouble d = d := by
  obtain ⟨v, _, _, rfl⟩ := stod_eq_some h
  exact roundDouble_idem v

/-- The double that `std::stod` returns for a token is non-negative without a leading
`-` and non-positive with one. -/
theorem stod_token_sign {m : List Char} (hm : TokenHead m) {d : ℚ} (h : stod m = some d) :
    (m.head? ≠ some '-' → 0 ≤ d) ∧ (m.head? = some '-' → d ≤ 0) := by
  obtain ⟨v, hv, h1, h2⟩ := decimalValue_tokenHead hm
  obtain ⟨v', hv', _, rfl⟩ := stod_eq_some h
  rw [hv] at hv'
  cases hv'
  constructor
  · intro hh
    exact roundBinary_nonneg _ _ _ (h1 hh)
  · intro hh
    have := roundBinary_nonneg 53 (-1074) 1023 (x := -v) (by linarith [h2 hh])
    rw [roundBinary_neg] at this
    unfold roundDouble
    linarith

/-- The function `std::stod` returns the value of a literal that is a finite double. -/
theorem stod_of_double {t : List Char} {v : ℚ} (h : decimalValue t = some v)
    (hd : roundDouble v = v) (hfin : |v| < (2 : ℚ) ^ (1024 : ℤ)) : stod t = some v := by
  rw [stod_of_decimalValue h]
  have : strtodRangeError v = false := by
    unfold strtodRangeError
    rw [hd]
    simp [not_le.mpr hfin]
  rw [this, hd]
  rfl

/-- The function `std::stod` returns the value of a literal that is a natural number
below `2 ^ 53`. -/
theorem stod_natCast {t : List Char} {n : ℕ} (h : decimalValue t = some (n : ℚ))
    (hn : n < 2 ^ 53) : stod t = some (n : ℚ) := by
  apply stod_of_double h (roundDouble_natCast hn)
  rw [abs_of_nonneg (by positivity)]
  have h1 : (n : ℚ) < (2 : ℚ) ^ (53 : ℕ) := by exact_mod_cast hn
  have h2 : (2 : ℚ) ^ (53 : ℕ) < (2 : ℚ) ^ (1024 : ℤ) := by norm_num
  linarith

/-- The double `std::stod` returns for a string that denotes `v` is `v` rounded. -/
theorem stod_eq_roundDouble {t : List Char} {v d : ℚ} (h : decimalValue t = some v)
    (hd : stod t = some d) : d = roundDouble v := by
  obtain ⟨v', hv', _, rfl⟩ := stod_eq_some hd
  rw [h] at hv'
  cases hv'
  rfl

/-! ## Decoding one coordinate -/

theorem stodAt_ok {toks : List (List Char)} (h : ∀ t ∈ toks, ∃ v, stod t = some v) (i : Nat)
    (hi : i < toks.length) : ∃ v, stodAt toks i = .ok v ∧ stod (toks.getD i []) = some v := by
  have hmem : toks.getD i [] ∈ toks := by
    rw [List.getD_eq_getElem _ _ hi]
    exact List.getElem_mem _
  obtain ⟨v, hv⟩ := h _ hmem
  exact ⟨v, by simp only [stodAt, hv], hv⟩

theorem stodAt_abs_ok {toks : List (List Char)} (h : ∀ t ∈ toks, ∃ v, stod t = some v)
    (i : Nat) : ∃ m : ℚ, 0 ≤ m ∧ absAt toks i = .ok m := by
  by_cases hi : toks.length > i
  · obtain ⟨v, hv, _⟩ := stodAt_ok h i hi
    exact ⟨|v|, abs_nonneg v, by simp [absAt, hi, hv, Except.map]⟩
  · exact ⟨0, le_refl 0, by simp [absAt, hi]⟩

/-- The constructor succeeds on a non-empty list of tokens that `std::stod` converts,
with the sign and magnitude of the first token and non-negative further fields. -/
theorem new_ok {toks : List (List Char)} (hne : toks ≠ [])
    (h : ∀ t ∈ toks, ∃ v, stod t = some v) :
    ∃ d m s ms : ℚ, stod (toks.getD 0 []) = some d ∧ 0 ≤ m ∧ 0 ≤ s ∧ 0 ≤ ms ∧
      CoordinateNumber.new toks =
        .ok ⟨normalizedSignOf (roundFloat d), |d|, m, s, ms, decide (toks.length < 2)⟩ := by
  have hlen : 0 < toks.length := List.length_pos.mpr hne
  obtain ⟨d, hd, hd'⟩ := stodAt_ok h 0 hlen
  obtain ⟨m, hm0, hm⟩ := stodAt_abs_ok h 1
  obtain ⟨s, hs0, hs⟩ := stodAt_abs_ok h 2
  obtain ⟨ms, hms0, hms⟩ := stodAt_abs_ok h 3
  refine ⟨d, m, s, ms, hd', hm0, hs0, hms0, ?_⟩
  unfold CoordinateNumber.new
  rw [if_neg (by omega), hd, hm, hs, hms]
  rfl

/-- A non-empty list of tokens that `std::stod` converts decodes. -/
theorem decode_ok {toks : List (List Char)} (hne : toks ≠ [])
    (h : ∀ t ∈ toks, ∃ v, stod t = some v) :
    ∃ a, coordinateNumbersToDecimal toks = .ok a := by
  obtain ⟨d, m, sec, ms, _, _, _, _, hnew⟩ := new_ok hne h
  exact ⟨_, by rw [coordinateNumbersToDecimal, hnew]; rfl⟩

/-- A decoded value is a double. -/
theorem roundDouble_of_decode {toks : List (List Char)} {a : ℚ}
    (h : coordinateNumbersToDecimal toks = .ok a) : roundDouble a = a := by
  unfold coordinateNumbersToDecimal at h
  cases hc : CoordinateNumber.new toks with
  | error e => rw [hc] at h; exact absurd h (by simp [Except.map])
  | ok c =>
    rw [hc] at h
    simp only [Except.map, Except.ok.injEq] at h
    rw [← h]
    exact roundDouble_idem _

theorem detectSpecialFormats_sign (c : CoordinateNumber) :
    c.detectSpecialFormats.sign = c.sign := by
  unfold CoordinateNumber.detectSpecialFormats
  split
  · split
    · rfl
    · split
      · rfl
      · split <;> rfl
  · rfl

theorem doubleDiv_zero (c : ℚ) : doubleDiv 0 c = 0 := by
  unfold doubleDiv
  rw [zero_div, roundDouble_zero]

theorem doubleAdd_zero {a : ℚ} (h : roundDouble a = a) : doubleAdd a 0 = a := by
  unfold doubleAdd
  rw [add_zero, h]

theorem doubleMul_one {a : ℚ} (h : roundDouble a = a) : doubleMul 1 a = a := by
  unfold doubleMul
  rw [one_mul, h]

theorem roundDouble_doubleAdd (a b : ℚ) : roundDouble (doubleAdd a b) = doubleAdd a b :=
  roundDouble_idem _

/-- The value `toDecimal` computes for a positive number without milliseconds. -/
theorem toDecimal_positive (D M S : ℚ) (b : Bool) :
    (CoordinateNumber.mk 1 D M S 0 b).toDecimal =
      doubleAdd (doubleAdd D (doubleDiv M 60)) (doubleDiv S 3600) := by
  unfold CoordinateNumber.toDecimal
  simp only [Int.cast_one, doubleDiv_zero]
  rw [doubleAdd_zero (roundDouble_doubleAdd _ _), doubleMul_one (roundDouble_doubleAdd _ _)]

/-- The product of two non-negative integers below `2 ^ 53` is exact. -/
theorem doubleMul_int {F : ℤ} (hF : 0 ≤ F) (c : ℕ) (h : F * c < 2 ^ 53) :
    doubleMul (F : ℚ) (c : ℚ) = (F : ℚ) * (c : ℚ) := by
  have h0 : 0 ≤ F * c := mul_nonneg hF (by positivity)
  have := roundDouble_of_multiple (z := F * c) (k := 0) h0 h (by norm_num) (by
    rw [zpow_zero, mul_one]
    have h1 : ((F * c : ℤ) : ℚ) < (((2 : ℤ) ^ 53 : ℤ) : ℚ) := by exact_mod_cast h
    have h2 : (((2 : ℤ) ^ 53 : ℤ) : ℚ) < (2 : ℚ) ^ (1024 : ℤ) := by norm_num
    linarith)
  unfold doubleMul
  rw [zpow_zero, mul_one] at this
  push_cast at this
  exact this

/-- The quotient of a double `d`, `0 ≤ d < 2 ^ 53`, by a natural number `c` below
`2 ^ 21`, rounded to double, has the integer part of the exact quotient. -/
theorem floor_doubleDiv {d : ℚ} (hd : roundDouble d = d) (h0 : 0 ≤ d)
    (h53 : d < (2 : ℚ) ^ (53 : ℤ)) {c L : ℕ} (hL1 : 2 ^ L ≤ c) (hL2 : c < 2 ^ (L + 1))
    (hL : L ≤ 20) :
    ⌊doubleDiv d c⌋ = ⌊d / (c : ℚ)⌋ := by
  unfold doubleDiv
  rcases le_or_lt 1 d with h1 | h1
  · exact floor_roundDouble_div hd h1 h53 hL1 hL2 hL
  · have hc1 : (1 : ℚ) ≤ (c : ℚ) := by
      have : 1 ≤ c := le_trans (Nat.one_le_two_pow) hL1
      exact_mod_cast this
    have hq0 : 0 ≤ d / (c : ℚ) := div_nonneg h0 (by linarith)
    have hqd : d / (c : ℚ) ≤ d := div_le_self h0 hc1
    have hr0 := roundDouble_nonneg hq0
    have hr1 := roundDouble_mono hqd
    rw [hd] at hr1
    rw [Int.floor_eq_iff.mpr ⟨by simpa using hr0, by simp; linarith⟩,
      Int.floor_eq_iff.mpr ⟨by simpa using hq0, by simp; linarith⟩]

/-- The fields `degreesAsDegreesAndMinutes` computes from a double below `2 ^ 53`:
the three operations are exact. -/
theorem degreesAsDegreesAndMinutes_eq (c : CoordinateNumber)
    (hd : roundDouble c.degrees = c.degrees) (h0 : 0 ≤ c.degrees)
    (h53 : c.degrees < (2 : ℚ) ^ (53 : ℤ)) :
    c.degreesAsDegreesAndMinutes =
      { c with minutes := c.degrees - (⌊c.degrees / 100⌋ : ℚ) * 100,
               degrees := (⌊c.degrees / 100⌋ : ℚ) } := by
  have hfl : ⌊doubleDiv c.degrees 100⌋ = ⌊c.degrees / 100⌋ := by
    have := floor_doubleDiv hd h0 h53 (c := 100) (L := 6) (by norm_num) (by norm_num)
      (by norm_num)
    simpa using this
  have hF0 : (0 : ℤ) ≤ ⌊c.degrees / 100⌋ := Int.floor_nonneg.mpr (by positivity)
  have hFle : (⌊c.degrees / 100⌋ : ℚ) * 100 ≤ c.degrees := by
    have := Int.floor_le (c.degrees / 100)
    linarith
  have hF53 : ⌊c.degrees / 100⌋ * ((100 : ℕ) : ℤ) < 2 ^ 53 := by
    have h1 : ((⌊c.degrees / 100⌋ * ((100 : ℕ) : ℤ) : ℤ) : ℚ) < (((2 : ℤ) ^ 53 : ℤ) : ℚ) := by
      push_cast
      have : (2 : ℚ) ^ (53 : ℤ) = 9007199254740992 := by norm_num
      linarith
    exact_mod_cast h1
  have hmul : doubleMul (⌊c.degrees / 100⌋ : ℚ) 100 = (⌊c.degrees / 100⌋ : ℚ) * 100 := by
    have := doubleMul_int hF0 100 hF53
    simpa using this
  have hsub : doubleSub c.degrees ((⌊c.degrees / 100⌋ : ℚ) * 100) =
      c.degrees - (⌊c.degrees / 100⌋ : ℚ) * 100 := by
    have := roundDouble_sub_int hd (N := ⌊c.degrees / 100⌋ * 100) (by omega)
      (by push_cast; exact hFle) h53
    unfold doubleSub
    push_cast at this
    exact this
  unfold CoordinateNumber.degreesAsDegreesAndMinutes
  simp only [hfl, hmul, hsub]

/-- The fields `degreesAsDegreesMinutesAndSeconds` computes from a double below
`2 ^ 53`: the three floors are those of the exact quotients and remainders. -/
theorem degreesAsDegreesMinutesAndSeconds_eq (c : CoordinateNumber)
    (hd : roundDouble c.degrees = c.degrees) (h0 : 0 ≤ c.degrees)
    (h53 : c.degrees < (2 : ℚ) ^ (53 : ℤ)) :
    c.degreesAsDegreesMinutesAndSeconds =
      { c with
        minutes := (⌊(c.degrees - (⌊c.degrees / 10000⌋ : ℚ) * 10000) / 100⌋ : ℚ),
        seconds := (⌊c.degrees - (⌊c.degrees / 10000⌋ : ℚ) * 10000 -
          (⌊(c.degrees - (⌊c.degrees / 10000⌋ : ℚ) * 10000) / 100⌋ : ℚ) * 100⌋ : ℚ),
        degrees := (⌊c.degrees / 10000⌋ : ℚ) } := by
  have h2pow : (2 : ℚ) ^ (53 : ℤ) = 9007199254740992 := by norm_num
  have hfl : ⌊doubleDiv c.degrees 10000⌋ = ⌊c.degrees / 10000⌋ := by
    have := floor_doubleDiv hd h0 h53 (c := 10000) (L := 13) (by norm_num) (by norm_num)
      (by norm_num)
    simpa using this
  have hF0 : (0 : ℤ) ≤ ⌊c.degrees / 10000⌋ := Int.floor_nonneg.mpr (by positivity)
  have hFle : (⌊c.degrees / 10000⌋ : ℚ) * 10000 ≤ c.degrees := by
    have := Int.floor_le (c.degrees / 10000)
    linarith
  have hF53 : ⌊c.degrees / 10000⌋ * ((10000 : ℕ) : ℤ) < 2 ^ 53 := by
    have h1 : ((⌊c.degrees / 10000⌋ * ((10000 : ℕ) : ℤ) : ℤ) : ℚ) <
        (((2 : ℤ) ^ 53 : ℤ) : ℚ) := by
      push_cast
      linarith
    exact_mod_cast h1
  have hmul : doubleMul (⌊c.degrees / 10000⌋ : ℚ) 10000 =
      (⌊c.degrees / 10000⌋ : ℚ) * 10000 := by
    have := doubleMul_int hF0 10000 hF53
    simpa using this
  have hsub : doubleSub c.degrees ((⌊c.degrees / 10000⌋ : ℚ) * 10000) =
      c.degrees - (⌊c.degrees / 10000⌋ : ℚ) * 10000 := by
    have := roundDouble_sub_int hd (N := ⌊c.degrees / 10000⌋ * 10000) (by omega)
      (by push_cast; exact hFle) h53
    unfold doubleSub
    push_cast at this
    exact this
  -- the remainder is a double
  have hr0 : 0 ≤ c.degrees - (⌊c.degrees / 10000⌋ : ℚ) * 10000 := by linarith
  have hrd : roundDouble (c.degrees - (⌊c.degrees / 10000⌋ : ℚ) * 10000) =
      c.degrees - (⌊c.degrees / 10000⌋ : ℚ) * 10000 := by
    rw [← hsub]
    exact roundDouble_idem _
  have hr53 : c.degrees - (⌊c.degrees / 10000⌋ : ℚ) * 10000 < (2 : ℚ) ^ (53 : ℤ) := by
    have : (0 : ℚ) ≤ (⌊c.degrees / 10000⌋ : ℚ) := by exact_mod_cast hF0
    linarith
  have hfl2 : ⌊doubleDiv (c.degrees - (⌊c.degrees / 10000⌋ : ℚ) * 10000) 100⌋ =
      ⌊(c.degrees - (⌊c.degrees / 10000⌋ : ℚ) * 10000) / 100⌋ := by
    have := floor_doubleDiv hrd hr0 hr53 (c := 100) (L := 6) (by norm_num) (by norm_num)
      (by norm_num)
    simpa using this
  have hM0 : (0 : ℤ) ≤ ⌊(c.degrees - (⌊c.degrees / 10000⌋ : ℚ) * 10000) / 100⌋ :=
    Int.floor_nonneg.mpr (by positivity)
  have hMle : (⌊(c.degrees - (⌊c.degrees / 10000⌋ : ℚ) * 10000) / 100⌋ : ℚ) * 100 ≤
      c.degrees - (⌊c.degrees / 10000⌋ : ℚ) * 10000 := by
    have := Int.floor_le ((c.degrees - (⌊c.degrees / 10000⌋ : ℚ) * 10000) / 100)
    linarith
  have hM53 : ⌊(c.degrees - (⌊c.degrees / 10000⌋ : ℚ) * 10000) / 100⌋ * ((100 : ℕ) : ℤ) <
      2 ^ 53 := by
    have h1 : ((⌊(c.degrees - (⌊c.degrees / 10000⌋ : ℚ) * 10000) / 100⌋ *
        ((100 : ℕ) : ℤ) : ℤ) : ℚ) < (((2 : ℤ) ^ 53 : ℤ) : ℚ) := by
      push_cast
      linarith
    exact_mod_cast h1
  have hmul2 : doubleMul (⌊(c.degrees - (⌊c.degrees / 10000⌋ : ℚ) * 10000) / 100⌋ : ℚ) 100 =
      (⌊(c.degrees - (⌊c.degrees / 10000⌋ : ℚ) * 10000) / 100⌋ : ℚ) * 100 := by
    have := doubleMul_int hM0 100 hM53
    simpa using this
  have hsub2 : doubleSub (c.degrees - (⌊c.degrees / 10000⌋ : ℚ) * 10000)
      ((⌊(c.degrees - (⌊c.degrees / 10000⌋ : ℚ) * 10000) / 100⌋ : ℚ) * 100) =
      c.degrees - (⌊c.degrees / 10000⌋ : ℚ) * 10000 -
        (⌊(c.degrees - (⌊c.degrees / 10000⌋ : ℚ) * 10000) / 100⌋ : ℚ) * 100 := by
    have := roundDouble_sub_int hrd
      (N := ⌊(c.degrees - (⌊c.degrees / 10000⌋ : ℚ) * 10000) / 100⌋ * 100) (by omega)
      (by push_cast; exact hMle) hr53
    unfold doubleSub
    push_cast at this
    exact this
  unfold CoordinateNumber.degreesAsDegreesMinutesAndSeconds
  simp only [hfl, hmul, hsub, hfl2, hmul2, hsub2]

/-- The sign `normalizedSignOf` gives to a double: `+1` when the double is not negative,
and `-1` when it is below `-2 ^ (-150)`, the negative doubles that do not become zero as
a `float`. -/
theorem normalizedSignOf_roundFloat (v : ℚ) :
    (0 ≤ v → normalizedSignOf (roundFloat v) = 1) ∧
      (v < -(2 : ℚ) ^ (-150 : ℤ) → normalizedSignOf (roundFloat v) = -1) := by
  constructor
  · intro h
    unfold normalizedSignOf
    rw [if_pos (show roundFloat v ≥ 0 from roundBinary_nonneg _ _ _ h)]
  · intro h
    have := roundBinary_neg_of_lt (p := 24) (by norm_num) (-149) 127 (x := v)
      (by rw [show (-149 : ℤ) - 1 = -150 by norm_num]; exact h)
    unfold normalizedSignOf
    rw [if_neg (show ¬ roundFloat v ≥ 0 from not_le.mpr this)]

theorem absAt_nonneg {toks : List (List Char)} {i : Nat} {m : ℚ} (h : absAt toks i = .ok m) :
    0 ≤ m := by
  unfold absAt at h
  split_ifs at h
  · cases hs : stodAt toks i with
    | error e => rw [hs] at h; exact absurd h (by simp [Except.map])
    | ok v =>
      rw [hs] at h
      simp only [Except.map, Except.ok.injEq] at h
      rw [← h]
      exact abs_nonneg v
  · simp only [Except.ok.injEq] at h
    rw [← h]

/-- The fields of a number the constructor has built: the sign and the magnitude of the
double read from the first token, and non-negative further fields. -/
theorem new_fields {toks : List (List Char)} {c : CoordinateNumber}
    (h : CoordinateNumber.new toks = .ok c) :
    ∃ d, stod (toks.getD 0 []) = some d ∧ c.sign = normalizedSignOf (roundFloat d) ∧
      c.degrees = |d| ∧ 0 ≤ c.minutes ∧ 0 ≤ c.seconds ∧ 0 ≤ c.milliseconds := by
  unfold CoordinateNumber.new at h
  split_ifs at h
  cases h0 : stodAt toks 0 with
  | error e => rw [h0] at h; exact absurd h (by simp [bind, Except.bind])
  | ok d =>
    cases h1 : absAt toks 1 with
    | error e => rw [h0, h1] at h; exact absurd h (by simp [bind, Except.bind])
    | ok m =>
      cases h2 : absAt toks 2 with
      | error e => rw [h0, h1, h2] at h; exact absurd h (by simp [bind, Except.bind])
      | ok s =>
        cases h3 : absAt toks 3 with
        | error e => rw [h0, h1, h2, h3] at h; exact absurd h (by simp [bind, Except.bind])
        | ok ms =>
          rw [h0, h1, h2, h3] at h
          simp only [bind, Except.bind, pure, Except.pure, Except.ok.injEq] at h
          have hd : stod (toks.getD 0 []) = some d := by
            unfold stodAt at h0
            cases hs : stod (toks.getD 0 []) with
            | none => rw [hs] at h0; exact absurd h0 (by simp)
            | some v =>
              rw [hs] at h0
              simp only [Except.ok.injEq] at h0
              rw [h0]
          refine ⟨d, hd, ?_, ?_, ?_, ?_, ?_⟩ <;> rw [← h]
          · exact absAt_nonneg h1
          · exact absAt_nonneg h2
          · exact absAt_nonneg h3

/-- The fields of a number stay non-negative under `detectSpecialFormats`. -/
theorem detectSpecialFormats_nonneg (c : CoordinateNumber)
    (hd : roundDouble c.degrees = c.degrees) (h0 : 0 ≤ c.degrees) (h1 : 0 ≤ c.minutes)
    (h2 : 0 ≤ c.seconds) (h3 : 0 ≤ c.milliseconds) :
    0 ≤ c.detectSpecialFormats.degrees ∧ 0 ≤ c.detectSpecialFormats.minutes ∧
      0 ≤ c.detectSpecialFormats.seconds ∧ 0 ≤ c.detectSpecialFormats.milliseconds := by
  have h2pow : (2 : ℚ) ^ (53 : ℤ) = 9007199254740992 := by norm_num
  unfold CoordinateNumber.detectSpecialFormats
  by_cases hsp : c.degreescanbespecial = true
  · rw [if_pos hsp]
    by_cases c1 : c.degrees > 909090
    · simp only [CoordinateNumber.degreesCanBeMilliseconds, c1, decide_True, if_true,
        CoordinateNumber.degreesAsMilliseconds]
      exact ⟨le_rfl, h1, h2, h0⟩
    · have h53 : c.degrees < (2 : ℚ) ^ (53 : ℤ) := by
        rw [h2pow]
        linarith [not_lt.mp c1]
      by_cases c2 : c.degrees > 9090
      · simp only [CoordinateNumber.degreesCanBeMilliseconds,
          CoordinateNumber.degreesCanBeDegreesMinutesAndSeconds, c1, c2, decide_False,
          decide_True, if_true, Bool.false_eq_true, if_false]
        rw [degreesAsDegreesMinutesAndSeconds_eq c hd h0 h53]
        have hF := Int.floor_le (c.degrees / 10000)
        have hr : 0 ≤ c.degrees - (⌊c.degrees / 10000⌋ : ℚ) * 10000 := by linarith
        have hM := Int.floor_le ((c.degrees - (⌊c.degrees / 10000⌋ : ℚ) * 10000) / 100)
        refine ⟨?_, ?_, ?_, h3⟩
        · exact Int.cast_nonneg.mpr (Int.floor_nonneg.mpr (div_nonneg h0 (by norm_num)))
        · exact Int.cast_nonneg.mpr (Int.floor_nonneg.mpr (div_nonneg hr (by norm_num)))
        · exact Int.cast_nonneg.mpr (Int.floor_nonneg.mpr (by linarith))
      · by_cases c3 : c.degrees > 360
        · simp only [CoordinateNumber.degreesCanBeMilliseconds,
            CoordinateNumber.degreesCanBeDegreesMinutesAndSeconds,
            CoordinateNumber.degreesCanBeDegreesAndMinutes, c1, c2, c3, decide_False,
            decide_True, if_true, Bool.false_eq_true, if_false]
          rw [degreesAsDegreesAndMinutes_eq c hd h0 h53]
          have hF := Int.floor_le (c.degrees / 100)
          refine ⟨?_, ?_, h2, h3⟩
          · exact Int.cast_nonneg.mpr (Int.floor_nonneg.mpr (div_nonneg h0 (by norm_num)))
          · show 0 ≤ c.degrees - (⌊c.degrees / 100⌋ : ℚ) * 100
            linarith
        · simp only [CoordinateNumber.degreesCanBeMilliseconds,
            CoordinateNumber.degreesCanBeDegreesMinutesAndSeconds,
            CoordinateNumber.degreesCanBeDegreesAndMinutes, c1, c2, c3, decide_False,
            Bool.false_eq_true, if_false]
          exact ⟨h0, h1, h2, h3⟩
  · rw [if_neg hsp]
    exact ⟨h0, h1, h2, h3⟩

/-- The sign of a decoded value is the sign `normalizedSignOf` gives to the double read
from the first token: the value is not negative when that double is not negative, and
not positive when that double is below `-2 ^ (-150)`. -/
theorem decode_sign {toks : List (List Char)} {a : ℚ}
    (h : coordinateNumbersToDecimal toks = .ok a) :
    ∃ d, stod (toks.getD 0 []) = some d ∧ (0 ≤ d → 0 ≤ a) ∧
      (d < -(2 : ℚ) ^ (-150 : ℤ) → a ≤ 0) := by
  unfold coordinateNumbersToDecimal at h
  cases hc : CoordinateNumber.new toks with
  | error e => rw [hc] at h; exact absurd h (by simp [Except.map])
  | ok c =>
    rw [hc] at h
    simp only [Except.map, Except.ok.injEq] at h
    obtain ⟨d, hd, hsg, hdeg, hm, hs, hms⟩ := new_fields hc
    have hdd : roundDouble c.degrees = c.degrees := by
      rw [hdeg, roundDouble_abs, roundDouble_of_stod hd]
    obtain ⟨n0, n1, n2, n3⟩ := detectSpecialFormats_nonneg c hdd
      (by rw [hdeg]; exact abs_nonneg d) hm hs hms
    have hsum : 0 ≤ doubleAdd (doubleAdd (doubleAdd c.detectSpecialFormats.degrees
        (doubleDiv c.detectSpecialFormats.minutes 60))
        (doubleDiv c.detectSpecialFormats.seconds 3600))
        (doubleDiv c.detectSpecialFormats.milliseconds 3600000) := by
      unfold doubleAdd doubleDiv
      apply roundDouble_nonneg
      apply add_nonneg
      · apply roundDouble_nonneg
        apply add_nonneg
        · apply roundDouble_nonneg
          apply add_nonneg n0
          exact roundDouble_nonneg (div_nonneg n1 (by norm_num))
        · exact roundDouble_nonneg (div_nonneg n2 (by norm_num))
      · exact roundDouble_nonneg (div_nonneg n3 (by norm_num))
    refine ⟨d, hd, ?_, ?_⟩
    · intro h0
      rw [← h]
      unfold CoordinateNumber.toDecimal
      rw [detectSpecialFormats_sign, hsg, (normalizedSignOf_roundFloat d).1 h0]
      unfold doubleMul
      apply roundDouble_nonneg
      simp only [Int.cast_one, one_mul]
      exact hsum
    · intro h0
      rw [← h]
      unfold CoordinateNumber.toDecimal
      rw [detectSpecialFormats_sign, hsg, (normalizedSignOf_roundFloat d).2 h0]
      unfold doubleMul
      have := roundDouble_nonneg hsum
      simp only [Int.reduceNeg, Int.cast_neg, Int.cast_one, neg_mul, one_mul,
        roundDouble_neg]
      linarith

/-! ## The validator -/

theorem checkValidOrientation_eq_none (s : List Char) :
    CoordinateValidator.checkValidOrientation s = none ↔ OrientationOK (cardinalLetters s) := by
  rw [← regexMatch_orientationRegex]
  unfold CoordinateValidator.checkValidOrientation
  cases regexMatch orientationRegex s <;> simp

theorem checkValidOrientation_eq_some (s : List Char) (m : String)
    (h : CoordinateValidator.checkValidOrientation s = some m) :
    m = "Invalid cardinal direction." := by
  unfold CoordinateValidator.checkValidOrientation at h
  split at h
  · exact (Option.some.inj h).symm
  · exact absurd h (by simp)

/-- The message of `checkNumbers` as a function of the number of tokens. -/
theorem checkNumbers_eq (s : List Char) :
    CoordinateValidator.checkNumbers s =
      if (extractCoordinateNumbers s).length = 0 then some "Could not find any coordinate number"
      else if (extractCoordinateNumbers s).length % 2 ≠ 0 then
        some "Uneven count of latitude/longitude numbers"
      else if (extractCoordinateNumbers s).length > 6 then some "Too many coordinate numbers"
      else none := by
  unfold CoordinateValidator.checkNumbers CoordinateValidator.checkAnyCoordinateNumbers
    CoordinateValidator.checkEvenCoordinateNumbers
    CoordinateValidator.checkMaximumCoordinateNumbers
  simp only
  split_ifs <;> rfl

theorem checkNumbers_eq_none (s : List Char) :
    CoordinateValidator.checkNumbers s = none ↔
      (extractCoordinateNumbers s).length = 2 ∨ (extractCoordinateNumbers s).length = 4 ∨
        (extractCoordinateNumbers s).length = 6 := by
  rw [checkNumbers_eq]
  split_ifs <;> simp <;> omega

/-- The outcome of `isValid` when the first two checks pass. -/
theorem isValid_of_checks {s : List Char}
    (h1 : CoordinateValidator.checkContainsNoLetters s = none)
    (h2 : CoordinateValidator.checkValidOrientation s = none) :
    isValid s = match CoordinateValidator.checkNumbers s with
      | some m => ⟨false, m⟩
      | none => ⟨true, ""⟩ := by
  simp only [isValid, CoordinateValidator.isValid, h1, h2]

theorem isValid_ok_iff (s : List Char) :
    (isValid s).ok = true ↔
      CoordinateValidator.checkContainsNoLetters s = none ∧
      CoordinateValidator.checkValidOrientation s = none ∧
      CoordinateValidator.checkNumbers s = none := by
  simp only [isValid, CoordinateValidator.isValid]
  cases CoordinateValidator.checkContainsNoLetters s <;>
    cases CoordinateValidator.checkValidOrientation s <;>
    cases CoordinateValidator.checkNumbers s <;> simp

theorem isValid_eq_of_ok {s : List Char} (h : (isValid s).ok = true) : isValid s = ⟨true, ""⟩ := by
  obtain ⟨h1, h2, h3⟩ := (isValid_ok_iff s).mp h
  rw [isValid_of_checks h1 h2, h3]

/-! ## The parser -/

theorem parse_of_invalid {s : List Char} (h : (isValid s).ok = false) :
    parse s = .ok ⟨false, 0, 0, (isValid s).message⟩ := by
  unfold isValid at h
  simp [parse, isValid, h]

/-- The tokens of a valid input split into two halves of one to three tokens. -/
theorem halves_of_valid {s : List Char} (h : (isValid s).ok = true) :
    (1 ≤ ((extractCoordinateNumbers s).take ((extractCoordinateNumbers s).length / 2)).length ∧
      ((extractCoordinateNumbers s).take ((extractCoordinateNumbers s).length / 2)).length ≤ 3) ∧
    (1 ≤ ((extractCoordinateNumbers s).drop ((extractCoordinateNumbers s).length / 2)).length ∧
      ((extractCoordinateNumbers s).drop ((extractCoordinateNumbers s).length / 2)).length ≤ 3)
    := by
  obtain ⟨_, _, h3⟩ := (isValid_ok_iff s).mp h
  have hlen := (checkNumbers_eq_none s).mp h3
  rw [List.length_take, List.length_drop]
  omega

/-- Each half of the tokens of a valid input decodes when `std::stod` converts every
token. -/
theorem decode_halves {s : List Char} (h : (isValid s).ok = true)
    (hc : ∀ t ∈ extractCoordinateNumbers s, ∃ v, stod t = some v) :
    ∃ a b, coordinateNumbersToDecimal
        ((extractCoordinateNumbers s).take ((extractCoordinateNumbers s).length / 2)) = .ok a ∧
      coordinateNumbersToDecimal
        ((extractCoordinateNumbers s).drop ((extractCoordinateNumbers s).length / 2)) = .ok b := by
  obtain ⟨⟨h1, _⟩, ⟨h2, _⟩⟩ := halves_of_valid h
  obtain ⟨a, ha⟩ := decode_ok (List.length_pos.mp (lt_of_lt_of_le Nat.zero_lt_one h1))
    (fun t ht => hc t (List.mem_of_mem_take ht))
  obtain ⟨b, hb⟩ := decode_ok (List.length_pos.mp (lt_of_lt_of_le Nat.zero_lt_one h2))
    (fun t ht => hc t (List.mem_of_mem_drop ht))
  exact ⟨a, b, ha, hb⟩

/-- The result of `parse` on a valid input, from the values of the two halves. -/
theorem parse_of_valid {s : List Char} (h : (isValid s).ok = true) {a b : ℚ}
    (ha : coordinateNumbersToDecimal
        ((extractCoordinateNumbers s).take ((extractCoordinateNumbers s).length / 2)) = .ok a)
    (hb : coordinateNumbersToDecimal
        ((extractCoordinateNumbers s).drop ((extractCoordinateNumbers s).length / 2)) = .ok b) :
    parse s = .ok ⟨true, if latitudeIsNegative s then doubleMul a (-1) else a,
      if longitudeIsNegative s then doubleMul b (-1) else b, ""⟩ := by
  have hv := isValid_eq_of_ok h
  unfold isValid at hv
  unfold parse
  simp only [hv, Bool.not_true, Bool.false_eq_true, if_false, ha, hb]
  rfl

/-- On a valid input `parse` returns true or does not return: an exception of the
decoding leaves it. -/
theorem parse_valid_cases {s : List Char} (h : (isValid s).ok = true) :
    (∃ e, parse s = .error e) ∨ ∃ a b, parse s = .ok ⟨true, a, b, ""⟩ := by
  have hv := isValid_eq_of_ok h
  unfold isValid at hv
  cases ha : coordinateNumbersToDecimal
      ((extractCoordinateNumbers s).take ((extractCoordinateNumbers s).length / 2)) with
  | error e =>
    left
    refine ⟨e, ?_⟩
    unfold parse
    simp only [hv, Bool.not_true, Bool.false_eq_true, if_false, ha]
    rfl
  | ok a =>
    cases hb : coordinateNumbersToDecimal
        ((extractCoordinateNumbers s).drop ((extractCoordinateNumbers s).length / 2)) with
    | error e =>
      left
      refine ⟨e, ?_⟩
      unfold parse
      simp only [hv, Bool.not_true, Bool.false_eq_true, if_false, ha, hb]
      rfl
    | ok b => exact Or.inr ⟨_, _, parse_of_valid h ha hb⟩

/-- Multiplying a double by -1 negates it. -/
theorem doubleMul_neg_one {a : ℚ} (h : roundDouble a = a) : doubleMul a (-1) = -a := by
  unfold doubleMul
  rw [mul_neg_one, roundDouble_neg, h]

theorem isNS_iff_mem (c : Char) : isNS c = true ↔ c ∈ ['n', 'N', 's', 'S'] := by
  rw [isNS_iff]
  simp only [List.mem_cons, List.not_mem_nil, or_false]

theorem isEW_iff_mem (c : Char) : isEW c = true ↔ c ∈ ['e', 'E', 'w', 'W'] := by
  rw [isEW_iff]
  simp only [List.mem_cons, List.not_mem_nil, or_false]

theorem isNS_eq_decide (c : Char) : isNS c = decide (c ∈ ['n', 'N', 's', 'S']) := by
  rw [Bool.eq_iff_iff, isNS_iff_mem, decide_eq_true_eq]

theorem isEW_eq_decide (c : Char) : isEW c = decide (c ∈ ['e', 'E', 'w', 'W']) := by
  rw [Bool.eq_iff_iff, isEW_iff_mem, decide_eq_true_eq]

theorem cardinalLetters_eq (s : List Char) :
    cardinalLetters s =
      s.filter (fun c => decide (c ∈ ['n', 'N', 's', 'S', 'e', 'E', 'w', 'W'])) := by
  unfold cardinalLetters
  apply List.filter_congr
  intro c _
  rw [Bool.eq_iff_iff, Bool.or_eq_true, isNS_iff, isEW_iff, decide_eq_true_eq]
  simp only [List.mem_cons, List.not_mem_nil, or_false, or_assoc]

theorem orientationOK_iff (l : List Char) :
    OrientationOK l ↔ ∃ a b, l = a ++ b ∧ a.length ≤ 1 ∧ (∀ c ∈ a, c ∈ ['n', 'N', 's', 'S']) ∧
      b.length ≤ 1 ∧ (∀ c ∈ b, c ∈ ['e', 'E', 'w', 'W']) := by
  simp only [OrientationOK, isNS_iff_mem, isEW_iff_mem]

theorem mem_cardinalLetters {s : List Char} {c : Char} :
    c ∈ cardinalLetters s ↔ c ∈ s ∧ (isNS c = true ∨ isEW c = true) := by
  simp [cardinalLetters, List.mem_filter]

/-- In a well-arranged input any two `n`/`s` letters are the same letter, and
so are any two `e`/`w` letters. -/
theorem orientationOK_unique {s : List Char} (h : OrientationOK (cardinalLetters s))
    {x y : Char} (hx : x ∈ s) (hy : y ∈ s) :
    (isNS x = true → isNS y = true → x = y) ∧ (isEW x = true → isEW y = true → x = y) := by
  obtain ⟨a, b, hab, ha, hna, hb, hnb⟩ := h
  have one : ∀ (l : List Char), l.length ≤ 1 → x ∈ l → y ∈ l → x = y := by
    intro l hl h1 h2
    match l, hl with
    | [], _ => exact absurd h1 (List.not_mem_nil _)
    | [c], _ =>
      rw [List.mem_singleton] at h1 h2
      rw [h1, h2]
  constructor
  · intro h1 h2
    have hxm : x ∈ a ++ b := hab ▸ mem_cardinalLetters.mpr ⟨hx, Or.inl h1⟩
    have hym : y ∈ a ++ b := hab ▸ mem_cardinalLetters.mpr ⟨hy, Or.inl h2⟩
    have hxa : x ∈ a := by
      rcases List.mem_append.mp hxm with h | h
      · exact h
      · have := hnb x h
        rw [isNS_not_isEW h1] at this
        exact absurd this (by simp)
    have hya : y ∈ a := by
      rcases List.mem_append.mp hym with h | h
      · exact h
      · have := hnb y h
        rw [isNS_not_isEW h2] at this
        exact absurd this (by simp)
    exact one a ha hxa hya
  · intro h1 h2
    have hxm : x ∈ a ++ b := hab ▸ mem_cardinalLetters.mpr ⟨hx, Or.inr h1⟩
    have hym : y ∈ a ++ b := hab ▸ mem_cardinalLetters.mpr ⟨hy, Or.inr h2⟩
    have hxb : x ∈ b := by
      rcases List.mem_append.mp hxm with h | h
      · have := isNS_not_isEW (hna x h)
        rw [h1] at this
        exact absurd this (by simp)
      · exact h
    have hyb : y ∈ b := by
      rcases List.mem_append.mp hym with h | h
      · have := isNS_not_isEW (hna y h)
        rw [h2] at this
        exact absurd this (by simp)
      · exact h
    exact one b hb hxb hyb

/-- An input without letters passes the letter check and the orientation check. -/
theorem checks_of_no_letters {s : List Char} (h : ∀ c ∈ s, c.isAlpha = false) :
    CoordinateValidator.checkContainsNoLetters s = none ∧
      CoordinateValidator.checkValidOrientation s = none := by
  constructor
  · rw [checkContainsNoLetters_eq_none]
    intro c hc hal
    rw [h c hc] at hal
    exact absurd hal (by simp)
  · rw [checkValidOrientation_eq_none]
    have : cardinalLetters s = [] := by
      apply filter_cardinal_eq_nil
      intro c hc
      have hal := h c hc
      have haz : isAZ c = false := by
        cases hz : isAZ c
        · rfl
        · rw [(isAZ_iff_isAlpha c).mp hz] at hal
          exact absurd hal (by simp)
      simp only [notNSEW, Bool.not_eq_true', Bool.or_eq_false_iff]
      constructor
      · cases hn : isNS c
        · rfl
        · rw [isNS_isAZ hn] at haz; exact absurd haz (by simp)
      · cases hn : isEW c
        · rfl
        · rw [isEW_isAZ hn] at haz; exact absurd haz (by simp)
    rw [this]
    exact ⟨[], [], rfl, by simp, by simp, by simp, by simp⟩

/-! ## Validity and parseability -/

/-- When `std::stod` converts every token of the input, `parse` returns, and the flag it
returns is the flag of `isValid`. -/
theorem parse_returns {s : List Char}
    (hc : ∀ t ∈ extractCoordinateNumbers s, ∃ v, stod t = some v) :
    ∃ r, parse s = .ok r ∧ r.success = (isValid s).ok := by
  cases h : (isValid s).ok
  · exact ⟨_, parse_of_invalid h, rfl⟩
  · obtain ⟨a, b, ha, hb⟩ := decode_halves h hc
    exact ⟨_, parse_of_valid h ha hb, rfl⟩

/-- Whenever `parse` returns, the flag it returns is the flag of `isValid`. -/
theorem parse_success_eq {s : List Char} {r : ParseResult} (hp : parse s = .ok r) :
    r.success = (isValid s).ok := by
  cases h : (isValid s).ok
  · rw [parse_of_invalid h] at hp
    cases hp
    rfl
  · rcases parse_valid_cases h with ⟨e, he⟩ | ⟨a, b, hab⟩
    · rw [he] at hp
      cases hp
    · rw [hab] at hp
      cases hp
      rfl

/-- C1 at the input "2", 308 zeros, ", 1" (the latitude 2e308 written out): `isValid`
returns true, but `parse` does not return true; the `std::out_of_range` exception that
`std::stod` throws for the first token, which is beyond the range of `double`, leaves
it. -/
theorem parse_throws_on_valid_input :
    (isValid outOfRangeInput).ok = true ∧
      extractCoordinateNumbers outOfRangeInput = ['2' :: List.replicate 308 '0', ['1']] ∧
      decimalValue ('2' :: List.replicate 308 '0') = some (2 * 10 ^ 308) ∧
      stod ('2' :: List.replicate 308 '0') = none ∧
      parse outOfRangeInput = .error "std::out_of_range" ∧
      ¬ ∃ r, parse outOfRangeInput = .ok r ∧ r.success = true := by
  have hp : parse outOfRangeInput = .error "std::out_of_range" := by decide!
  refine ⟨by decide!, by decide!, by decide!, by decide!, hp, ?_⟩
  rintro ⟨r, hr, _⟩
  rw [hp] at hr
  cases hr

/-- C2: `isValid` returns true, with an empty message, exactly when (1) every ASCII
letter of the input is one of n, s, e, w, d in either case, (2) its n/s/e/w letters,
read left to right, are at most one n-or-s followed by at most one e-or-w, and (3) the
number of extracted tokens is 2, 4 or 6. -/
theorem isValid_true_iff (s : List Char) :
    isValid s = ⟨true, ""⟩ ↔
      (∀ c ∈ s, c.isAlpha = true → c ∈ ['n', 's', 'e', 'w', 'd', 'N', 'S', 'E', 'W', 'D']) ∧
      (∃ a b, s.filter (fun c => decide (c ∈ ['n', 'N', 's', 'S', 'e', 'E', 'w', 'W'])) = a ++ b ∧
        a.length ≤ 1 ∧ (∀ c ∈ a, c ∈ ['n', 'N', 's', 'S']) ∧
        b.length ≤ 1 ∧ (∀ c ∈ b, c ∈ ['e', 'E', 'w', 'W'])) ∧
      ((extractCoordinateNumbers s).length = 2 ∨ (extractCoordinateNumbers s).length = 4 ∨
        (extractCoordinateNumbers s).length = 6) := by
  rw [← cardinalLetters_eq, ← orientationOK_iff, ← checkContainsNoLetters_eq_none,
    ← checkValidOrientation_eq_none, ← checkNumbers_eq_none, ← isValid_ok_iff]
  constructor
  · intro h; rw [h]
  · exact isValid_eq_of_ok

/-- C9: `isValid` fails with "Coordinate contains invalid alphanumeric characters."
exactly when the input contains an ASCII letter other than n, s, e, w, d in either
case, whatever its cardinal letters and its tokens are; so for "-40.1X, 74" and
"5 Fantasy street 12". -/
theorem isValid_invalid_letter_iff :
    (∀ s : List Char,
      isValid s = ⟨false, "Coordinate contains invalid alphanumeric characters."⟩ ↔
        ∃ c ∈ s, c.isAlpha = true ∧ c ∉ ['n', 's', 'e', 'w', 'd', 'N', 'S', 'E', 'W', 'D']) ∧
    isValid "-40.1X, 74".toList =
      ⟨false, "Coordinate contains invalid alphanumeric characters."⟩ ∧
    isValid "5 Fantasy street 12".toList =
      ⟨false, "Coordinate contains invalid alphanumeric characters."⟩ := by
  refine ⟨?_, by decide, by decide⟩
  intro s
  have hnone := checkContainsNoLetters_eq_none s
  constructor
  · intro h
    by_contra hcon
    have h1 : CoordinateValidator.checkContainsNoLetters s = none := by
      rw [hnone]
      intro c hc hal
      by_contra hn
      exact hcon ⟨c, hc, hal, hn⟩
    cases h2 : CoordinateValidator.checkValidOrientation s with
    | some m =>
      have hm := checkValidOrientation_eq_some s m h2
      simp only [isValid, CoordinateValidator.isValid, h1, h2, hm] at h
      exact absurd h (by decide)
    | none =>
      rw [isValid_of_checks h1 h2, checkNumbers_eq] at h
      split_ifs at h <;> exact absurd h (by decide)
  · rintro ⟨c, hc, hal, hn⟩
    cases h1 : CoordinateValidator.checkContainsNoLetters s with
    | none => exact absurd ((hnone.mp h1) c hc hal) hn
    | some m =>
      have hm := checkContainsNoLetters_eq_some s m h1
      simp only [isValid, CoordinateValidator.isValid, h1, hm]

/-! ## Badly arranged cardinal letters -/

theorem countP_isNS_cardinalLetters (s : List Char) :
    (cardinalLetters s).countP isNS = s.countP isNS := by
  unfold cardinalLetters
  rw [List.countP_filter]
  apply List.countP_congr
  intro c _
  cases isNS c <;> simp

theorem countP_isEW_cardinalLetters (s : List Char) :
    (cardinalLetters s).countP isEW = s.countP isEW := by
  unfold cardinalLetters
  rw [List.countP_filter]
  apply List.countP_congr
  intro c _
  cases isEW c <;> simp

theorem isEW_not_isNS {c : Char} (h : isEW c = true) : isNS c = false := by
  cases hn : isNS c
  · rfl
  · rw [isNS_not_isEW hn] at h; exact absurd h (by simp)

/-- The well-arranged sequences of cardinal letters, by cases. -/
theorem orientationOK_cases {l : List Char} (h : OrientationOK l) :
    l = [] ∨ (∃ x, l = [x]) ∨ ∃ x y, l = [x, y] ∧ isNS x = true ∧ isEW y = true := by
  obtain ⟨a, b, rfl, ha, hna, hb, hnb⟩ := h
  match a, ha, hna, b, hb, hnb with
  | [], _, _, [], _, _ => exact Or.inl rfl
  | [], _, _, [y], _, _ => exact Or.inr (Or.inl ⟨y, rfl⟩)
  | [x], _, _, [], _, _ => exact Or.inr (Or.inl ⟨x, rfl⟩)
  | [x], _, h1, [y], _, h2 =>
    exact Or.inr (Or.inr ⟨x, y, rfl, h1 x (List.mem_singleton_self x),
      h2 y (List.mem_singleton_self y)⟩)

/-- The cardinal letters are badly arranged exactly when there are two `n`/`s`
letters, or two `e`/`w` letters, or an `e`/`w` letter before an `n`/`s` letter. -/
theorem not_orientationOK_iff (s : List Char) :
    ¬ OrientationOK (cardinalLetters s) ↔
      2 ≤ s.countP isNS ∨ 2 ≤ s.countP isEW ∨
        ∃ pre c post, s = pre ++ c :: post ∧ isEW c = true ∧ ∃ d ∈ post, isNS d = true := by
  constructor
  · intro hbad
    have hmem : ∀ c ∈ cardinalLetters s, isNS c = true ∨ isEW c = true :=
      fun c hc => (mem_cardinalLetters.mp hc).2
    rw [← countP_isNS_cardinalLetters, ← countP_isEW_cardinalLetters]
    match hl : cardinalLetters s with
    | [] => exact absurd ⟨[], [], by simp [hl], by simp, by simp, by simp, by simp⟩ hbad
    | [x] =>
      exfalso
      apply hbad
      rw [hl]
      rcases hmem x (by simp [hl]) with hx | hx
      · exact ⟨[x], [], rfl, by simp, by simpa using hx, by simp, by simp⟩
      · exact ⟨[], [x], rfl, by simp, by simp, by simp, by simpa using hx⟩
    | x :: y :: rest =>
      have hx := hmem x (by simp [hl])
      have hy := hmem y (by simp [hl])
      rcases hx with hx | hx <;> rcases hy with hy | hy
      · left; simp [List.countP_cons, hx, hy]
      · match hr : rest with
        | [] =>
          exfalso
          apply hbad
          rw [hl]
          exact ⟨[x], [y], rfl, by simp, by simpa using hx, by simp, by simpa using hy⟩
        | z :: rest' =>
          rcases hmem z (by simp [hl, hr]) with hz | hz
          · left; simp [List.countP_cons, hx, hz]; omega
          · right; left; simp [List.countP_cons, hy, hz]; omega
      · right; right
        unfold cardinalLetters at hl
        obtain ⟨l1, l2, hs, _, _, hl2⟩ := List.filter_eq_cons_iff.mp hl
        refine ⟨l1, x, l2, hs, hx, y, ?_, hy⟩
        have : y ∈ List.filter (fun c => isNS c || isEW c) l2 := by rw [hl2]; simp
        exact (List.mem_filter.mp this).1
      · right; left; simp [List.countP_cons, hx, hy]
  · intro hq hok
    have hns := countP_isNS_cardinalLetters s
    have hew := countP_isEW_cardinalLetters s
    rcases orientationOK_cases hok with hl | ⟨x, hl⟩ | ⟨x, y, hl, hx, hy⟩
    · rw [hl] at hns hew
      simp only [List.countP_nil] at hns hew
      rcases hq with h | h | ⟨pre, c, post, rfl, hc, _⟩
      · omega
      · omega
      · have : c ∈ cardinalLetters (pre ++ c :: post) :=
          mem_cardinalLetters.mpr ⟨by simp, Or.inr hc⟩
        rw [hl] at this
        exact absurd this (List.not_mem_nil _)
    · rw [hl] at hns hew
      have h1 := List.countP_le_length isNS (l := [x])
      have h2 := List.countP_le_length isEW (l := [x])
      simp only [List.length_singleton] at h1 h2
      rcases hq with h | h | ⟨pre, c, post, rfl, hc, d, hd, hdn⟩
      · omega
      · omega
      · rw [cardinalLetters_append, cardinalLetters_cons_of_pos post (by simp [hc])] at hl
        have hdm : d ∈ cardinalLetters post := mem_cardinalLetters.mpr ⟨hd, Or.inl hdn⟩
        have := congrArg List.length hl
        have hpos : 0 < (cardinalLetters post).length := List.length_pos_of_mem hdm
        simp at this
        omega
    · rw [hl] at hns hew
      have hx' := isNS_not_isEW hx
      have hy' := isEW_not_isNS hy
      simp [List.countP_cons, hx, hy, hx', hy'] at hns hew
      rcases hq with h | h | ⟨pre, c, post, rfl, hc, d, hd, hdn⟩
      · omega
      · omega
      · rw [cardinalLetters_append, cardinalLetters_cons_of_pos post (by simp [hc])] at hl
        have hdm : d ∈ cardinalLetters post := mem_cardinalLetters.mpr ⟨hd, Or.inl hdn⟩
        have hpos : 0 < (cardinalLetters post).length := List.length_pos_of_mem hdm
        have hlen := congrArg List.length hl
        simp at hlen
        have hpre : cardinalLetters pre = [] := List.length_eq_zero.mp (by omega)
        rw [hpre] at hl
        simp only [List.nil_append, List.cons.injEq] at hl
        rw [hl.1, hx'] at hc
        exact absurd hc (by simp)

/-- C10: for an input whose letters are all among n, s, e, w, d (either case),
`isValid` fails with "Invalid cardinal direction." exactly when the input has two or
more n/s letters, or two or more e/w letters, or an e/w letter before an n/s letter. -/
theorem isValid_invalid_cardinal_iff (s : List Char)
    (hl : ∀ c ∈ s, c.isAlpha = true → c ∈ ['n', 's', 'e', 'w', 'd', 'N', 'S', 'E', 'W', 'D']) :
    isValid s = ⟨false, "Invalid cardinal direction."⟩ ↔
      2 ≤ s.countP (fun c => decide (c ∈ ['n', 'N', 's', 'S'])) ∨
      2 ≤ s.countP (fun c => decide (c ∈ ['e', 'E', 'w', 'W'])) ∨
      ∃ pre c post, s = pre ++ c :: post ∧ c ∈ ['e', 'E', 'w', 'W'] ∧
        ∃ d ∈ post, d ∈ ['n', 'N', 's', 'S'] := by
  have hns : (fun c => decide (c ∈ ['n', 'N', 's', 'S'])) = isNS :=
    funext fun c => (isNS_eq_decide c).symm
  have hew : (fun c => decide (c ∈ ['e', 'E', 'w', 'W'])) = isEW :=
    funext fun c => (isEW_eq_decide c).symm
  rw [hns, hew]
  simp only [← isNS_iff_mem, ← isEW_iff_mem]
  rw [← not_orientationOK_iff, ← checkValidOrientation_eq_none]
  have h1 := (checkContainsNoLetters_eq_none s).mpr hl
  cases h2 : CoordinateValidator.checkValidOrientation s with
  | some m =>
    have hm := checkValidOrientation_eq_some s m h2
    simp only [isValid, CoordinateValidator.isValid, h1, h2, hm, reduceCtorEq,
      not_false_eq_true]
  | none =>
    rw [isValid_of_checks h1 h2, checkNumbers_eq]
    simp only [not_true_eq_false, iff_false]
    split_ifs <;> decide

/-- C10, on the rejected inputs of the test suite: duplicated and conflicting letters. -/
theorem isValid_invalid_cardinal_witness :
    (∀ c ∈ "40.1° N 60.1° N".toList,
        c.isAlpha = true → c ∈ ['n', 's', 'e', 'w', 'd', 'N', 'S', 'E', 'W', 'D']) ∧
      2 ≤ "40.1° N 60.1° N".toList.countP (fun c => decide (c ∈ ['n', 'N', 's', 'S'])) ∧
      isValid "40.1° N 60.1° N".toList = ⟨false, "Invalid cardinal direction."⟩ ∧
      isValid "40.1° W 60.1° W".toList = ⟨false, "Invalid cardinal direction."⟩ ∧
      isValid "40.1° E 60.1° S".toList = ⟨false, "Invalid cardinal direction."⟩ ∧
      isValid "40.1° SS 60.1° EE".toList = ⟨false, "Invalid cardinal direction."⟩ :=
  ⟨by decide, by decide,
    (isValid_invalid_cardinal_iff "40.1° N 60.1° N".toList (by decide)).mpr (Or.inl (by decide)),
    (isValid_invalid_cardinal_iff "40.1° W 60.1° W".toList (by decide)).mpr
      (Or.inr (Or.inl (by decide))),
    (isValid_invalid_cardinal_iff "40.1° E 60.1° S".toList (by decide)).mpr
      (Or.inr (Or.inr ⟨"40.1° ".toList, 'E', " 60.1° S".toList, by decide, by decide,
        'S', by decide, by decide⟩)),
    (isValid_invalid_cardinal_iff "40.1° SS 60.1° EE".toList (by decide)).mpr
      (Or.inl (by decide))⟩

/-! ## The signs applied by `parse` -/

theorem latitudeIsNegative_iff (s : List Char) :
    latitudeIsNegative s = true ↔ ('s' ∈ s ∨ 'S' ∈ s) := by
  simp [latitudeIsNegative]

theorem longitudeIsNegative_iff (s : List Char) :
    longitudeIsNegative s = true ↔ ('w' ∈ s ∨ 'W' ∈ s) := by
  simp [longitudeIsNegative]

/-- On a valid input with `2 * k` tokens whose two halves decode, `k` is 1, 2 or 3 and
`parse` returns the value decoded from the first `k` tokens, times -1 when the input
contains `s` or `S` and untouched otherwise, and the value decoded from the last `k`
tokens, times -1 when the input contains `w` or `W` and untouched otherwise. -/
theorem parse_signed_decode {s : List Char} {k : Nat} (hv : (isValid s).ok = true)
    (hk : (extractCoordinateNumbers s).length = 2 * k) {a b : ℚ}
    (ha : coordinateNumbersToDecimal ((extractCoordinateNumbers s).take k) = .ok a)
    (hb : coordinateNumbersToDecimal ((extractCoordinateNumbers s).drop k) = .ok b) :
    (k = 1 ∨ k = 2 ∨ k = 3) ∧
      parse s = .ok ⟨true, (if 's' ∈ s ∨ 'S' ∈ s then -1 else 1) * a,
        (if 'w' ∈ s ∨ 'W' ∈ s then -1 else 1) * b, ""⟩ := by
  have hk2 : (extractCoordinateNumbers s).length / 2 = k := by omega
  obtain ⟨_, _, h3⟩ := (isValid_ok_iff s).mp hv
  have hlen := (checkNumbers_eq_none s).mp h3
  refine ⟨by omega, ?_⟩
  have hp := parse_of_valid hv (by rw [hk2]; exact ha) (by rw [hk2]; exact hb)
  rw [hp, doubleMul_neg_one (roundDouble_of_decode ha),
    doubleMul_neg_one (roundDouble_of_decode hb)]
  have e1 : (if latitudeIsNegative s = true then -a else a) =
      (if 's' ∈ s ∨ 'S' ∈ s then -1 else 1) * a := by
    by_cases h1 : 's' ∈ s ∨ 'S' ∈ s
    · rw [if_pos ((latitudeIsNegative_iff s).mpr h1), if_pos h1]
      ring
    · rw [if_neg (fun h => h1 ((latitudeIsNegative_iff s).mp h)), if_neg h1]
      ring
  have e2 : (if longitudeIsNegative s = true then -b else b) =
      (if 'w' ∈ s ∨ 'W' ∈ s then -1 else 1) * b := by
    by_cases h1 : 'w' ∈ s ∨ 'W' ∈ s
    · rw [if_pos ((longitudeIsNegative_iff s).mpr h1), if_pos h1]
      ring
    · rw [if_neg (fun h => h1 ((longitudeIsNegative_iff s).mp h)), if_neg h1]
      ring
  rw [e1, e2]

/-- C3 at the input "40.1 W " followed by "2" and 308 zeros (the longitude 2e308 written
out): the input passes `isValid` with `2 * 1` tokens and the first token decodes to
40.1, but `parse` returns no pair; the `std::out_of_range` exception that `std::stod`
throws for the second token, which is beyond the range of `double`, leaves the decoding
of the longitude and `parse`. -/
theorem parse_returns_no_pair :
    (isValid outOfRangeLongitudeInput).ok = true ∧
      extractCoordinateNumbers outOfRangeLongitudeInput =
        ["40.1".toList, '2' :: List.replicate 308 '0'] ∧
      (extractCoordinateNumbers outOfRangeLongitudeInput).length = 2 * 1 ∧
      coordinateNumbersToDecimal ((extractCoordinateNumbers outOfRangeLongitudeInput).take 1) =
        .ok (roundDouble (401 / 10)) ∧
      coordinateNumbersToDecimal ((extractCoordinateNumbers outOfRangeLongitudeInput).drop 1) =
        .error "std::out_of_range" ∧
      parse outOfRangeLongitudeInput = .error "std::out_of_range" :=
  ⟨by decide!, by decide!, by decide!, by decide!, by decide!, by decide!⟩

/-! ## Hemisphere letters and a leading minus sign -/

theorem getD_take_zero {α : Type} (l : List α) (k : Nat) (d : α) (hk : 0 < k) :
    (l.take k).getD 0 d = l.getD 0 d := by
  cases l with
  | nil => simp
  | cons x t =>
    cases k with
    | zero => omega
    | succ k => simp

theorem getD_drop_zero {α : Type} (l : List α) (k : Nat) (d : α) :
    (l.drop k).getD 0 d = l.getD k d := by
  simp [List.getD_eq_getElem?_getD, List.getElem?_drop]

theorem not_latitudeIsNegative_of_north {s : List Char} (hv : (isValid s).ok = true)
    (hn : 'N' ∈ s ∨ 'n' ∈ s) : latitudeIsNegative s = false := by
  obtain ⟨_, h2, _⟩ := (isValid_ok_iff s).mp hv
  have hok := (checkValidOrientation_eq_none s).mp h2
  cases h : latitudeIsNegative s
  · rfl
  · exfalso
    rcases (latitudeIsNegative_iff s).mp h with hs | hs <;> rcases hn with hn | hn
    · exact absurd ((orientationOK_unique hok hs hn).1 (by decide) (by decide)) (by decide)
    · exact absurd ((orientationOK_unique hok hs hn).1 (by decide) (by decide)) (by decide)
    · exact absurd ((orientationOK_unique hok hs hn).1 (by decide) (by decide)) (by decide)
    · exact absurd ((orientationOK_unique hok hs hn).1 (by decide) (by decide)) (by decide)

theorem not_longitudeIsNegative_of_east {s : List Char} (hv : (isValid s).ok = true)
    (hn : 'E' ∈ s ∨ 'e' ∈ s) : longitudeIsNegative s = false := by
  obtain ⟨_, h2, _⟩ := (isValid_ok_iff s).mp hv
  have hok := (checkValidOrientation_eq_none s).mp h2
  cases h : longitudeIsNegative s
  · rfl
  · exfalso
    rcases (longitudeIsNegative_iff s).mp h with hs | hs <;> rcases hn with hn | hn
    · exact absurd ((orientationOK_unique hok hs hn).2 (by decide) (by decide)) (by decide)
    · exact absurd ((orientationOK_unique hok hs hn).2 (by decide) (by decide)) (by decide)
    · exact absurd ((orientationOK_unique hok hs hn).2 (by decide) (by decide)) (by decide)
    · exact absurd ((orientationOK_unique hok hs hn).2 (by decide) (by decide)) (by decide)

/-- The first token of a list that decodes is one that `std::stod` converts. -/
theorem stod_first_of_decode {toks : List (List Char)} {a : ℚ}
    (h : coordinateNumbersToDecimal toks = .ok a) : ∃ d, stod (toks.getD 0 []) = some d := by
  unfold coordinateNumbersToDecimal CoordinateNumber.new at h
  by_cases hl : toks.length < 1
  · rw [if_pos hl] at h
    exact absurd h (by simp [Except.map])
  · rw [if_neg hl] at h
    cases hs : stod (toks.getD 0 []) with
    | some d => exact ⟨d, rfl⟩
    | none =>
      simp only [stodAt, hs] at h
      exact absurd h (by simp [Except.map, bind, Except.bind])

/-- C4 at "-40.1 S 74.1": `parse` succeeds on an input that contains `S`, and the
latitude it returns is +40.1 (the double nearest to 40.1), which is not `<= 0`: the
value -40.1 decoded from the latitude token is multiplied by -1. -/
theorem south_with_minus_is_positive :
    (isValid "-40.1 S 74.1".toList).ok = true ∧
      ('s' ∈ "-40.1 S 74.1".toList ∨ 'S' ∈ "-40.1 S 74.1".toList) ∧
      coordinateNumbersToDecimal ["-40.1".toList] = .ok (-roundDouble (401 / 10)) ∧
      parse "-40.1 S 74.1".toList =
        .ok ⟨true, roundDouble (401 / 10), roundDouble (741 / 10), ""⟩ ∧
      ¬ (roundDouble (401 / 10) ≤ 0) :=
  ⟨by decide!, by decide, by decide!, by decide!, by decide!⟩

/-- C5, refuted as stated: "-40.1 N 74.1 E" is valid, its first latitude token starts
with `-`, it contains `N`, and the returned latitude is -40.1 (the double nearest to
it), which is not non-negative. -/
theorem letter_wins_counterexample :
    (isValid "-40.1 N 74.1 E".toList).ok = true ∧
      ((extractCoordinateNumbers "-40.1 N 74.1 E".toList).getD 0 []).head? = some '-' ∧
      ('N' ∈ "-40.1 N 74.1 E".toList ∨ 'n' ∈ "-40.1 N 74.1 E".toList) ∧
      parse "-40.1 N 74.1 E".toList =
        .ok ⟨true, -roundDouble (401 / 10), roundDouble (741 / 10), ""⟩ ∧
      ¬ (0 ≤ -roundDouble (401 / 10)) :=
  ⟨by decide!, by decide!, by decide, by decide!, by decide!⟩

/-- C5 (amended): the letter has no effect and the sign of the `-` prefixed token
stands.  On a valid input with `2 * k` tokens whose two halves decode, whose first
latitude token starts with `-` and which contains `N` or `n`, the double `std::stod`
reads from that token is non-positive, `parse` succeeds and returns the value decoded
from the latitude tokens unchanged, and that value is not positive when the double is
below `-2 ^ (-150)`.  The same holds for the first longitude token and `E` or `e`. -/
theorem minus_prefix_wins (s : List Char) (k : Nat) (hv : (isValid s).ok = true)
    (hk : (extractCoordinateNumbers s).length = 2 * k) (a b : ℚ)
    (ha : coordinateNumbersToDecimal ((extractCoordinateNumbers s).take k) = .ok a)
    (hb : coordinateNumbersToDecimal ((extractCoordinateNumbers s).drop k) = .ok b) :
    (((extractCoordinateNumbers s).getD 0 []).head? = some '-' → ('N' ∈ s ∨ 'n' ∈ s) →
      ∃ d r, stod ((extractCoordinateNumbers s).getD 0 []) = some d ∧ d ≤ 0 ∧
        parse s = .ok r ∧ r.success = true ∧ r.latitude = a ∧
        (d < -(2 : ℚ) ^ (-150 : ℤ) → r.latitude ≤ 0)) ∧
    (((extractCoordinateNumbers s).getD k []).head? = some '-' → ('E' ∈ s ∨ 'e' ∈ s) →
      ∃ e r, stod ((extractCoordinateNumbers s).getD k []) = some e ∧ e ≤ 0 ∧
        parse s = .ok r ∧ r.success = true ∧ r.longitude = b ∧
        (e < -(2 : ℚ) ^ (-150 : ℤ) → r.longitude ≤ 0)) := by
  obtain ⟨_, _, h3⟩ := (isValid_ok_iff s).mp hv
  have hlen := (checkNumbers_eq_none s).mp h3
  have hk2 : (extractCoordinateNumbers s).length / 2 = k := by omega
  have hp := parse_of_valid hv (by rw [hk2]; exact ha) (by rw [hk2]; exact hb)
  have htok : ∀ t ∈ extractCoordinateNumbers s, TokenHead t :=
    extractCoordinateNumbers_tokenHead s
  constructor
  · intro hminus hN
    obtain ⟨d, hd, _, hneg⟩ := decode_sign ha
    rw [getD_take_zero _ _ _ (by omega)] at hd
    have hmem : (extractCoordinateNumbers s).getD 0 [] ∈ extractCoordinateNumbers s := by
      rw [List.getD_eq_getElem _ _ (by omega)]
      exact List.getElem_mem _
    refine ⟨d, _, hd, (stod_token_sign (htok _ hmem) hd).2 hminus, hp, rfl, ?_, ?_⟩
    · simp only [not_latitudeIsNegative_of_north hv hN, Bool.false_eq_true, if_false]
    · intro h0
      simp only [not_latitudeIsNegative_of_north hv hN, Bool.false_eq_true, if_false]
      exact hneg h0
  · intro hminus hE
    obtain ⟨e, he, _, hneg⟩ := decode_sign hb
    rw [getD_drop_zero] at he
    have hmem : (extractCoordinateNumbers s).getD k [] ∈ extractCoordinateNumbers s := by
      rw [List.getD_eq_getElem _ _ (by omega)]
      exact List.getElem_mem _
    refine ⟨e, _, he, (stod_token_sign (htok _ hmem) he).2 hminus, hp, rfl, ?_, ?_⟩
    · simp only [not_longitudeIsNegative_of_east hv hE, Bool.false_eq_true, if_false]
    · intro h0
      simp only [not_longitudeIsNegative_of_east hv hE, Bool.false_eq_true, if_false]
      exact hneg h0

/-- C5 (amended) at "-40.1 N 74.1 E": the latitude returned is the decoded -40.1. -/
theorem minus_prefix_wins_witness :
    (isValid "-40.1 N 74.1 E".toList).ok = true ∧
      (extractCoordinateNumbers "-40.1 N 74.1 E".toList).length = 2 * 1 ∧
      coordinateNumbersToDecimal ((extractCoordinateNumbers "-40.1 N 74.1 E".toList).take 1)
        = .ok (-roundDouble (401 / 10)) ∧
      coordinateNumbersToDecimal ((extractCoordinateNumbers "-40.1 N 74.1 E".toList).drop 1)
        = .ok (roundDouble (741 / 10)) ∧
      ((extractCoordinateNumbers "-40.1 N 74.1 E".toList).getD 0 []).head? = some '-' ∧
      ('N' ∈ "-40.1 N 74.1 E".toList ∨ 'n' ∈ "-40.1 N 74.1 E".toList) ∧
      ∃ d r, stod ((extractCoordinateNumbers "-40.1 N 74.1 E".toList).getD 0 []) = some d ∧
        d ≤ 0 ∧ parse "-40.1 N 74.1 E".toList = .ok r ∧ r.success = true ∧
        r.latitude = -roundDouble (401 / 10) ∧
        (d < -(2 : ℚ) ^ (-150 : ℤ) → r.latitude ≤ 0) :=
  ⟨by decide!, by decide!, by decide!, by decide!, by decide!, by decide,
    (minus_prefix_wins "-40.1 N 74.1 E".toList 1 (by decide!) (by decide!)
      (-roundDouble (401 / 10)) (roundDouble (741 / 10)) (by decide!) (by decide!)).1
      (by decide!) (by decide)⟩

/-! ## The messages about the number of tokens -/

theorem isDigit_eq (c : Char) : isDigit c = c.isDigit := by
  have h1 : (c.val ≥ 48) ↔ 48 ≤ c.toNat := Iff.rfl
  have h2 : (c.val ≤ 57) ↔ c.toNat ≤ 57 := Iff.rfl
  rw [Bool.eq_iff_iff]
  simp only [isDigit, Char.isDigit, Bool.and_eq_true, decide_eq_true_eq, h1, h2]

/-- The outcome of `isValid` and `parse` on an input that passes the first two checks
and fails the check of the numbers with message `m`. -/
theorem fails_of_checkNumbers {s : List Char} {m : String}
    (h1 : CoordinateValidator.checkContainsNoLetters s = none)
    (h2 : CoordinateValidator.checkValidOrientation s = none)
    (h3 : CoordinateValidator.checkNumbers s = some m) :
    isValid s = ⟨false, m⟩ ∧ parse s = .ok ⟨false, 0, 0, m⟩ := by
  have hv : isValid s = ⟨false, m⟩ := by rw [isValid_of_checks h1 h2, h3]
  refine ⟨hv, ?_⟩
  have := parse_of_invalid (s := s) (by rw [hv])
  rw [this, hv]

/-- C6, refuted as stated: "1 2 3 4 5 6 7" has no letter and 7 tokens, and the message
is the uneven-count message, not the too-many message. -/
theorem too_many_counterexample :
    (∀ c ∈ "1 2 3 4 5 6 7".toList, c.isAlpha = false) ∧
      (extractCoordinateNumbers "1 2 3 4 5 6 7".toList).length = 7 ∧
      isValid "1 2 3 4 5 6 7".toList = ⟨false, "Uneven count of latitude/longitude numbers"⟩ ∧
      (isValid "1 2 3 4 5 6 7".toList).message ≠ "Too many coordinate numbers" := by
  refine ⟨by decide, by decide, by decide, by decide⟩

/-- C6 (amended): on an input without letters from which more than 6 tokens are
extracted, `isValid` and `parse` fail; the message is "Too many coordinate numbers" when
the number of tokens is even and "Uneven count of latitude/longitude numbers" when it
is odd. -/
theorem more_than_six_fails (s : List Char) (hl : ∀ c ∈ s, c.isAlpha = false)
    (hn : 6 < (extractCoordinateNumbers s).length) :
    isValid s = ⟨false, if (extractCoordinateNumbers s).length % 2 = 0
        then "Too many coordinate numbers"
        else "Uneven count of latitude/longitude numbers"⟩ ∧
      parse s = .ok ⟨false, 0, 0, if (extractCoordinateNumbers s).length % 2 = 0
        then "Too many coordinate numbers"
        else "Uneven count of latitude/longitude numbers"⟩ := by
  obtain ⟨h1, h2⟩ := checks_of_no_letters hl
  apply fails_of_checkNumbers h1 h2
  rw [checkNumbers_eq]
  split_ifs <;> first | rfl | omega

/-- C6 (amended) at "1 2 3 4 5 6 7 8": eight tokens, the too-many message. -/
theorem more_than_six_fails_witness :
    (∀ c ∈ "1 2 3 4 5 6 7 8".toList, c.isAlpha = false) ∧
      6 < (extractCoordinateNumbers "1 2 3 4 5 6 7 8".toList).length ∧
      (extractCoordinateNumbers "1 2 3 4 5 6 7 8".toList).length % 2 = 0 ∧
      (isValid "1 2 3 4 5 6 7 8".toList =
          ⟨false, if (extractCoordinateNumbers "1 2 3 4 5 6 7 8".toList).length % 2 = 0
            then "Too many coordinate numbers"
            else "Uneven count of latitude/longitude numbers"⟩ ∧
        parse "1 2 3 4 5 6 7 8".toList =
          .ok ⟨false, 0, 0, if (extractCoordinateNumbers "1 2 3 4 5 6 7 8".toList).length % 2 = 0
            then "Too many coordinate numbers"
            else "Uneven count of latitude/longitude numbers"⟩) :=
  ⟨by decide, by decide, by decide,
    more_than_six_fails "1 2 3 4 5 6 7 8".toList (by decide) (by decide)⟩

/-- C7: on an input without letters from which an odd number of tokens is extracted,
`isValid` and `parse` fail with "Uneven count of latitude/longitude numbers". -/
theorem odd_count_fails (s : List Char) (hl : ∀ c ∈ s, c.isAlpha = false)
    (hodd : (extractCoordinateNumbers s).length % 2 = 1) :
    isValid s = ⟨false, "Uneven count of latitude/longitude numbers"⟩ ∧
      parse s = .ok ⟨false, 0, 0, "Uneven count of latitude/longitude numbers"⟩ := by
  obtain ⟨h1, h2⟩ := checks_of_no_letters hl
  apply fails_of_checkNumbers h1 h2
  rw [checkNumbers_eq]
  split_ifs <;> first | rfl | omega

/-- C7 on the inputs of the test suite with 3, 1, 5 and 3 tokens. -/
theorem odd_count_fails_witness :
    ((∀ c ∈ "1 2 3 ".toList, c.isAlpha = false) ∧
      (extractCoordinateNumbers "1 2 3 ".toList).length % 2 = 1) ∧
    (isValid "1 2 3 ".toList = ⟨false, "Uneven count of latitude/longitude numbers"⟩ ∧
      parse "1 2 3 ".toList = .ok ⟨false, 0, 0, "Uneven count of latitude/longitude numbers"⟩) ∧
    (isValid "1".toList = ⟨false, "Uneven count of latitude/longitude numbers"⟩ ∧
      parse "1".toList = .ok ⟨false, 0, 0, "Uneven count of latitude/longitude numbers"⟩) ∧
    (isValid "1 2 3 4 5".toList = ⟨false, "Uneven count of latitude/longitude numbers"⟩ ∧
      parse "1 2 3 4 5".toList =
        .ok ⟨false, 0, 0, "Uneven count of latitude/longitude numbers"⟩) ∧
    (isValid "-40.4183318, 12.345, 74.6411133".toList =
        ⟨false, "Uneven count of latitude/longitude numbers"⟩ ∧
      parse "-40.4183318, 12.345, 74.6411133".toList =
        .ok ⟨false, 0, 0, "Uneven count of latitude/longitude numbers"⟩) :=
  ⟨⟨by decide, by decide⟩,
    odd_count_fails "1 2 3 ".toList (by decide) (by decide),
    odd_count_fails "1".toList (by decide) (by decide),
    odd_count_fails "1 2 3 4 5".toList (by decide) (by decide),
    odd_count_fails "-40.4183318, 12.345, 74.6411133".toList (by decide) (by decide)⟩

/-- C8, refuted as stated: "blablabla" has no digit and yields no token, and the
message is the one of the letter check, not the no-number message. -/
theorem no_number_counterexample :
    (∀ c ∈ "blablabla".toList, c.isDigit = false) ∧
      extractCoordinateNumbers "blablabla".toList = [] ∧
      isValid "blablabla".toList =
        ⟨false, "Coordinate contains invalid alphanumeric characters."⟩ ∧
      parse "blablabla".toList =
        .ok ⟨false, 0, 0, "Coordinate contains invalid alphanumeric characters."⟩ ∧
      (isValid "blablabla".toList).message ≠ "Could not find any coordinate number" := by
  refine ⟨by decide, by decide, by decide, by decide, by decide⟩

/-- C8 (amended): on an input without any digit no token is extracted, and when the
input passes the letter check and the check of the cardinal letters, `isValid` and
`parse` fail with "Could not find any coordinate number". -/
theorem no_number_fails (s : List Char) (hd : ∀ c ∈ s, c.isDigit = false)
    (hl : ∀ c ∈ s, c.isAlpha = true → c ∈ ['n', 's', 'e', 'w', 'd', 'N', 'S', 'E', 'W', 'D'])
    (ho : ∃ a b, s.filter (fun c => decide (c ∈ ['n', 'N', 's', 'S', 'e', 'E', 'w', 'W'])) = a ++ b ∧
        a.length ≤ 1 ∧ (∀ c ∈ a, c ∈ ['n', 'N', 's', 'S']) ∧
        b.length ≤ 1 ∧ (∀ c ∈ b, c ∈ ['e', 'E', 'w', 'W'])) :
    extractCoordinateNumbers s = [] ∧
      isValid s = ⟨false, "Could not find any coordinate number"⟩ ∧
      parse s = .ok ⟨false, 0, 0, "Could not find any coordinate number"⟩ := by
  have hnil : extractCoordinateNumbers s = [] := by
    rw [extractCoordinateNumbers_eq_nil]
    intro c hc
    rw [isDigit_eq]
    exact hd c hc
  refine ⟨hnil, ?_⟩
  have h1 := (checkContainsNoLetters_eq_none s).mpr hl
  have h2 : CoordinateValidator.checkValidOrientation s = none := by
    rw [checkValidOrientation_eq_none, orientationOK_iff, cardinalLetters_eq]
    exact ho
  apply fails_of_checkNumbers h1 h2
  rw [checkNumbers_eq, hnil]
  rfl

/-- C8 (amended) at "N, E" and at the empty string. -/
theorem no_number_fails_witness :
    (∀ c ∈ "N, E".toList, c.isDigit = false) ∧
    (extractCoordinateNumbers "N, E".toList = [] ∧
      isValid "N, E".toList = ⟨false, "Could not find any coordinate number"⟩ ∧
      parse "N, E".toList = .ok ⟨false, 0, 0, "Could not find any coordinate number"⟩) ∧
    (extractCoordinateNumbers [] = [] ∧
      isValid [] = ⟨false, "Could not find any coordinate number"⟩ ∧
      parse [] = .ok ⟨false, 0, 0, "Could not find any coordinate number"⟩) :=
  ⟨by decide,
    no_number_fails "N, E".toList (by decide) (by decide)
      ⟨['N'], ['E'], by decide, by decide, by decide, by decide, by decide⟩,
    no_number_fails [] (by decide) (by decide)
      ⟨[], [], by decide, by decide, by decide, by decide, by decide⟩⟩

/-! ## Failure of `parse` -/

/-- C11: no partial success.  Whenever `parse` returns false, the latitude and the
longitude it leaves are exactly 0 and its message is the message `isValid` reports for
the same input. -/
theorem parse_failure (s : List Char) (r : ParseResult) (hp : parse s = .ok r)
    (hf : r.success = false) :
    r.latitude = 0 ∧ r.longitude = 0 ∧ r.message = (isValid s).message := by
  cases hv : (isValid s).ok
  · rw [parse_of_invalid hv] at hp
    cases hp
    exact ⟨rfl, rfl, rfl⟩
  · rcases parse_valid_cases hv with ⟨e, he⟩ | ⟨a, b, hab⟩
    · rw [he] at hp
      cases hp
    · rw [hab] at hp
      cases hp
      exact absurd hf (by simp)

/-- C11 at "1 2 3 " and at "40.1° E 60.1° S": zeros and the message of `isValid`. -/
theorem parse_failure_witness :
    parse "1 2 3 ".toList = .ok ⟨false, 0, 0, "Uneven count of latitude/longitude numbers"⟩ ∧
      (isValid "1 2 3 ".toList).message = "Uneven count of latitude/longitude numbers" ∧
      ((0 : ℚ) = 0 ∧ (0 : ℚ) = 0 ∧
        "Uneven count of latitude/longitude numbers" = (isValid "1 2 3 ".toList).message) ∧
      ((0 : ℚ) = 0 ∧ (0 : ℚ) = 0 ∧
        "Invalid cardinal direction." = (isValid "40.1° E 60.1° S".toList).message) :=
  ⟨by decide, by decide,
    parse_failure "1 2 3 ".toList ⟨false, 0, 0, "Uneven count of latitude/longitude numbers"⟩
      (by decide) rfl,
    parse_failure "40.1° E 60.1° S".toList ⟨false, 0, 0, "Invalid cardinal direction."⟩
      (by decide) rfl⟩

/-! ## Decoding a list of tokens with known values -/

theorem stodAt_of_values {toks : List (List Char)} {vals : List ℚ}
    (h : toks.map stod = vals.map some) (i : Nat) (hi : i < toks.length) :
    stodAt toks i = .ok (vals.getD i 0) := by
  have hlen : toks.length = vals.length := by
    have := congrArg List.length h
    simpa using this
  have h1 : (toks.map stod)[i]? = (vals.map some)[i]? := by rw [h]
  rw [List.getElem?_map, List.getElem?_map, List.getElem?_eq_getElem hi,
    List.getElem?_eq_getElem (by omega)] at h1
  simp only [Option.map_some', Option.some.injEq] at h1
  unfold stodAt
  rw [List.getD_eq_getElem _ _ hi, h1, List.getD_eq_getElem _ _ (by omega)]

theorem absAt_of_values {toks : List (List Char)} {vals : List ℚ}
    (h : toks.map stod = vals.map some) (i : Nat) :
    absAt toks i = .ok |vals.getD i 0| := by
  have hlen : toks.length = vals.length := by
    have := congrArg List.length h
    simpa using this
  unfold absAt
  by_cases hi : toks.length > i
  · rw [if_pos hi, stodAt_of_values h i hi]
    rfl
  · rw [if_neg hi]
    have : vals.getD i 0 = 0 := by
      rw [List.getD_eq_getElem?_getD, List.getElem?_eq_none (by omega)]
      rfl
    rw [this, abs_zero]

/-- The fields the constructor computes from tokens whose values are `vals`
(a missing value counts as 0). -/
theorem new_of_values {toks : List (List Char)} {vals : List ℚ}
    (h : toks.map stod = vals.map some) (hne : vals ≠ []) :
    CoordinateNumber.new toks =
      .ok ⟨normalizedSignOf (roundFloat (vals.getD 0 0)), |vals.getD 0 0|, |vals.getD 1 0|,
        |vals.getD 2 0|, |vals.getD 3 0|, decide (vals.length < 2)⟩ := by
  have hlen : toks.length = vals.length := by
    have := congrArg List.length h
    simpa using this
  have hpos : 0 < vals.length := List.length_pos.mpr hne
  unfold CoordinateNumber.new
  rw [if_neg (by omega), stodAt_of_values h 0 (by omega), absAt_of_values h 1,
    absAt_of_values h 2, absAt_of_values h 3, hlen]
  rfl

/-- With two tokens or more, `detectSpecialFormats` changes nothing and the decoded
value is the plain sum, computed in `double`. -/
theorem decode_multi {toks : List (List Char)} {vals : List ℚ}
    (h : toks.map stod = vals.map some) (h2 : 2 ≤ vals.length) :
    coordinateNumbersToDecimal toks =
      .ok (doubleMul (normalizedSignOf (roundFloat (vals.getD 0 0)) : ℚ)
        (doubleAdd (doubleAdd (doubleAdd |vals.getD 0 0| (doubleDiv |vals.getD 1 0| 60))
          (doubleDiv |vals.getD 2 0| 3600)) (doubleDiv |vals.getD 3 0| 3600000))) := by
  have hne : vals ≠ [] := by
    intro hnil
    rw [hnil] at h2
    simp at h2
  rw [coordinateNumbersToDecimal, new_of_values h hne]
  have hnot : decide (vals.length < 2) = false := by
    rw [decide_eq_false_iff_not]
    omega
  rw [hnot]
  rfl

/-- With a single token of value `v`, the decoded value is that of the number built
from `v` alone after `detectSpecialFormats`. -/
theorem decode_single {t : List Char} {v : ℚ} (h : stod t = some v) :
    coordinateNumbersToDecimal [t] =
      .ok (CoordinateNumber.mk (normalizedSignOf (roundFloat v)) |v| 0 0 0
        true).detectSpecialFormats.toDecimal := by
  have hm : [t].map stod = [v].map some := by simp [h]
  rw [coordinateNumbersToDecimal, new_of_values hm (by simp)]
  simp only [List.getD_cons_zero, List.getD_cons_succ, List.getD_nil, abs_zero,
    List.length_singleton, Nat.one_lt_ofNat, decide_True]
  rfl

/-! ## The single-token formats -/

/-- The value `toDecimal` computes for a number without milliseconds. -/
theorem toDecimal_no_milliseconds (sg : Int) (D M S : ℚ) (b : Bool) :
    (CoordinateNumber.mk sg D M S 0 b).toDecimal =
      doubleMul (sg : ℚ) (doubleAdd (doubleAdd D (doubleDiv M 60)) (doubleDiv S 3600)) := by
  unfold CoordinateNumber.toDecimal
  simp only [doubleDiv_zero]
  rw [doubleAdd_zero (roundDouble_doubleAdd _ _)]

/-- The sign `normalizedSignOf` gives to a double that is not a negative number above
`-2 ^ (-150)` is the sign of the reference definition. -/
theorem normalizedSignOf_reference {v : ℚ} (hs : 0 ≤ v ∨ v < -(2 : ℚ) ^ (-150 : ℤ)) :
    ((normalizedSignOf (roundFloat v) : Int) : ℚ) = if v ≥ 0 then 1 else -1 := by
  rcases hs with h | h
  · rw [(normalizedSignOf_roundFloat v).1 h, if_pos h]
    simp
  · have hneg : v < 0 := lt_trans h (neg_neg_of_pos (two_zpow_pos _))
    rw [(normalizedSignOf_roundFloat v).2 h, if_neg (not_le.mpr hneg)]
    simp

/-- The decoding of a single token equals the threshold reference definition, computed
in `double`, on the double `v` that `std::stod` reads from the token, unless `v` is a
negative number above `-2 ^ (-150)`: the three floors of the packed format, which the
program takes of rounded quotients and differences, are the floors of the exact ones. -/
theorem decode_single_reference {t : List Char} {v : ℚ} (h : stod t = some v)
    (hs : 0 ≤ v ∨ v < -(2 : ℚ) ^ (-150 : ℤ)) :
    coordinateNumbersToDecimal [t] = .ok (decodeSingleReference v) := by
  have hd := roundDouble_of_stod h
  have hda : roundDouble |v| = |v| := by rw [roundDouble_abs, hd]
  have habs0 : 0 ≤ |v| := abs_nonneg v
  have h2pow : (2 : ℚ) ^ (53 : ℤ) = 9007199254740992 := by norm_num
  rw [decode_single h]
  unfold decodeSingleReference
  simp only
  rw [← normalizedSignOf_reference hs]
  generalize normalizedSignOf (roundFloat v) = sg
  by_cases c1 : |v| > 909090
  · rw [if_pos c1]
    simp only [CoordinateNumber.detectSpecialFormats, CoordinateNumber.degreesCanBeMilliseconds,
      c1, decide_True, if_true, CoordinateNumber.degreesAsMilliseconds,
      CoordinateNumber.toDecimal, doubleDiv_zero]
    have h0 : doubleAdd 0 0 = 0 := by
      unfold doubleAdd
      rw [add_zero, roundDouble_zero]
    have hX : doubleAdd 0 (doubleDiv |v| 3600000) = doubleDiv |v| 3600000 := by
      unfold doubleAdd doubleDiv
      rw [zero_add, roundDouble_idem]
    rw [h0, h0, hX]
  · rw [if_neg c1]
    by_cases c2 : |v| > 9090
    · rw [if_pos c2]
      have h53 : |v| < (2 : ℚ) ^ (53 : ℤ) := by
        rw [h2pow]
        linarith [not_lt.mp c1]
      have hdet : (CoordinateNumber.mk sg |v| 0 0 0 true).detectSpecialFormats =
          (CoordinateNumber.mk sg |v| 0 0 0 true).degreesAsDegreesMinutesAndSeconds := by
        simp only [CoordinateNumber.detectSpecialFormats,
          CoordinateNumber.degreesCanBeMilliseconds,
          CoordinateNumber.degreesCanBeDegreesMinutesAndSeconds, c1, c2, decide_False,
          decide_True, if_true, Bool.false_eq_true, if_false]
      rw [hdet, degreesAsDegreesMinutesAndSeconds_eq
        (CoordinateNumber.mk sg |v| 0 0 0 true) hda habs0 h53]
      simp only [toDecimal_no_milliseconds]
      rw [mul_comm (⌊|v| / 10000⌋ : ℚ) 10000,
        mul_comm (⌊(|v| - 10000 * (⌊|v| / 10000⌋ : ℚ)) / 100⌋ : ℚ) 100]
    · rw [if_neg c2]
      by_cases c3 : |v| > 360
      · rw [if_pos c3]
        have h53 : |v| < (2 : ℚ) ^ (53 : ℤ) := by
          rw [h2pow]
          linarith [not_lt.mp c2]
        have hdet : (CoordinateNumber.mk sg |v| 0 0 0 true).detectSpecialFormats =
            (CoordinateNumber.mk sg |v| 0 0 0 true).degreesAsDegreesAndMinutes := by
          simp only [CoordinateNumber.detectSpecialFormats,
            CoordinateNumber.degreesCanBeMilliseconds,
            CoordinateNumber.degreesCanBeDegreesMinutesAndSeconds,
            CoordinateNumber.degreesCanBeDegreesAndMinutes, c1, c2, c3, decide_False,
            decide_True, if_true, Bool.false_eq_true, if_false]
        rw [hdet, degreesAsDegreesAndMinutes_eq
          (CoordinateNumber.mk sg |v| 0 0 0 true) hda habs0 h53]
        simp only [toDecimal_no_milliseconds, doubleDiv_zero]
        rw [doubleAdd_zero (roundDouble_doubleAdd _ _), mul_comm (⌊|v| / 100⌋ : ℚ) 100]
      · rw [if_neg c3]
        simp only [CoordinateNumber.detectSpecialFormats,
          CoordinateNumber.degreesCanBeMilliseconds,
          CoordinateNumber.degreesCanBeDegreesMinutesAndSeconds,
          CoordinateNumber.degreesCanBeDegreesAndMinutes, c1, c2, c3, decide_False,
          if_true, Bool.false_eq_true, if_false, toDecimal_no_milliseconds, doubleDiv_zero]
        rw [doubleAdd_zero hda, doubleAdd_zero hda]

/-- C16 at the single token "-0.0000000000000000000000000000000000000000000001"
(45 zeros after the point): its value `v`, the double nearest to -1e-46, is negative and
of magnitude `d` below 360, so the reference definition gives `s = -1` and
`decode = s * d = v`; the program decodes it to `+d`, because `v` becomes zero as the
`float` parameter of `normalizedSignOf`.  So "-0.(45 zeros)1, 1" parses to a positive
latitude. -/
theorem single_token_sign_lost :
    stod tinyNegativeToken = some (roundDouble (-(1 / 10 ^ 46))) ∧
      roundDouble (-(1 / 10 ^ 46)) < 0 ∧ |roundDouble (-(1 / 10 ^ 46))| ≤ 360 ∧
      roundFloat (roundDouble (-(1 / 10 ^ 46))) = 0 ∧
      coordinateNumbersToDecimal [tinyNegativeToken] =
        .ok |roundDouble (-(1 / 10 ^ 46))| ∧
      coordinateNumbersToDecimal [tinyNegativeToken] ≠
        .ok (-1 * |roundDouble (-(1 / 10 ^ 46))|) ∧
      parse (tinyNegativeToken ++ ", 1".toList) =
        .ok ⟨true, |roundDouble (-(1 / 10 ^ 46))|, 1, ""⟩ :=
  ⟨by decide!, by decide!, by decide!, by decide!, by decide!, by decide!, by decide!⟩

/-- The values at and next to the thresholds: at a threshold the lower interpretation
applies, and a literal just above a threshold that `std::stod` rounds to the threshold
is read as the threshold. -/
theorem single_token_thresholds :
    coordinateNumbersToDecimal ["360".toList] = .ok 360 ∧
      coordinateNumbersToDecimal ["9090".toList] = .ok (183 / 2) ∧
      coordinateNumbersToDecimal ["909090".toList] =
        .ok (doubleAdd (183 / 2) (doubleDiv 90 3600)) ∧
      stod "909090.00000000001".toList = some 909090 ∧
      stod "9090.0000000000001".toList = some 9090 ∧
      stod "360.00000000000001".toList = some 360 :=
  ⟨by decide!, by decide!, by decide!, by decide!, by decide!, by decide!⟩

/-- With two tokens or more the decoded value is
`s * (|t0| + |t1| / 60 + |t2| / 3600 + |t3| / 3600000)` computed in `double`, with
`s = +1` if `t0 >= 0` and `-1` otherwise, however large `|t0|` is, unless `t0` is a
negative number above `-2 ^ (-150)`. -/
theorem decode_multi_reference {toks : List (List Char)} {vals : List ℚ}
    (h : toks.map stod = vals.map some) (h2 : 2 ≤ vals.length)
    (hs : 0 ≤ vals.getD 0 0 ∨ vals.getD 0 0 < -(2 : ℚ) ^ (-150 : ℤ)) :
    coordinateNumbersToDecimal toks =
      .ok (doubleMul (if vals.getD 0 0 ≥ 0 then 1 else -1)
        (doubleAdd (doubleAdd (doubleAdd |vals.getD 0 0| (doubleDiv |vals.getD 1 0| 60))
          (doubleDiv |vals.getD 2 0| 3600)) (doubleDiv |vals.getD 3 0| 3600000))) := by
  rw [decode_multi h h2, normalizedSignOf_reference hs]

/-- C17 at the tokens "-0.0000000000000000000000000000000000000000000001", "30": the
first token has the negative value `t0`, the double nearest to -1e-46, so the formula
gives `s = -1` and a negative value, `-(|t0| + 30 / 60)`; the program decodes the
tokens to `+1/2`, because `t0` becomes zero as the `float` parameter of
`normalizedSignOf`. -/
theorem multi_token_sign_lost :
    [tinyNegativeToken, "30".toList].map stod =
        [roundDouble (-(1 / 10 ^ 46)), (30 : ℚ)].map some ∧
      roundDouble (-(1 / 10 ^ 46)) < 0 ∧
      coordinateNumbersToDecimal [tinyNegativeToken, "30".toList] = .ok (1 / 2) ∧
      doubleMul (-1) (doubleAdd (doubleAdd (doubleAdd |roundDouble (-(1 / 10 ^ 46))|
        (doubleDiv 30 60)) (doubleDiv 0 3600)) (doubleDiv 0 3600000)) = -(1 / 2) ∧
      parse (tinyNegativeToken ++ " 30, 1 0".toList) = .ok ⟨true, 1 / 2, 1, ""⟩ :=
  ⟨by decide!, by decide!, by decide!, by decide!, by decide!⟩

/-! ## Several tokens -/

/-- C20: the sign of every token after the first is ignored.  Two lists of 2 tokens or
more, so of 2 to 4, with the same first value, whose further values agree up to
negation, decode to the same value. -/
theorem decode_ignores_later_signs (toks toks' : List (List Char)) (vals vals' : List ℚ)
    (h : toks.map stod = vals.map some) (h' : toks'.map stod = vals'.map some)
    (hlen : vals'.length = vals.length) (h2 : 2 ≤ vals.length)
    (h0 : vals'.getD 0 0 = vals.getD 0 0)
    (hneg : ∀ i, 1 ≤ i → vals'.getD i 0 = vals.getD i 0 ∨ vals'.getD i 0 = -vals.getD i 0) :
    ∃ a, coordinateNumbersToDecimal toks = .ok a ∧ coordinateNumbersToDecimal toks' = .ok a := by
  have habs : ∀ i, 1 ≤ i → |vals'.getD i 0| = |vals.getD i 0| := by
    intro i hi
    rcases hneg i hi with h | h
    · rw [h]
    · rw [h, abs_neg]
  refine ⟨_, decode_multi h h2, ?_⟩
  rw [decode_multi h' (by omega), h0, habs 1 (by omega), habs 2 (by omega), habs 3 (by omega)]

/-- C20 on "40-25.0999N 74-38.4668W": the hyphens become minus signs of the second
tokens, and the pair is that of "40 25.0999N 74 38.4668W". -/
theorem decode_ignores_later_signs_witness :
    extractCoordinateNumbers "40-25.0999N 74-38.4668W".toList =
        ["40".toList, "-25.0999".toList, "74".toList, "-38.4668".toList] ∧
      parse "40-25.0999N 74-38.4668W".toList = parse "40 25.0999N 74 38.4668W".toList ∧
      (∃ lat lon, parse "40-25.0999N 74-38.4668W".toList = .ok ⟨true, lat, lon, ""⟩) ∧
      ["40".toList, "25.0999".toList].map stod =
        [(40 : ℚ), roundDouble 25.0999].map some ∧
      ["40".toList, "-25.0999".toList].map stod =
        [(40 : ℚ), -roundDouble 25.0999].map some ∧
      ∃ a, coordinateNumbersToDecimal ["40".toList, "25.0999".toList] = .ok a ∧
        coordinateNumbersToDecimal ["40".toList, "-25.0999".toList] = .ok a :=
  ⟨by decide!, by decide!,
    ⟨doubleAdd 40 (doubleDiv (roundDouble 25.0999) 60),
      -doubleAdd 74 (doubleDiv (roundDouble 38.4668) 60), by decide!⟩, by decide!,
    by decide!,
    decode_ignores_later_signs ["40".toList, "25.0999".toList]
      ["40".toList, "-25.0999".toList] [40, roundDouble 25.0999] [40, -roundDouble 25.0999]
      (by decide!) (by decide!) rfl (by decide) rfl
      (fun i hi => by
        match i, hi with
        | 1, _ => right; rfl
        | (n + 2), _ => left; rfl)⟩

/-! ## Packed notations -/

/-- C14, refuted as stated: the packed token "360.2" and the separated tokens "3",
"60.2" decode to different doubles (the packed minutes are 360.2 - 300 computed from
the double nearest to 360.2, not the double nearest to 60.2), so the agreement is not
exact; and the packed literal "360.00000000000001", which `std::stod` reads as 360.0,
decodes to 360 while "3", "60.00000000000001" decode to about 4. -/
theorem packed_dm_counterexample :
    (360 < (360.2 : ℚ) ∧ (360.2 : ℚ) ≤ 9090 ∧ (360.2 : ℚ) = 100 * 3 + 60.2) ∧
      decimalValue "360.2".toList = some 360.2 ∧ decimalValue "60.2".toList = some 60.2 ∧
      coordinateNumbersToDecimal ["360.2".toList] =
        .ok (doubleAdd 3 (doubleDiv (roundDouble 360.2 - 300) 60)) ∧
      coordinateNumbersToDecimal ["3".toList, "60.2".toList] =
        .ok (doubleAdd 3 (doubleDiv (roundDouble 60.2) 60)) ∧
      doubleAdd 3 (doubleDiv (roundDouble 360.2 - 300) 60) ≠
        doubleAdd 3 (doubleDiv (roundDouble 60.2) 60) ∧
      coordinateNumbersToDecimal ["360.2".toList] ≠
        coordinateNumbersToDecimal ["3".toList, "60.2".toList] ∧
      coordinateNumbersToDecimal ["360.00000000000001".toList] = .ok 360 ∧
      coordinateNumbersToDecimal ["3".toList, "60.00000000000001".toList] =
        .ok (doubleAdd 3 (doubleDiv (roundDouble 60.00000000000001) 60)) ∧
      3 < doubleAdd 3 (doubleDiv (roundDouble 60.00000000000001) 60) ∧
      doubleAdd 3 (doubleDiv (roundDouble 60.00000000000001) 60) < 5 :=
  ⟨by norm_num, by decide!, by decide!, by decide!, by decide!, by decide!, by decide!,
    by decide!, by decide!, by decide!, by decide!⟩

/-- The integer part of the packed degrees and minutes. -/
theorem floor_div_hundred {d : ℚ} {D : ℕ} (h1 : 100 * (D : ℚ) ≤ d)
    (h2 : d < 100 * ((D : ℚ) + 1)) : ⌊d / 100⌋ = (D : ℤ) := by
  rw [Int.floor_eq_iff]
  push_cast
  constructor
  · rw [le_div_iff₀ (by norm_num)]
    linarith
  · rw [div_lt_iff₀ (by norm_num)]
    linarith

/-- Decoding a single token that `std::stod` reads as a double `d` with
`360 < d ≤ 9090` whose integer part of `d / 100` is `D`: the degrees are `D` and the
minutes `d - 100 * D`, without any rounding. -/
theorem decode_packed_dm {td : List Char} {d : ℚ} {D : ℕ} (hd : stod td = some d)
    (h360 : 360 < d) (h9090 : d ≤ 9090) (h1 : 100 * (D : ℚ) ≤ d)
    (h2 : d < 100 * ((D : ℚ) + 1)) :
    coordinateNumbersToDecimal [td] = .ok (doubleAdd D (doubleDiv (d - 100 * D) 60)) := by
  have hdd := roundDouble_of_stod hd
  have hd0 : 0 ≤ d := by linarith
  have h53 : d < (2 : ℚ) ^ (53 : ℤ) := by
    have : (2 : ℚ) ^ (53 : ℤ) = 9007199254740992 := by norm_num
    linarith
  rw [decode_single hd, (normalizedSignOf_roundFloat d).1 hd0, abs_of_nonneg hd0]
  have c1 : ¬ d > 909090 := by intro h; linarith
  have c2 : ¬ d > 9090 := by intro h; linarith
  have hdet : (CoordinateNumber.mk 1 d 0 0 0 true).detectSpecialFormats =
      (CoordinateNumber.mk 1 d 0 0 0 true).degreesAsDegreesAndMinutes := by
    simp only [CoordinateNumber.detectSpecialFormats, CoordinateNumber.degreesCanBeMilliseconds,
      CoordinateNumber.degreesCanBeDegreesMinutesAndSeconds,
      CoordinateNumber.degreesCanBeDegreesAndMinutes, c1, c2, h360, decide_False, decide_True,
      if_true, Bool.false_eq_true, if_false]
  rw [hdet, degreesAsDegreesAndMinutes_eq _ hdd hd0 h53]
  simp only [floor_div_hundred h1 h2, Int.cast_natCast]
  rw [toDecimal_positive, doubleDiv_zero, doubleAdd_zero (roundDouble_doubleAdd _ _)]
  congr 3
  ring

/-- Decoding two tokens that `std::stod` reads as the natural number `D` and the
non-negative double `m`. -/
theorem decode_separated_dm {tD tM : List Char} {D : ℕ} {m : ℚ}
    (hD : stod tD = some (D : ℚ)) (hm : stod tM = some m) (hm0 : 0 ≤ m) :
    coordinateNumbersToDecimal [tD, tM] = .ok (doubleAdd D (doubleDiv m 60)) := by
  have hv : [tD, tM].map stod = [(D : ℚ), m].map some := by simp [hD, hm]
  rw [decode_multi hv (by simp)]
  simp only [List.getD_cons_zero, List.getD_cons_succ, List.getD_nil, abs_zero]
  rw [(normalizedSignOf_roundFloat (D : ℚ)).1 (by positivity),
    abs_of_nonneg (show (0 : ℚ) ≤ (D : ℚ) by positivity), abs_of_nonneg hm0]
  simp only [Int.cast_one, doubleDiv_zero]
  rw [doubleAdd_zero (roundDouble_doubleAdd _ _), doubleAdd_zero (roundDouble_doubleAdd _ _),
    doubleMul_one (roundDouble_doubleAdd _ _)]

/-- C14 (amended): packed DDDMM.mm notation agrees with separated D M notation up to
rounding.  For a natural number `D` and a decimal `M` with `0 ≤ M < 100`, let `d` be
the double `std::stod` reads from the packed literal `100 * D + M` and `m` the double
it reads from the literal `M`.  When `360 < d ≤ 9090` and `d < 100 * (D + 1)`, decoding
the single token gives `D + (d - 100 * D) / 60` computed in `double`, with the
fractional minutes `d - 100 * D` computed without rounding; it differs from the
decoding of the two tokens, `D + m / 60` computed in `double`, by at most `1e-13`, and
the two are equal when `d - 100 * D = m`. -/
theorem packed_dm_close (td tD tM : List Char) (D : ℕ) (M d m : ℚ)
    (hvD : decimalValue tD = some (D : ℚ)) (hvM : decimalValue tM = some M)
    (hvd : decimalValue td = some (100 * (D : ℚ) + M))
    (hM0 : 0 ≤ M) (hM1 : M < 100)
    (hd : stod td = some d) (hm : stod tM = some m)
    (h360 : 360 < d) (h9090 : d ≤ 9090) (hint : d < 100 * ((D : ℚ) + 1)) :
    ∃ a b, coordinateNumbersToDecimal [td] = .ok a ∧
      coordinateNumbersToDecimal [tD, tM] = .ok b ∧
      a = doubleAdd D (doubleDiv (d - 100 * D) 60) ∧ b = doubleAdd D (doubleDiv m 60) ∧
      |a - b| ≤ 1 / 10 ^ 13 ∧ (d - 100 * D = m → a = b) := by
  have hdv := stod_eq_roundDouble hvd hd
  have hmv := stod_eq_roundDouble hvM hm
  have hD0 : (0 : ℚ) ≤ (D : ℚ) := by positivity
  have hm0 : 0 ≤ m := by
    rw [hmv]
    exact roundDouble_nonneg hM0
  have hm100 : m ≤ 100 := by
    have := roundDouble_mono (le_of_lt hM1)
    rw [← hmv, show (100 : ℚ) = ((100 : ℕ) : ℚ) by norm_num,
      roundDouble_natCast (by norm_num)] at this
    simpa using this
  have hdv9091 : 100 * (D : ℚ) + M < 9091 := by
    by_contra h
    have := roundDouble_mono (not_lt.mp h)
    rw [← hdv, show (9091 : ℚ) = ((9091 : ℕ) : ℚ) by norm_num,
      roundDouble_natCast (by norm_num)] at this
    have h' : (9091 : ℚ) ≤ d := by simpa using this
    linarith
  have hD91 : D < 91 := by
    have : (D : ℚ) < 91 := by linarith
    exact_mod_cast this
  have hsD : stod tD = some (D : ℚ) := stod_natCast hvD (by omega)
  have h100D : 100 * (D : ℚ) ≤ d := by
    have := roundDouble_mono (show 100 * (D : ℚ) ≤ 100 * (D : ℚ) + M by linarith)
    rw [← hdv, show 100 * (D : ℚ) = ((100 * D : ℕ) : ℚ) by push_cast; ring,
      roundDouble_natCast (by omega)] at this
    push_cast at this
    exact this
  refine ⟨_, _, decode_packed_dm hd h360 h9090 h100D hint, decode_separated_dm hsD hm hm0,
    rfl, rfl, ?_, fun h => by rw [h]⟩
  -- the rounding errors
  have p40 : (2 : ℚ) ^ ((14 : ℤ) - 54) = 1 / 1099511627776 := by norm_num
  have p47 : (2 : ℚ) ^ ((7 : ℤ) - 54) = 1 / 140737488355328 := by norm_num
  have p53 : (2 : ℚ) ^ ((1 : ℤ) - 54) = 1 / 9007199254740992 := by norm_num
  have e1 := abs_roundDouble_sub_le (x := 100 * (D : ℚ) + M) (m := 14) (by linarith)
    (by norm_num; linarith) (by norm_num) (by norm_num)
  rw [← hdv, p40, abs_le] at e1
  have e2 := abs_roundDouble_sub_le (x := M) (m := 7) hM0 (by norm_num; linarith)
    (by norm_num) (by norm_num)
  rw [← hmv, p47, abs_le] at e2
  have hmp0 : 0 ≤ (d - 100 * (D : ℚ)) / 60 := by
    apply div_nonneg _ (by norm_num)
    linarith
  have hmp2 : (d - 100 * (D : ℚ)) / 60 < 2 := by
    rw [div_lt_iff₀ (by norm_num)]
    linarith
  have e3 := abs_roundDouble_sub_le (x := (d - 100 * (D : ℚ)) / 60) (m := 1) hmp0
    (by norm_num; linarith) (by norm_num) (by norm_num)
  rw [p53, abs_le] at e3
  have hm60 : 0 ≤ m / 60 := div_nonneg hm0 (by norm_num)
  have hm2 : m / 60 < 2 := by
    rw [div_lt_iff₀ (by norm_num)]
    linarith
  have e4 := abs_roundDouble_sub_le (x := m / 60) (m := 1) hm60
    (by norm_num; linarith) (by norm_num) (by norm_num)
  rw [p53, abs_le] at e4
  have hr3 := roundDouble_nonneg hmp0
  have hr4 := roundDouble_nonneg hm60
  have e5 := abs_roundDouble_sub_le (x := (D : ℚ) + roundDouble ((d - 100 * (D : ℚ)) / 60))
    (m := 7) (by linarith) (by
      norm_num
      have : (D : ℚ) ≤ 90 := by exact_mod_cast (by omega : D ≤ 90)
      linarith) (by norm_num) (by norm_num)
  rw [p47, abs_le] at e5
  have e6 := abs_roundDouble_sub_le (x := (D : ℚ) + roundDouble (m / 60))
    (m := 7) (by linarith) (by
      norm_num
      have : (D : ℚ) ≤ 90 := by exact_mod_cast (by omega : D ≤ 90)
      linarith) (by norm_num) (by norm_num)
  rw [p47, abs_le] at e6
  unfold doubleAdd doubleDiv
  rw [abs_le]
  constructor <;> linarith [e1.1, e1.2, e2.1, e2.2, e3.1, e3.2, e4.1, e4.2, e5.1, e5.2, e6.1,
    e6.2]

/-- C14 (amended) on the tokens of "4025.0999N7438.4668W": the packed tokens "4025.0999"
and "7438.4668" against "40", "25.0999" and "74", "38.4668"; the input parses within
0.001 of (40.4183318, -74.6411133). -/
theorem packed_dm_close_witness :
    parse "4025.0999N7438.4668W".toList =
        .ok ⟨true, doubleAdd 40 (doubleDiv (roundDouble 4025.0999 - 4000) 60),
          -doubleAdd 74 (doubleDiv (roundDouble 7438.4668 - 7400) 60), ""⟩ ∧
      |doubleAdd 40 (doubleDiv (roundDouble 4025.0999 - 4000) 60) - 40.4183318| < 0.001 ∧
      |-doubleAdd 74 (doubleDiv (roundDouble 7438.4668 - 7400) 60) - -74.6411133| < 0.001 ∧
      ∃ a b, coordinateNumbersToDecimal ["4025.0999".toList] = .ok a ∧
        coordinateNumbersToDecimal ["40".toList, "25.0999".toList] = .ok b ∧
        a = doubleAdd (40 : ℕ) (doubleDiv (roundDouble 4025.0999 - 100 * (40 : ℕ)) 60) ∧
        b = doubleAdd (40 : ℕ) (doubleDiv (roundDouble 25.0999) 60) ∧
        |a - b| ≤ 1 / 10 ^ 13 ∧
        (roundDouble 4025.0999 - 100 * (40 : ℕ) = roundDouble 25.0999 → a = b) :=
  ⟨by decide!, by decide!, by decide!,
    packed_dm_close "4025.0999".toList "40".toList "25.0999".toList 40 25.0999
      (roundDouble 4025.0999) (roundDouble 25.0999) (by decide!) (by decide!) (by decide!)
      (by norm_num) (by norm_num) (by decide!) (by decide!) (by decide!) (by decide!)
      (by decide!)⟩

/-- C13, refuted as stated: for `D = 0`, `M = 90`, `S = 90.0000000000001` the packed
number `d = 9090.0000000000001` satisfies `9090 < d <= 909090`, but `std::stod` reads
the packed literal as 9090.0, which is not above 9090, so the single token decodes as
packed degrees and minutes to 91.5 and not to `D + M / 60 + floor(S) / 3600 = 1.525`;
the separated tokens decode to about 1.525, so the difference is about -89.975. -/
theorem packed_dms_counterexample :
    ((9090 : ℚ) < 10000 * 0 + 100 * 90 + 90.0000000000001 ∧
        (10000 * 0 + 100 * 90 + 90.0000000000001 : ℚ) ≤ 909090) ∧
      decimalValue "9090.0000000000001".toList = some (10000 * 0 + 100 * 90 + 90.0000000000001) ∧
      stod "9090.0000000000001".toList = some 9090 ∧
      coordinateNumbersToDecimal ["9090.0000000000001".toList] = .ok (183 / 2) ∧
      coordinateNumbersToDecimal ["0".toList, "90".toList, "90.0000000000001".toList] =
        .ok (doubleAdd (3 / 2) (doubleDiv (roundDouble 90.0000000000001) 3600)) ∧
      doubleAdd (3 / 2) (doubleDiv (roundDouble 90.0000000000001) 3600) < 2 ∧
      ¬ (0 ≤ doubleAdd (3 / 2) (doubleDiv (roundDouble 90.0000000000001) 3600) - 183 / 2) :=
  ⟨by norm_num, by decide!, by decide!, by decide!, by decide!, by decide!, by decide!⟩

/-- The three integer parts of a packed number. -/
theorem floor_packed_dms {d : ℚ} {D M : ℕ} {n : ℤ} (hM : M ≤ 99) (hn0 : 0 ≤ n) (hn : n ≤ 99)
    (h1 : 10000 * (D : ℚ) + 100 * (M : ℚ) + (n : ℚ) ≤ d)
    (h2 : d < 10000 * (D : ℚ) + 100 * (M : ℚ) + (n : ℚ) + 1) :
    ⌊d / 10000⌋ = (D : ℤ) ∧ ⌊(d - (D : ℚ) * 10000) / 100⌋ = (M : ℤ) ∧
      ⌊d - (D : ℚ) * 10000 - (M : ℚ) * 100⌋ = n := by
  have hMq : (M : ℚ) ≤ 99 := by exact_mod_cast hM
  have hM0 : (0 : ℚ) ≤ (M : ℚ) := by positivity
  have hnq : (n : ℚ) ≤ 99 := by exact_mod_cast hn
  have hn0q : (0 : ℚ) ≤ (n : ℚ) := by exact_mod_cast hn0
  refine ⟨?_, ?_, ?_⟩
  · rw [Int.floor_eq_iff]
    push_cast
    constructor
    · rw [le_div_iff₀ (by norm_num)]
      linarith
    · rw [div_lt_iff₀ (by norm_num)]
      linarith
  · rw [Int.floor_eq_iff]
    push_cast
    constructor
    · rw [le_div_iff₀ (by norm_num)]
      linarith
    · rw [div_lt_iff₀ (by norm_num)]
      linarith
  · rw [Int.floor_eq_iff]
    constructor <;> linarith

/-- Decoding a single token that `std::stod` reads as a double `d` with
`9090 < d ≤ 909090` whose integer part is `10000 * D + 100 * M + n`: the degrees are
`D`, the minutes `M` and the seconds `n`. -/
theorem decode_packed_dms {td : List Char} {d : ℚ} {D M : ℕ} {n : ℤ} (hd : stod td = some d)
    (h9090 : 9090 < d) (h909090 : d ≤ 909090) (hM : M ≤ 99) (hn0 : 0 ≤ n) (hn : n ≤ 99)
    (h1 : 10000 * (D : ℚ) + 100 * (M : ℚ) + (n : ℚ) ≤ d)
    (h2 : d < 10000 * (D : ℚ) + 100 * (M : ℚ) + (n : ℚ) + 1) :
    coordinateNumbersToDecimal [td] =
      .ok (doubleAdd (doubleAdd D (doubleDiv M 60)) (doubleDiv n 3600)) := by
  have hdd := roundDouble_of_stod hd
  have hd0 : 0 ≤ d := by linarith
  have h53 : d < (2 : ℚ) ^ (53 : ℤ) := by
    have : (2 : ℚ) ^ (53 : ℤ) = 9007199254740992 := by norm_num
    linarith
  rw [decode_single hd, (normalizedSignOf_roundFloat d).1 hd0, abs_of_nonneg hd0]
  have c1 : ¬ d > 909090 := by intro h; linarith
  have hdet : (CoordinateNumber.mk 1 d 0 0 0 true).detectSpecialFormats =
      (CoordinateNumber.mk 1 d 0 0 0 true).degreesAsDegreesMinutesAndSeconds := by
    simp only [CoordinateNumber.detectSpecialFormats, CoordinateNumber.degreesCanBeMilliseconds,
      CoordinateNumber.degreesCanBeDegreesMinutesAndSeconds, c1, h9090, decide_False,
      decide_True, if_true, Bool.false_eq_true, if_false]
  obtain ⟨f1, f2, f3⟩ := floor_packed_dms hM hn0 hn h1 h2
  rw [hdet, degreesAsDegreesMinutesAndSeconds_eq _ hdd hd0 h53]
  simp only [f1, Int.cast_natCast, f2, f3]
  rw [toDecimal_positive]

/-- Decoding three tokens that `std::stod` reads as the natural numbers `D` and `M` and
the non-negative double `s`. -/
theorem decode_separated_dms {tD tM tS : List Char} {D M : ℕ} {s : ℚ}
    (hD : stod tD = some (D : ℚ)) (hM : stod tM = some (M : ℚ)) (hs : stod tS = some s)
    (hs0 : 0 ≤ s) :
    coordinateNumbersToDecimal [tD, tM, tS] =
      .ok (doubleAdd (doubleAdd D (doubleDiv M 60)) (doubleDiv s 3600)) := by
  have hv : [tD, tM, tS].map stod = [(D : ℚ), (M : ℚ), s].map some := by simp [hD, hM, hs]
  rw [decode_multi hv (by simp)]
  simp only [List.getD_cons_zero, List.getD_cons_succ, List.getD_nil, abs_zero]
  rw [(normalizedSignOf_roundFloat (D : ℚ)).1 (by positivity),
    abs_of_nonneg (show (0 : ℚ) ≤ (D : ℚ) by positivity),
    abs_of_nonneg (show (0 : ℚ) ≤ (M : ℚ) by positivity), abs_of_nonneg hs0]
  simp only [Int.cast_one, doubleDiv_zero]
  rw [doubleAdd_zero (roundDouble_doubleAdd _ _), doubleMul_one (roundDouble_doubleAdd _ _)]

/-- C13 (amended): packed DDDMMSS.sss notation agrees with separated D M S notation
within tolerance.  For natural numbers `D`, `M ≤ 99` and a decimal `S` with
`0 ≤ S < 100`, let `d` be the double `std::stod` reads from the packed literal
`10000 * D + 100 * M + S` and `s` the double it reads from the literal `S`.  When
`9090 < d ≤ 909090` and `d` is below the next integer,
`d < 10000 * D + 100 * M + floor(S) + 1`, decoding the single token gives
`D + M / 60 + floor(S) / 3600` computed in `double`, and the decoding of the three
tokens exceeds it by at least 0 and less than 1/3600 + 1e-13, so less than 0.001. -/
theorem packed_dms_close (td tD tM tS : List Char) (D M : ℕ) (S d s : ℚ)
    (hvD : decimalValue tD = some (D : ℚ)) (hvM : decimalValue tM = some (M : ℚ))
    (hvS : decimalValue tS = some S)
    (hvd : decimalValue td = some (10000 * (D : ℚ) + 100 * (M : ℚ) + S))
    (hM : M ≤ 99) (hS0 : 0 ≤ S) (hS1 : S < 100)
    (hd : stod td = some d) (hs : stod tS = some s)
    (h9090 : 9090 < d) (h909090 : d ≤ 909090)
    (hint : d < 10000 * (D : ℚ) + 100 * (M : ℚ) + (⌊S⌋ : ℚ) + 1) :
    ∃ a b, coordinateNumbersToDecimal [td] = .ok a ∧
      coordinateNumbersToDecimal [tD, tM, tS] = .ok b ∧
      a = doubleAdd (doubleAdd D (doubleDiv M 60)) (doubleDiv (⌊S⌋ : ℚ) 3600) ∧
      0 ≤ b - a ∧ b - a < 1 / 3600 + 1 / 10 ^ 13 ∧ b - a < 1 / 1000 := by
  have hdv := stod_eq_roundDouble hvd hd
  have hsv := stod_eq_roundDouble hvS hs
  have hD0 : (0 : ℚ) ≤ (D : ℚ) := by positivity
  have hM0 : (0 : ℚ) ≤ (M : ℚ) := by positivity
  have hMq : (M : ℚ) ≤ 99 := by exact_mod_cast hM
  have hn0 : (0 : ℤ) ≤ ⌊S⌋ := Int.floor_nonneg.mpr hS0
  have hn99 : ⌊S⌋ ≤ 99 := by
    have : ⌊S⌋ < 100 := Int.floor_lt.mpr (by exact_mod_cast hS1)
    omega
  have hn0q : (0 : ℚ) ≤ (⌊S⌋ : ℚ) := by exact_mod_cast hn0
  have hn99q : (⌊S⌋ : ℚ) ≤ 99 := by exact_mod_cast hn99
  have hnS := Int.floor_le S
  have hSn := Int.lt_floor_add_one S
  -- the size of the numbers
  have hdvlt : 10000 * (D : ℚ) + 100 * (M : ℚ) + S < 909091 := by
    by_contra h
    have := roundDouble_mono (not_lt.mp h)
    rw [← hdv, show (909091 : ℚ) = ((909091 : ℕ) : ℚ) by norm_num,
      roundDouble_natCast (by norm_num)] at this
    have h' : (909091 : ℚ) ≤ d := by simpa using this
    linarith
  have hD91 : D < 91 := by
    have : (D : ℚ) < 91 := by linarith
    exact_mod_cast this
  have hDq : (D : ℚ) ≤ 90 := by exact_mod_cast (by omega : D ≤ 90)
  have hsD : stod tD = some (D : ℚ) := stod_natCast hvD (by omega)
  have hsM : stod tM = some (M : ℚ) := stod_natCast hvM (by omega)
  -- the integer part of the packed number
  have hlow : 10000 * (D : ℚ) + 100 * (M : ℚ) + (⌊S⌋ : ℚ) ≤ d := by
    have := roundDouble_mono
      (show 10000 * (D : ℚ) + 100 * (M : ℚ) + (⌊S⌋ : ℚ) ≤ 10000 * (D : ℚ) + 100 * (M : ℚ) + S
        by linarith)
    rw [← hdv] at this
    have hz : roundDouble (((10000 * (D : ℤ) + 100 * (M : ℤ) + ⌊S⌋ : ℤ) : ℚ) * (2 : ℚ) ^ (0 : ℤ))
        = ((10000 * (D : ℤ) + 100 * (M : ℤ) + ⌊S⌋ : ℤ) : ℚ) * (2 : ℚ) ^ (0 : ℤ) := by
      apply roundDouble_of_multiple (by omega) (by omega) (by norm_num)
      rw [zpow_zero, mul_one]
      push_cast
      have : (909091 : ℚ) < (2 : ℚ) ^ (1024 : ℤ) := by norm_num
      linarith
    rw [zpow_zero, mul_one] at hz
    push_cast at hz
    rw [hz] at this
    exact this
  -- the double read from S
  have hs0 : 0 ≤ s := by
    rw [hsv]
    exact roundDouble_nonneg hS0
  have hns : (⌊S⌋ : ℚ) ≤ s := by
    have := roundDouble_mono hnS
    rw [← hsv] at this
    have hz : roundDouble (((⌊S⌋ : ℤ) : ℚ) * (2 : ℚ) ^ (0 : ℤ)) =
        ((⌊S⌋ : ℤ) : ℚ) * (2 : ℚ) ^ (0 : ℤ) := by
      apply roundDouble_of_multiple hn0 (by omega) (by norm_num)
      rw [zpow_zero, mul_one]
      have : (99 : ℚ) < (2 : ℚ) ^ (1024 : ℤ) := by norm_num
      linarith
    rw [zpow_zero, mul_one] at hz
    rw [hz] at this
    exact this
  have hsn : s ≤ (⌊S⌋ : ℚ) + 1 := by
    have := roundDouble_mono (le_of_lt hSn)
    rw [← hsv] at this
    have hz : roundDouble (((⌊S⌋ + 1 : ℤ) : ℚ) * (2 : ℚ) ^ (0 : ℤ)) =
        ((⌊S⌋ + 1 : ℤ) : ℚ) * (2 : ℚ) ^ (0 : ℤ) := by
      apply roundDouble_of_multiple (by omega) (by omega) (by norm_num)
      rw [zpow_zero, mul_one]
      push_cast
      have : (100 : ℚ) < (2 : ℚ) ^ (1024 : ℤ) := by norm_num
      linarith
    rw [zpow_zero, mul_one] at hz
    push_cast at hz
    rw [hz] at this
    exact this
  refine ⟨_, _, decode_packed_dms hd h9090 h909090 hM hn0 hn99 hlow hint,
    decode_separated_dms hsD hsM hs hs0, rfl, ?_⟩
  -- the difference
  have p47 : (2 : ℚ) ^ ((7 : ℤ) - 54) = 1 / 140737488355328 := by norm_num
  have p53 : (2 : ℚ) ^ ((1 : ℤ) - 54) = 1 / 9007199254740992 := by norm_num
  have p54 : (2 : ℚ) ^ ((0 : ℤ) - 54) = 1 / 18014398509481984 := by norm_num
  have hM60 : 0 ≤ (M : ℚ) / 60 := by positivity
  have hM2 : (M : ℚ) / 60 < 2 := by
    rw [div_lt_iff₀ (by norm_num)]
    linarith
  have eM := abs_roundDouble_sub_le (x := (M : ℚ) / 60) (m := 1) hM60
    (by norm_num; linarith) (by norm_num) (by norm_num)
  rw [p53, abs_le] at eM
  have hrM := roundDouble_nonneg hM60
  have eP := abs_roundDouble_sub_le (x := (D : ℚ) + roundDouble ((M : ℚ) / 60)) (m := 7)
    (by linarith) (by norm_num; linarith) (by norm_num) (by norm_num)
  rw [p47, abs_le] at eP
  have hP0 := roundDouble_nonneg (show 0 ≤ (D : ℚ) + roundDouble ((M : ℚ) / 60) by linarith)
  have hn3600 : 0 ≤ (⌊S⌋ : ℚ) / 3600 := by positivity
  have hs3600 : 0 ≤ s / 3600 := by positivity
  have hn1 : (⌊S⌋ : ℚ) / 3600 < 1 := by
    rw [div_lt_iff₀ (by norm_num)]
    linarith
  have hs1 : s / 3600 < 1 := by
    rw [div_lt_iff₀ (by norm_num)]
    linarith
  have en := abs_roundDouble_sub_le (x := (⌊S⌋ : ℚ) / 3600) (m := 0) hn3600
    (by norm_num; linarith) (by norm_num) (by norm_num)
  rw [p54, abs_le] at en
  have es := abs_roundDouble_sub_le (x := s / 3600) (m := 0) hs3600
    (by norm_num; linarith) (by norm_num) (by norm_num)
  rw [p54, abs_le] at es
  have hrn := roundDouble_nonneg hn3600
  have hrs := roundDouble_nonneg hs3600
  have ea := abs_roundDouble_sub_le
    (x := roundDouble ((D : ℚ) + roundDouble ((M : ℚ) / 60)) + roundDouble ((⌊S⌋ : ℚ) / 3600))
    (m := 7) (by linarith) (by norm_num; linarith) (by norm_num) (by norm_num)
  rw [p47, abs_le] at ea
  have eb := abs_roundDouble_sub_le
    (x := roundDouble ((D : ℚ) + roundDouble ((M : ℚ) / 60)) + roundDouble (s / 3600))
    (m := 7) (by linarith) (by norm_num; linarith) (by norm_num) (by norm_num)
  rw [p47, abs_le] at eb
  have hmono1 : roundDouble ((⌊S⌋ : ℚ) / 3600) ≤ roundDouble (s / 3600) :=
    roundDouble_mono (div_le_div_of_nonneg_right hns (by norm_num))
  have hmono2 := roundDouble_mono
    (show roundDouble ((D : ℚ) + roundDouble ((M : ℚ) / 60)) + roundDouble ((⌊S⌋ : ℚ) / 3600) ≤
      roundDouble ((D : ℚ) + roundDouble ((M : ℚ) / 60)) + roundDouble (s / 3600) by linarith)
  have hdiff : s / 3600 - (⌊S⌋ : ℚ) / 3600 ≤ 1 / 3600 := by
    rw [← sub_div]
    apply div_le_div_of_nonneg_right _ (by norm_num)
    linarith
  unfold doubleAdd doubleDiv
  refine ⟨by linarith, ?_, ?_⟩ <;>
    linarith [ea.1, ea.2, eb.1, eb.2, en.1, en.2, es.1, es.2]

/-- C13 (amended) on the tokens of "402505.994N743828.008W": the packed token
"402505.994" against "40", "25", "5.994"; the input parses within 0.001 of
(40.4183318, -74.6411133). -/
theorem packed_dms_close_witness :
    parse "402505.994N743828.008W".toList =
        .ok ⟨true, doubleAdd (doubleAdd 40 (doubleDiv 25 60)) (doubleDiv 5 3600),
          -doubleAdd (doubleAdd 74 (doubleDiv 38 60)) (doubleDiv 28 3600), ""⟩ ∧
      |doubleAdd (doubleAdd 40 (doubleDiv 25 60)) (doubleDiv 5 3600) - 40.4183318| < 0.001 ∧
      |-doubleAdd (doubleAdd 74 (doubleDiv 38 60)) (doubleDiv 28 3600) - -74.6411133| < 0.001 ∧
      ∃ a b, coordinateNumbersToDecimal ["402505.994".toList] = .ok a ∧
        coordinateNumbersToDecimal ["40".toList, "25".toList, "5.994".toList] = .ok b ∧
        a = doubleAdd (doubleAdd (40 : ℕ) (doubleDiv (25 : ℕ) 60))
          (doubleDiv (⌊(5.994 : ℚ)⌋ : ℚ) 3600) ∧
        0 ≤ b - a ∧ b - a < 1 / 3600 + 1 / 10 ^ 13 ∧ b - a < 1 / 1000 :=
  ⟨by decide!, by decide!, by decide!,
    packed_dms_close "402505.994".toList "40".toList "25".toList "5.994".toList 40 25 5.994
      (roundDouble 402505.994) (roundDouble 5.994) (by decide!) (by decide!) (by decide!)
      (by decide!) (by norm_num) (by norm_num) (by norm_num) (by decide!) (by decide!)
      (by decide!) (by decide!) (by decide!)⟩

/-! ## A leading minus sign -/

theorem detectSpecialFormats_with_sign (c : CoordinateNumber) (s : Int) :
    ({ c with sign := s } : CoordinateNumber).detectSpecialFormats =
      { c.detectSpecialFormats with sign := s } := by
  unfold CoordinateNumber.detectSpecialFormats
  simp only [CoordinateNumber.degreesCanBeMilliseconds,
    CoordinateNumber.degreesCanBeDegreesMinutesAndSeconds,
    CoordinateNumber.degreesCanBeDegreesAndMinutes]
  split_ifs <;> rfl

theorem normalizedSignOf_neg {v : ℚ} (hv : v ≠ 0) :
    normalizedSignOf (-v) = -normalizedSignOf v := by
  unfold normalizedSignOf
  rcases lt_or_gt_of_ne hv with h | h
  · rw [if_pos (by linarith), if_neg (by linarith)]; rfl
  · rw [if_neg (by linarith), if_pos (by linarith)]

/-- Negating a first token whose value does not become zero as a `float` negates the
decoded value. -/
theorem decode_neg_first {toks toks' : List (List Char)} {vals vals' : List ℚ}
    (h : toks.map stod = vals.map some) (h' : toks'.map stod = vals'.map some)
    (hne : vals ≠ []) (hlen : vals'.length = vals.length)
    (h0 : vals'.getD 0 0 = -vals.getD 0 0) (hnz : roundFloat (vals.getD 0 0) ≠ 0)
    (hrest : ∀ i, 1 ≤ i → vals'.getD i 0 = vals.getD i 0) :
    ∃ a, coordinateNumbersToDecimal toks = .ok a ∧ coordinateNumbersToDecimal toks' = .ok (-a) := by
  have hne' : vals' ≠ [] := by
    intro hnil
    rw [hnil] at hlen
    exact hne (List.length_eq_zero.mp hlen.symm)
  refine ⟨_, by rw [coordinateNumbersToDecimal, new_of_values h hne]; rfl, ?_⟩
  have hrf : roundFloat (-vals.getD 0 0) = -roundFloat (vals.getD 0 0) := roundBinary_neg _ _ _ _
  rw [coordinateNumbersToDecimal, new_of_values h' hne', h0, hrest 1 (by omega),
    hrest 2 (by omega), hrest 3 (by omega), hlen, abs_neg, hrf, normalizedSignOf_neg hnz]
  have := detectSpecialFormats_with_sign
    (CoordinateNumber.mk (normalizedSignOf (roundFloat (vals.getD 0 0))) |vals.getD 0 0|
      |vals.getD 1 0| |vals.getD 2 0| |vals.getD 3 0| (decide (vals.length < 2)))
    (-normalizedSignOf (roundFloat (vals.getD 0 0)))
  simp only at this
  simp only [Except.map, this, CoordinateNumber.toDecimal, Int.cast_neg,
    detectSpecialFormats_sign, doubleMul, neg_mul, roundDouble_neg]

/-- C15 at the tokens "0", "30": prefixing `-` to the first token does not negate the
decoded value, which is +1/2 for "-0", "30" as well; so "-0 30, 1 0" parses to the
latitude +1/2. -/
theorem negative_zero_not_negated :
    ("0".toList).head? ≠ some '-' ∧
      coordinateNumbersToDecimal ["0".toList, "30".toList] = .ok (1 / 2) ∧
      coordinateNumbersToDecimal [('-' :: "0".toList), "30".toList] = .ok (1 / 2) ∧
      coordinateNumbersToDecimal [('-' :: "0".toList), "30".toList] ≠ .ok (-(1 / 2)) ∧
      parse "-0 30, 1 0".toList = .ok ⟨true, 1 / 2, 1, ""⟩ ∧
      parse "0 30, 1 0".toList = .ok ⟨true, 1 / 2, 1, ""⟩ :=
  ⟨by decide, by decide!, by decide!, by decide!, by decide!, by decide!⟩

/-! ## The first match of the number pattern -/

theorem starLoop_cls_head {p : Char → Bool} (n : Nat) (s : List Char) (hn : s.length ≤ n) :
    ∃ l, starLoop (Regex.cls p).run n s = s.dropWhile p :: l := by
  induction n generalizing s with
  | zero =>
    have hs : s = [] := List.length_eq_zero.mp (Nat.le_zero.mp hn)
    subst hs
    exact ⟨[], rfl⟩
  | succ n ih =>
    cases s with
    | nil => exact ⟨[], rfl⟩
    | cons c u =>
      have hu : u.length ≤ n := by simpa using hn
      by_cases hc : p c = true
      · obtain ⟨l, hl⟩ := ih u hu
        refine ⟨l ++ [c :: u], ?_⟩
        simp only [starLoop, Regex.run, hc, if_true, List.filter_cons, List.length_cons,
          Nat.lt_succ_self, decide_True, List.filter_nil, List.flatMap_cons, List.flatMap_nil,
          List.append_nil, hl, List.dropWhile_cons, List.cons_append]
      · refine ⟨[], ?_⟩
        simp only [starLoop, Regex.run, hc, List.filter_nil, List.flatMap_nil, List.nil_append,
          if_false, Bool.false_eq_true, List.dropWhile_cons]

theorem run_seq (a b : Regex) (s : List Char) :
    (Regex.seq a b).run s = (a.run s).flatMap b.run := rfl

theorem run_opt (a : Regex) (s : List Char) : (Regex.opt a).run s = a.run s ++ [s] := rfl

theorem run_cls_cons (p : Char → Bool) (c : Char) (t : List Char) :
    (Regex.cls p).run (c :: t) = if p c = true then [t] else [] := rfl

theorem run_cls_nil (p : Char → Bool) : (Regex.cls p).run [] = [] := rfl

theorem run_plus_digit_cons (d : Char) (u : List Char) :
    (Regex.plus (Regex.cls isDigit)).run (d :: u) =
      if isDigit d = true then (Regex.star (Regex.cls isDigit)).run u else [] := by
  by_cases hd : isDigit d = true
  · simp [Regex.plus, Regex.run, hd]
  · simp [Regex.plus, Regex.run, hd]

theorem run_plus_digit_nil : (Regex.plus (Regex.cls isDigit)).run [] = [] := by
  simp [Regex.plus, Regex.run]

/-- The pattern `\d+` at the front of `s`: no match without a digit there, else the
first match is the longest run of digits. -/
theorem run_plus_digit (s : List Char) :
    (s.takeWhile isDigit = [] → (Regex.plus (Regex.cls isDigit)).run s = []) ∧
    (s.takeWhile isDigit ≠ [] →
      ∃ l, (Regex.plus (Regex.cls isDigit)).run s = s.dropWhile isDigit :: l) := by
  cases s with
  | nil => exact ⟨fun _ => run_plus_digit_nil, fun h => absurd rfl h⟩
  | cons d u =>
    rw [run_plus_digit_cons]
    by_cases hd : isDigit d = true
    · constructor
      · intro h
        simp [List.takeWhile_cons, hd] at h
      · intro _
        obtain ⟨l, hl⟩ := starLoop_cls_head (p := isDigit) u.length u (Nat.le_refl _)
        refine ⟨l, ?_⟩
        simp only [hd, if_true, Regex.run, hl, List.dropWhile_cons]
    · constructor
      · intro _; simp [hd]
      · intro h
        simp [List.takeWhile_cons, hd] at h

theorem head?_flatMap_of_cons {α β : Type} (f : α → List β) (x : α) (l : List α)
    (hx : f x ≠ []) : ((x :: l).flatMap f).head? = (f x).head? := by
  rw [List.flatMap_cons]
  cases h : f x with
  | nil => exact absurd h hx
  | cons y ys => rfl

/-- The pattern `(\.\d+)?` at the front of `v` always matches, first with the
fraction when there is one. -/
theorem run_opt_fraction (v : List Char) :
    ∃ l, (Regex.opt (Regex.seq (Regex.cls isDot) (Regex.plus (Regex.cls isDigit)))).run v =
      (match v with
        | c :: t =>
          if (isDot c && !(t.takeWhile isDigit).isEmpty) = true then t.dropWhile isDigit
          else c :: t
        | [] => []) :: l := by
  cases v with
  | nil => exact ⟨[], by rw [run_opt, run_seq, run_cls_nil]; rfl⟩
  | cons c t =>
    by_cases hc : isDot c = true
    · by_cases ht : t.takeWhile isDigit = []
      · refine ⟨[], ?_⟩
        rw [run_opt, run_seq, run_cls_cons, if_pos hc, List.flatMap_cons, List.flatMap_nil,
          List.append_nil, (run_plus_digit t).1 ht]
        simp [ht]
      · obtain ⟨l, hl⟩ := (run_plus_digit t).2 ht
        refine ⟨l ++ [c :: t], ?_⟩
        have hne : (t.takeWhile isDigit).isEmpty = false := by
          cases h : t.takeWhile isDigit with
          | nil => exact absurd h ht
          | cons _ _ => rfl
        rw [run_opt, run_seq, run_cls_cons, if_pos hc, List.flatMap_cons, List.flatMap_nil,
          List.append_nil, hl]
        simp [hne, hc]
    · refine ⟨[], ?_⟩
      rw [run_opt, run_seq, run_cls_cons, if_neg hc]
      simp [hc]

/-- The first match of `\d+(\.\d+)?` at the front of a string is the greedy one. -/
theorem head?_run_unsigned (s : List Char) :
    ((Regex.seq (Regex.plus (Regex.cls isDigit))
      (Regex.opt (Regex.seq (Regex.cls isDot) (Regex.plus (Regex.cls isDigit))))).run s).head?
      = (greedyUnsignedAt s).map Prod.snd := by
  unfold greedyUnsignedAt
  by_cases hs : s.takeWhile isDigit = []
  · have : (s.takeWhile isDigit).isEmpty = true := by rw [hs]; rfl
    rw [if_pos this, run_seq, (run_plus_digit s).1 hs]
    rfl
  · have hne : (s.takeWhile isDigit).isEmpty = false := by
      cases h : s.takeWhile isDigit with
      | nil => exact absurd h hs
      | cons _ _ => rfl
    rw [hne]
    simp only [Bool.false_eq_true, if_false]
    obtain ⟨l, hl⟩ := (run_plus_digit s).2 hs
    obtain ⟨l', hl'⟩ := run_opt_fraction (s.dropWhile isDigit)
    have hrun : (Regex.seq (Regex.plus (Regex.cls isDigit))
        (Regex.opt (Regex.seq (Regex.cls isDot) (Regex.plus (Regex.cls isDigit))))).run s =
        (s.dropWhile isDigit :: l).flatMap
          (Regex.opt (Regex.seq (Regex.cls isDot) (Regex.plus (Regex.cls isDigit)))).run := by
      rw [← hl]; rfl
    rw [hrun, head?_flatMap_of_cons _ _ _ (by rw [hl']; exact List.cons_ne_nil _ _), hl']
    cases hv : s.dropWhile isDigit with
    | nil => rfl
    | cons c t =>
      simp only [List.head?_cons]
      split_ifs <;> rfl

/-- The first match of `-?\d+(\.\d+)?` at the front of a string is the greedy one. -/
theorem head?_run_numberRegex (s : List Char) :
    (numberRegex.run s).head? = (greedyNumberAt s).map Prod.snd := by
  have hseq : ∀ u, numberRegex.run u =
      ((Regex.opt (Regex.cls isMinus)).run u).flatMap
        (Regex.seq (Regex.plus (Regex.cls isDigit))
          (Regex.opt (Regex.seq (Regex.cls isDot) (Regex.plus (Regex.cls isDigit))))).run :=
    fun _ => rfl
  cases s with
  | nil =>
    rw [hseq]
    have h := head?_run_unsigned []
    rw [run_opt, run_cls_nil, List.nil_append, List.flatMap_cons, List.flatMap_nil,
      List.append_nil, h]
    rfl
  | cons c t =>
    rw [hseq]
    by_cases hc : isMinus c = true
    · have hnd : isDigit c = false := by
        simp only [isMinus, beq_iff_eq] at hc
        simp only [isDigit, decide_eq_false_iff_not]
        omega
      have hbody : (Regex.seq (Regex.plus (Regex.cls isDigit))
          (Regex.opt (Regex.seq (Regex.cls isDot) (Regex.plus (Regex.cls isDigit))))).run (c :: t)
          = [] := by
        have : (c :: t).takeWhile isDigit = [] := by simp [List.takeWhile_cons, hnd]
        rw [run_seq, (run_plus_digit (c :: t)).1 this]
        rfl
      have hopt : (Regex.opt (Regex.cls isMinus)).run (c :: t) = [t, c :: t] := by
        rw [run_opt, run_cls_cons, if_pos hc]
        rfl
      rw [hopt]
      simp only [List.flatMap_cons, List.flatMap_nil, List.append_nil, hbody]
      rw [head?_run_unsigned t]
      simp only [greedyNumberAt, hc, if_true, Option.map_map]
      rfl
    · have hopt : (Regex.opt (Regex.cls isMinus)).run (c :: t) = [c :: t] := by
        rw [run_opt, run_cls_cons, if_neg hc]
        rfl
      rw [hopt]
      simp only [List.flatMap_cons, List.flatMap_nil, List.append_nil]
      rw [head?_run_unsigned (c :: t)]
      simp only [greedyNumberAt, hc, if_false, Bool.false_eq_true]

/-! ## The greedy match -/

theorem takeWhile_all {p : Char → Bool} (s : List Char) : ∀ c ∈ s.takeWhile p, p c = true :=
  fun _ hc => List.mem_takeWhile_imp hc

/-- A greedy match of the unsigned pattern splits the string in a numeral without sign
and the rest. -/
theorem greedyUnsignedAt_some {s m r : List Char} (h : greedyUnsignedAt s = some (m, r)) :
    s = m ++ r ∧ ∃ ip fp, m = ip ++ fp ∧ ip ≠ [] ∧ (∀ c ∈ ip, isDigit c = true) ∧
      (fp = [] ∨ ∃ c fd, fp = c :: fd ∧ isDot c = true ∧ fd ≠ [] ∧
        ∀ x ∈ fd, isDigit x = true) := by
  unfold greedyUnsignedAt at h
  split at h
  · exact absurd h (by simp)
  · rename_i hne
    have hip : s.takeWhile isDigit ≠ [] := by
      intro hnil
      rw [hnil] at hne
      exact hne rfl
    have hsplit : s = s.takeWhile isDigit ++ s.dropWhile isDigit :=
      (List.takeWhile_append_dropWhile isDigit s).symm
    split at h
    · rename_i c t hdrop
      split at h
      · rename_i hcond
        simp only [Bool.and_eq_true, Bool.not_eq_true', List.isEmpty_eq_false] at hcond
        simp only [Option.some.injEq, Prod.mk.injEq] at h
        obtain ⟨rfl, rfl⟩ := h
        have htsplit : t = t.takeWhile isDigit ++ t.dropWhile isDigit :=
          (List.takeWhile_append_dropWhile isDigit t).symm
        refine ⟨?_, s.takeWhile isDigit, c :: t.takeWhile isDigit, rfl, hip, takeWhile_all s,
          Or.inr ⟨c, _, rfl, hcond.1, ?_, takeWhile_all t⟩⟩
        · conv_lhs => rw [hsplit, hdrop, htsplit]
          simp
        · intro hnil
          rw [hnil] at hcond
          exact absurd hcond.2 (by simp)
      · simp only [Option.some.injEq, Prod.mk.injEq] at h
        obtain ⟨rfl, rfl⟩ := h
        refine ⟨?_, s.takeWhile isDigit, [], by simp, hip, takeWhile_all s, Or.inl rfl⟩
        conv_lhs => rw [hsplit, hdrop]
    · rename_i hdrop
      simp only [Option.some.injEq, Prod.mk.injEq] at h
      obtain ⟨rfl, rfl⟩ := h
      refine ⟨?_, s.takeWhile isDigit, [], by simp, hip, takeWhile_all s, Or.inl rfl⟩
      conv_lhs => rw [hsplit, hdrop]

/-- A greedy match splits the string in a numeral and the rest. -/
theorem greedyNumberAt_some {s m r : List Char} (h : greedyNumberAt s = some (m, r)) :
    s = m ++ r ∧ IsNumeral m := by
  cases s with
  | nil => exact absurd h (by simp [greedyNumberAt])
  | cons c t =>
    simp only [greedyNumberAt] at h
    split at h
    · rename_i hc
      cases hu : greedyUnsignedAt t with
      | none => rw [hu] at h; exact absurd h (by simp)
      | some x =>
        obtain ⟨m', r'⟩ := x
        rw [hu] at h
        simp only [Option.map_some', Option.some.injEq, Prod.mk.injEq] at h
        obtain ⟨rfl, rfl⟩ := h
        obtain ⟨hs, ip, fp, hm, hip, hdig, hfp⟩ := greedyUnsignedAt_some hu
        refine ⟨by rw [hs]; rfl, [c], ip, fp, by rw [hm]; rfl, Or.inr ⟨c, rfl, hc⟩, hip, hdig,
          hfp⟩
    · obtain ⟨hs, ip, fp, hm, hip, hdig, hfp⟩ := greedyUnsignedAt_some h
      exact ⟨hs, [], ip, fp, by rw [hm]; rfl, Or.inl rfl, hip, hdig, hfp⟩

/-- Where a digit stands there is a greedy match. -/
theorem greedyNumberAt_digit {d : Char} (t : List Char) (hd : isDigit d = true) :
    greedyNumberAt (d :: t) ≠ none := by
  have hm : isMinus d = false := (isDigit_not_others hd).2.1
  simp only [greedyNumberAt, hm, Bool.false_eq_true, if_false]
  unfold greedyUnsignedAt
  have : ((d :: t).takeWhile isDigit).isEmpty = false := by
    simp [List.takeWhile_cons, hd]
  rw [this]
  simp only [Bool.false_eq_true, if_false]
  split
  · split <;> simp
  · simp

/-- The search of the number pattern returns the leftmost greedy match. -/
theorem regexSearch_numberRegex_eq (s : List Char) :
    regexSearch numberRegex s = (leftmostGreedy s).map (fun x => (x.2.1, x.2.2)) := by
  induction s with
  | nil =>
    have h := head?_run_numberRegex []
    simp only [greedyNumberAt, Option.map_none', List.head?_eq_none_iff] at h
    simp only [regexSearch, h, leftmostGreedy, Option.map_none']
  | cons c t ih =>
    have h := head?_run_numberRegex (c :: t)
    cases hg : greedyNumberAt (c :: t) with
    | none =>
      rw [hg] at h
      simp only [Option.map_none', List.head?_eq_none_iff] at h
      simp only [regexSearch, h, leftmostGreedy, hg, ih, Option.map_map]
      rfl
    | some x =>
      obtain ⟨m, r⟩ := x
      rw [hg] at h
      simp only [Option.map_some'] at h
      obtain ⟨hs, _⟩ := greedyNumberAt_some hg
      cases hrun : numberRegex.run (c :: t) with
      | nil => rw [hrun] at h; exact absurd h (by simp)
      | cons r' l =>
        rw [hrun] at h
        simp only [List.head?_cons, Option.some.injEq] at h
        subst h
        simp only [regexSearch, hrun, leftmostGreedy, hg, Option.map_some']
        congr 2
        rw [hs]
        simp

/-- A leftmost greedy match: the skipped text has no digit, the match is a numeral,
and the three parts make up the string. -/
theorem leftmostGreedy_some {s gap m r : List Char} (h : leftmostGreedy s = some (gap, m, r)) :
    s = gap ++ (m ++ r) ∧ (∀ c ∈ gap, isDigit c = false) ∧ IsNumeral m := by
  induction s generalizing gap with
  | nil => exact absurd h (by simp [leftmostGreedy])
  | cons c t ih =>
    simp only [leftmostGreedy] at h
    split at h
    · rename_i m' r' hg
      simp only [Option.some.injEq, Prod.mk.injEq] at h
      obtain ⟨rfl, rfl, rfl⟩ := h
      obtain ⟨hs, hnum⟩ := greedyNumberAt_some hg
      exact ⟨by simpa using hs, by simp, hnum⟩
    · rename_i hg
      cases hl : leftmostGreedy t with
      | none => rw [hl] at h; exact absurd h (by simp)
      | some x =>
        obtain ⟨g', m', r'⟩ := x
        rw [hl] at h
        simp only [Option.map_some', Option.some.injEq, Prod.mk.injEq] at h
        obtain ⟨rfl, rfl, rfl⟩ := h
        obtain ⟨hs, hgap, hnum⟩ := ih hl
        refine ⟨by rw [hs]; rfl, ?_, hnum⟩
        intro x hx
        rcases List.mem_cons.mp hx with rfl | hx
        · cases hd : isDigit x
          · rfl
          · exact absurd hg (greedyNumberAt_digit t hd)
        · exact hgap x hx

/-- There is no greedy match exactly in the strings without a digit. -/
theorem leftmostGreedy_none {s : List Char} (h : leftmostGreedy s = none) :
    ∀ c ∈ s, isDigit c = false := by
  induction s with
  | nil => intro c hc; exact absurd hc (List.not_mem_nil _)
  | cons c t ih =>
    simp only [leftmostGreedy] at h
    split at h
    · exact absurd h (by simp)
    · rename_i hg
      have ht : leftmostGreedy t = none := by
        cases hl : leftmostGreedy t with
        | none => rfl
        | some x => rw [hl] at h; exact absurd h (by simp)
      intro x hx
      rcases List.mem_cons.mp hx with rfl | hx
      · cases hd : isDigit x
        · rfl
        · exact absurd hg (greedyNumberAt_digit t hd)
      · exact ih ht x hx

/-! ## The extracted tokens -/

theorem isNumeral_ne_nil {m : List Char} (h : IsNumeral m) : m ≠ [] := by
  obtain ⟨sg, ip, fp, rfl, _, hip, _⟩ := h
  cases ip with
  | nil => exact absurd rfl hip
  | cons d ip' => simp

theorem isNumeral_tokenHead {m : List Char} (h : IsNumeral m) : TokenHead m := by
  obtain ⟨sg, ip, fp, rfl, hsg, hip, hdig, _⟩ := h
  cases ip with
  | nil => exact absurd rfl hip
  | cons d ip' =>
    exact ⟨sg, d, ip' ++ fp, by simp, hsg, hdig d (List.mem_cons_self _ _)⟩

/-- A numeral is matched in full by the number pattern. -/
theorem isNumeral_regexMatch {m : List Char} (h : IsNumeral m) :
    regexMatch numberRegex m = true := by
  have hmem : [] ∈ numberRegex.run m := by
    obtain ⟨sg, ip, fp, rfl, hsg, hip, hdig, hfp⟩ := h
    have plus_mem : ∀ (ds rest : List Char), ds ≠ [] → (∀ c ∈ ds, isDigit c = true) →
        rest ∈ (Regex.plus (Regex.cls isDigit)).run (ds ++ rest) := by
      intro ds rest hne hall
      cases ds with
      | nil => exact absurd rfl hne
      | cons d ds' =>
        refine mem_run_seq.mpr ⟨ds' ++ rest, mem_run_cls.mpr ⟨d, rfl, hall d (by simp)⟩, ?_⟩
        exact mem_run_star_cls.mpr ⟨ds', rfl, fun c hc => hall c (List.mem_cons_of_mem _ hc)⟩
    simp only [numberRegex]
    refine mem_run_seq.mpr ⟨ip ++ fp, ?_, ?_⟩
    · rcases hsg with rfl | ⟨c, rfl, hc⟩
      · exact mem_run_opt.mpr (Or.inr rfl)
      · exact mem_run_opt.mpr (Or.inl (mem_run_cls.mpr ⟨c, rfl, hc⟩))
    · refine mem_run_seq.mpr ⟨fp, plus_mem ip fp hip hdig, ?_⟩
      rcases hfp with rfl | ⟨c, fd, rfl, hc, hfd, hfdig⟩
      · exact mem_run_opt.mpr (Or.inr rfl)
      · refine mem_run_opt.mpr (Or.inl (mem_run_seq.mpr ⟨fd, mem_run_cls.mpr ⟨c, rfl, hc⟩, ?_⟩))
        have := plus_mem fd [] hfd hfdig
        simpa using this
  simpa [regexMatch] using hmem

/-- The loop of `extractCoordinateNumbers` against the specification: with fuel for
more iterations than the string has characters it reaches its end, and its tokens are
the successive leftmost greedy matches, which cover the digits of the string. -/
theorem extractLoop_spec (n : Nat) : ∀ s : List Char, s.length < n →
    extractRun n s = some (extractLoop n s) ∧ TokenisedBy s (extractLoop n s) ∧
      CoveredBy s (extractLoop n s) ∧ ∀ tok ∈ extractLoop n s, IsNumeral tok := by
  induction n with
  | zero => intro s h; omega
  | succ n ih =>
    intro s hn
    have hsearch := regexSearch_numberRegex_eq s
    cases hl : leftmostGreedy s with
    | none =>
      rw [hl] at hsearch
      simp only [Option.map_none'] at hsearch
      simp only [extractRun, extractLoop, hsearch]
      exact ⟨trivial, hl, leftmostGreedy_none hl, fun _ h => absurd h (List.not_mem_nil _)⟩
    | some x =>
      obtain ⟨gap, m, r⟩ := x
      rw [hl] at hsearch
      simp only [Option.map_some'] at hsearch
      obtain ⟨hs, hgap, hnum⟩ := leftmostGreedy_some hl
      have hm : 0 < m.length := List.length_pos.mpr (isNumeral_ne_nil hnum)
      have hr : r.length < n := by
        have := congrArg List.length hs
        simp only [List.length_append] at this
        omega
      obtain ⟨h1, h2, h3, h4⟩ := ih r hr
      simp only [extractRun, extractLoop, hsearch, h1, Option.map_some']
      refine ⟨trivial, ⟨gap, r, hl, h2⟩, ⟨gap, r, hs, hgap, h3⟩, ?_⟩
      intro tok htok
      rcases List.mem_cons.mp htok with rfl | htok
      · exact hnum
      · exact h4 tok htok

/-- Every extracted token is a numeral. -/
theorem extractCoordinateNumbers_isNumeral (s tok : List Char)
    (h : tok ∈ extractCoordinateNumbers s) : IsNumeral tok :=
  (extractLoop_spec (s.length + 1) s (Nat.lt_succ_self _)).2.2.2 tok h

/-- C18: `extractCoordinateNumbers` terminates (fuel for more iterations than the input
has characters reaches the end of the loop, with the same tokens whatever the fuel) and
returns the tokens obtained by repeatedly taking the leftmost greedy match of "optional
`-`, one or more digits, optional `.` followed by one or more digits" from the end of
the previous match; every token matches the pattern in full; the tokens lie in the
input from left to right without overlap and no digit is outside them. -/
theorem extract_is_leftmost_greedy (s : List Char) :
    (∀ n, s.length < n → extractRun n s = some (extractCoordinateNumbers s)) ∧
      TokenisedBy s (extractCoordinateNumbers s) ∧
      (∀ tok ∈ extractCoordinateNumbers s,
        IsNumeral tok ∧ regexMatch numberRegex tok = true) ∧
      CoveredBy s (extractCoordinateNumbers s) := by
  obtain ⟨h1, h2, h3, h4⟩ := extractLoop_spec (s.length + 1) s (Nat.lt_succ_self _)
  refine ⟨?_, h2, fun tok htok => ⟨h4 tok htok, isNumeral_regexMatch (h4 tok htok)⟩, h3⟩
  intro n hn
  rw [(extractLoop_spec n s hn).1]
  unfold extractCoordinateNumbers
  rw [extractLoop_fuel n (s.length + 1) s hn (Nat.lt_succ_self _)]

/-- C18 on "40-25.0999" and on "1.2.3". -/
theorem extract_is_leftmost_greedy_witness :
    extractCoordinateNumbers "40-25.0999".toList = ["40".toList, "-25.0999".toList] ∧
      extractCoordinateNumbers "1.2.3".toList = ["1.2".toList, "3".toList] ∧
      extractRun 6 "1.2.3".toList = some (extractCoordinateNumbers "1.2.3".toList) ∧
      TokenisedBy "1.2.3".toList (extractCoordinateNumbers "1.2.3".toList) ∧
      CoveredBy "40-25.0999".toList (extractCoordinateNumbers "40-25.0999".toList) :=
  ⟨by decide, by decide,
    (extract_is_leftmost_greedy "1.2.3".toList).1 6 (by decide),
    (extract_is_leftmost_greedy "1.2.3".toList).2.1,
    (extract_is_leftmost_greedy "40-25.0999".toList).2.2.2⟩

/-! ## Decoding after validation -/

/-- On a valid input each of the two halves handed to `coordinateNumbersToDecimal` has
1 to 3 tokens, and every token is a numeral, matched in full by the number pattern,
that denotes a number. -/
theorem tokens_of_valid (s : List Char) (hv : (isValid s).ok = true) :
    (1 ≤ ((extractCoordinateNumbers s).take ((extractCoordinateNumbers s).length / 2)).length ∧
      ((extractCoordinateNumbers s).take ((extractCoordinateNumbers s).length / 2)).length ≤ 3) ∧
    (1 ≤ ((extractCoordinateNumbers s).drop ((extractCoordinateNumbers s).length / 2)).length ∧
      ((extractCoordinateNumbers s).drop ((extractCoordinateNumbers s).length / 2)).length ≤ 3) ∧
    (∀ tok ∈ extractCoordinateNumbers s,
      IsNumeral tok ∧ regexMatch numberRegex tok = true ∧ ∃ v, decimalValue tok = some v) := by
  refine ⟨(halves_of_valid hv).1, (halves_of_valid hv).2, ?_⟩
  intro tok htk
  have hnum := extractCoordinateNumbers_isNumeral s tok htk
  obtain ⟨v, hv', _⟩ := decimalValue_tokenHead (extractCoordinateNumbers_tokenHead s tok htk)
  exact ⟨hnum, isNumeral_regexMatch hnum, v, hv'⟩

/-- C19 at the input "2", 308 zeros, ", 1": the input passes `isValid` and each half has
one token, but the decoding of the first half fails: its token is a well-formed numeral
of value 2e308, beyond the range of `double`, for which `std::stod` throws
`std::out_of_range`; the exception leaves the constructor and
`coordinateNumbersToDecimal`. -/
theorem decoding_fails_after_validation :
    (isValid outOfRangeInput).ok = true ∧
      (extractCoordinateNumbers outOfRangeInput).take
          ((extractCoordinateNumbers outOfRangeInput).length / 2) =
        ['2' :: List.replicate 308 '0'] ∧
      regexMatch numberRegex ('2' :: List.replicate 308 '0') = true ∧
      decimalValue ('2' :: List.replicate 308 '0') = some (2 * 10 ^ 308) ∧
      stod ('2' :: List.replicate 308 '0') = none ∧
      CoordinateNumber.new ['2' :: List.replicate 308 '0'] = .error "std::out_of_range" ∧
      coordinateNumbersToDecimal ((extractCoordinateNumbers outOfRangeInput).take
          ((extractCoordinateNumbers outOfRangeInput).length / 2)) =
        .error "std::out_of_range" :=
  ⟨by decide!, by decide!, by decide!, by decide!, by decide!, by decide!, by decide!⟩

/-! ## Parsing a pair written in decimal notation -/

theorem isDigit_not_dot {c : Char} (h : isDigit c = true) : isDot c = false := by
  simp only [isDigit, decide_eq_true_eq] at h
  simp only [isDot, beq_eq_false_iff_ne]
  omega

theorem isDot_not_digit {c : Char} (h : isDot c = true) : isDigit c = false := by
  simp only [isDot, beq_iff_eq] at h
  simp only [isDigit, decide_eq_false_iff_not]
  omega

end CoordinateParser
